import Mathlib

/-!
# Verification of the crypto matching engine core

Shallow embedding of the matching subsystem:
`src/models/orders.py`, `src/matching_engine/order_book.py`,
`src/matching_engine/engine.py`.

Modelling conventions:
* `Decimal` values (prices, quantities) are embedded as `Int`.  The engine
  only adds, subtracts, takes `min` and compares these values, and all of
  those operations on decimals of a fixed scale are exactly the integer
  operations on the scaled values.
* Order / trade identifiers (uuid strings) are embedded as `Nat`.
* Python `dict`/`SortedDict` objects are embedded as association lists;
  the sortedness of `SortedDict` key iteration is carried as an explicit
  invariant (`AsksSorted` / `BidsSorted`).
* Code that can raise (`Order.fill`, paths that would hit a `TypeError`)
  returns `Except String _`; `submit_order` catches these and reports
  status REJECTED, as the Python does.
* Wall-clock timestamps and uuid generation are irrelevant to every claim
  and are omitted from the records.
-/

/-- `OrderType` enum from `models/orders.py`. -/
inductive OrderType where
  | market
  | limit
  | ioc
  | fok
deriving DecidableEq, Repr

/-- `OrderSide` enum from `models/orders.py`. -/
inductive OrderSide where
  | buy
  | sell
deriving DecidableEq, Repr

/-- `OrderStatus` enum from `models/orders.py`.  The PARTIAL status is
spelled `partFilled` here (its Python name is a Lean keyword). -/
inductive OrderStatus where
  | pending
  | partFilled
  | filled
  | cancelled
  | rejected
deriving DecidableEq, Repr

/-- The `Order` dataclass (`models/orders.py`).  `quantity` is immutable
after construction; `filled_quantity`/`remaining_quantity`/`status` are the
mutable lifecycle fields, threaded explicitly. -/
structure Order where
  order_id : Nat
  symbol : String
  order_type : OrderType
  side : OrderSide
  quantity : Int
  price : Option Int
  status : OrderStatus
  filled_quantity : Int
  remaining_quantity : Int
deriving DecidableEq, Repr

/-- `Order.__post_init__`: computes `remaining_quantity` and validates.
Mirrors the exact order of the `raise ValueError` checks. -/
def Order.build (order_id : Nat) (symbol : String) (order_type : OrderType)
    (side : OrderSide) (quantity : Int) (price : Option Int) :
    Except String Order :=
  if quantity ≤ 0 then
    .error "Order quantity must be positive"
  else if order_type ≠ OrderType.market ∧ price = none then
    .error "orders require a price"
  else if order_type = OrderType.market ∧ price ≠ none then
    .error "Market orders should not have a price"
  else if (match price with | some p => decide (p ≤ 0) | none => false) then
    .error "Order price must be positive"
  else
    .ok { order_id := order_id
          symbol := symbol
          order_type := order_type
          side := side
          quantity := quantity
          price := price
          status := OrderStatus.pending
          filled_quantity := 0
          remaining_quantity := quantity }

/-- `Order.fill`: partially or fully fill the order, updating status. -/
def Order.fill (o : Order) (q : Int) : Except String Order :=
  if q ≤ 0 then
    .error "Fill quantity must be positive"
  else if o.remaining_quantity < q then
    .error "Fill quantity exceeds remaining quantity"
  else
    let filled := o.filled_quantity + q
    let rem := o.remaining_quantity - q
    let st :=
      if rem = 0 then OrderStatus.filled
      else if 0 < filled then OrderStatus.partFilled
      else o.status
    .ok { o with filled_quantity := filled, remaining_quantity := rem,
                 status := st }

/-- The `Trade` dataclass (`models/orders.py`); timestamp/uuid/fee fields
omitted (fees are always `None` in the core, timestamps are wall clock). -/
structure Trade where
  symbol : String
  price : Int
  quantity : Int
  aggressor_side : OrderSide
  maker_order_id : Nat
  taker_order_id : Nat
deriving DecidableEq, Repr

/-- `PriceLevel` (`order_book.py`): FIFO queue (deque) plus aggregate. -/
structure PriceLevel where
  price : Int
  orders : List Order
  total_quantity : Int
deriving DecidableEq, Repr

/-- `PriceLevel.add_order`: append at the tail, bump the aggregate. -/
def PriceLevel.addOrder (L : PriceLevel) (o : Order) : PriceLevel :=
  { L with orders := L.orders ++ [o],
           total_quantity := L.total_quantity + o.remaining_quantity }

/-- Helper for `PriceLevel.remove_order`: delete the first order with the
given id from the queue, returning it. -/
def extractFirst (oid : Nat) : List Order → Option (Order × List Order)
  | [] => none
  | o :: rest =>
    if o.order_id = oid then some (o, rest)
    else match extractFirst oid rest with
      | none => none
      | some (r, rest') => some (r, o :: rest')

/-- `PriceLevel.remove_order`: remove the first queue entry with this id and
subtract its remaining quantity from the aggregate. -/
def PriceLevel.removeOrder (L : PriceLevel) (oid : Nat) :
    Option Order × PriceLevel :=
  match extractFirst oid L.orders with
  | none => (none, L)
  | some (r, rest) =>
    (some r, { L with orders := rest,
                      total_quantity := L.total_quantity - r.remaining_quantity })

/-- `PriceLevel.update_quantity`. -/
def PriceLevel.updateQuantity (L : PriceLevel) (delta : Int) : PriceLevel :=
  { L with total_quantity := L.total_quantity + delta }

/-- `PriceLevel.is_empty`: no orders *or* zero aggregate quantity. -/
def PriceLevel.isEmpty (L : PriceLevel) : Bool :=
  L.orders.isEmpty || L.total_quantity == 0

/-! ## Side maps

A `SideMap` embeds one `SortedDict` (price → `PriceLevel`).  The list
order is the dictionary's iteration order: ascending keys on the ask
side, descending on the bid side (invariants stated later). -/

abbrev SideMap := List (Int × PriceLevel)

/-- Dictionary lookup. -/
def SideMap.find (m : SideMap) (p : Int) : Option PriceLevel :=
  match m with
  | [] => none
  | (k, L) :: rest => if k = p then some L else SideMap.find rest p

/-- Key membership. -/
def SideMap.containsKey (m : SideMap) (p : Int) : Bool :=
  match m with
  | [] => false
  | (k, _) :: rest => k == p || SideMap.containsKey rest p

/-- Replace the value at key `p` when present; no-op when absent.  This is
what mutating a `PriceLevel` object held in the dict amounts to. -/
def SideMap.set (m : SideMap) (p : Int) (L : PriceLevel) : SideMap :=
  match m with
  | [] => []
  | (k, L₀) :: rest =>
    if k = p then (k, L) :: rest else (k, L₀) :: SideMap.set rest p L

/-- `del book[p]`. -/
def SideMap.erase (m : SideMap) (p : Int) : SideMap :=
  match m with
  | [] => []
  | (k, L₀) :: rest =>
    if k = p then rest else (k, L₀) :: SideMap.erase rest p

/-- `book[p] = PriceLevel(p)` for a fresh key on an ascending-ordered
(`asks`) map: insert keeping ascending key order. -/
def SideMap.insertAsc (m : SideMap) (p : Int) (L : PriceLevel) : SideMap :=
  match m with
  | [] => [(p, L)]
  | (k, L₀) :: rest =>
    if p < k then (p, L) :: (k, L₀) :: rest
    else (k, L₀) :: SideMap.insertAsc rest p L

/-- Fresh-key insert on a descending-ordered (`bids`) map. -/
def SideMap.insertDesc (m : SideMap) (p : Int) (L : PriceLevel) : SideMap :=
  match m with
  | [] => [(p, L)]
  | (k, L₀) :: rest =>
    if k < p then (p, L) :: (k, L₀) :: rest
    else (k, L₀) :: SideMap.insertDesc rest p L

/-- First key of the iteration order (best price of the side). -/
def SideMap.firstKey (m : SideMap) : Option Int :=
  match m with
  | [] => none
  | (k, _) :: _ => some k

/-! ## The order book -/

/-- The per-order entry of the `orders` id → order index.  The Python dict
stores the `Order` object, but the engine only ever reads the object's
immutable `side` and `price` through this index (plus key membership), so
the entry carries exactly those. -/
structure IndexEntry where
  side : OrderSide
  price : Int
deriving DecidableEq, Repr

abbrev OrderIndex := List (Nat × IndexEntry)

def OrderIndex.find (m : OrderIndex) (oid : Nat) : Option IndexEntry :=
  match m with
  | [] => none
  | (k, e) :: rest => if k = oid then some e else OrderIndex.find rest oid

def OrderIndex.containsKey (m : OrderIndex) (oid : Nat) : Bool :=
  match m with
  | [] => false
  | (k, _) :: rest => k == oid || OrderIndex.containsKey rest oid

/-- `self.orders[oid] = entry` (dict set: replace or append). -/
def OrderIndex.set (m : OrderIndex) (oid : Nat) (e : IndexEntry) : OrderIndex :=
  match m with
  | [] => [(oid, e)]
  | (k, e₀) :: rest =>
    if k = oid then (k, e) :: rest else (k, e₀) :: OrderIndex.set rest oid e

/-- `del self.orders[oid]`. -/
def OrderIndex.erase (m : OrderIndex) (oid : Nat) : OrderIndex :=
  match m with
  | [] => []
  | (k, e₀) :: rest =>
    if k = oid then rest else (k, e₀) :: OrderIndex.erase rest oid

/-- `OrderBook` (`order_book.py`): two side maps plus the id index. -/
structure OrderBook where
  symbol : String
  bids : SideMap
  asks : SideMap
  orders : OrderIndex
deriving DecidableEq, Repr

def OrderBook.empty (symbol : String) : OrderBook :=
  { symbol := symbol, bids := [], asks := [], orders := [] }

/-- `OrderBook.add_order`.  The `order.price` lookup on a priceless order
would raise a `TypeError` inside `SortedDict`; embedded as an error. -/
def OrderBook.addOrder (b : OrderBook) (o : Order) : Except String OrderBook :=
  if o.remaining_quantity ≤ 0 then
    .ok b  -- logged warning, no mutation
  else
    match o.price with
    | none => .error "TypeError: order without price added to book"
    | some p =>
      if o.side = OrderSide.buy then
        let bids :=
          if b.bids.containsKey p then b.bids
          else b.bids.insertDesc p { price := p, orders := [], total_quantity := 0 }
        let bids := match bids.find p with
          | some L => bids.set p (L.addOrder o)
          | none => bids
        .ok { b with bids := bids,
                     orders := b.orders.set o.order_id ⟨o.side, p⟩ }
      else
        let asks :=
          if b.asks.containsKey p then b.asks
          else b.asks.insertAsc p { price := p, orders := [], total_quantity := 0 }
        let asks := match asks.find p with
          | some L => asks.set p (L.addOrder o)
          | none => asks
        .ok { b with asks := asks,
                     orders := b.orders.set o.order_id ⟨o.side, p⟩ }

/-- `OrderBook.remove_order`.  Returns the removed order (if any) and the
updated book.  Note the Python deletes the emptied level *before* testing
whether the scan actually found the order. -/
def OrderBook.removeOrder (b : OrderBook) (oid : Nat) :
    Option Order × OrderBook :=
  match b.orders.find oid with
  | none => (none, b)
  | some e =>
    if e.side = OrderSide.buy then
      match b.bids.find e.price with
      | none => (none, b)
      | some L =>
        let (removed, L') := L.removeOrder oid
        let bids := if L'.isEmpty then b.bids.erase e.price
                    else b.bids.set e.price L'
        match removed with
        | some r => (some r, { b with bids := bids,
                                      orders := b.orders.erase oid })
        | none => (none, { b with bids := bids })
    else
      match b.asks.find e.price with
      | none => (none, b)
      | some L =>
        let (removed, L') := L.removeOrder oid
        let asks := if L'.isEmpty then b.asks.erase e.price
                    else b.asks.set e.price L'
        match removed with
        | some r => (some r, { b with asks := asks,
                                      orders := b.orders.erase oid })
        | none => (none, { b with asks := asks })

/-- `OrderBook.get_best_bid`. -/
def OrderBook.getBestBid (b : OrderBook) : Option Int := b.bids.firstKey

/-- `OrderBook.get_best_ask`. -/
def OrderBook.getBestAsk (b : OrderBook) : Option Int := b.asks.firstKey

/-! ## BBO and snapshot -/

/-- The `BBO` dataclass. -/
structure BBO where
  symbol : String
  best_bid : Option Int
  best_bid_quantity : Int
  best_ask : Option Int
  best_ask_quantity : Int
deriving DecidableEq, Repr

/-- `OrderBook.get_bbo`.  The Python guard is `if best_bid` (truthiness),
which is false both for `None` and for a zero price; the `.getD 0` arm is
dead code (the best price is always a key of its map). -/
def OrderBook.getBBO (b : OrderBook) : BBO :=
  let bb := b.getBestBid
  let ba := b.getBestAsk
  { symbol := b.symbol
    best_bid := bb
    best_bid_quantity :=
      match bb with
      | some p => if p = 0 then 0
                  else ((b.bids.find p).map PriceLevel.total_quantity).getD 0
      | none => 0
    best_ask := ba
    best_ask_quantity :=
      match ba with
      | some p => if p = 0 then 0
                  else ((b.asks.find p).map PriceLevel.total_quantity).getD 0
      | none => 0 }

/-- The dictionary produced by `BBO.to_dict` (decimal fields as strings).
`str(x) if x else None` again tests truthiness, so a zero best price would
serialize as `None`. -/
structure BBODict where
  symbol : String
  best_bid : Option String
  best_bid_quantity : String
  best_ask : Option String
  best_ask_quantity : String
deriving DecidableEq, Repr

/-- `BBO.to_dict`. -/
def BBO.toDict (x : BBO) : BBODict :=
  { symbol := x.symbol
    best_bid :=
      match x.best_bid with
      | some p => if p = 0 then none else some (toString p)
      | none => none
    best_bid_quantity := toString x.best_bid_quantity
    best_ask :=
      match x.best_ask with
      | some p => if p = 0 then none else some (toString p)
      | none => none
    best_ask_quantity := toString x.best_ask_quantity }

/-- `OrderBookSnapshot` as produced by `OrderBook.get_snapshot` /
`to_dict`: up to `depth` levels per side, `(price, aggregate)` as strings. -/
structure OrderBookSnapshot where
  symbol : String
  bids : List (String × String)
  asks : List (String × String)
deriving DecidableEq, Repr

/-- `OrderBook.get_snapshot`. -/
def OrderBook.getSnapshot (b : OrderBook) (depth : Nat) : OrderBookSnapshot :=
  { symbol := b.symbol
    bids := (b.bids.take depth).map
      (fun pl => (toString pl.1, toString pl.2.total_quantity))
    asks := (b.asks.take depth).map
      (fun pl => (toString pl.1, toString pl.2.total_quantity)) }

/-! ## Basic facts about `Order.fill` (needed for loop termination) -/

theorem Order.fill_ok {o : Order} {q : Int} {o' : Order}
    (h : o.fill q = .ok o') :
    0 < q ∧ q ≤ o.remaining_quantity ∧
      o'.remaining_quantity = o.remaining_quantity - q ∧
      o'.filled_quantity = o.filled_quantity + q ∧
      o'.order_id = o.order_id ∧ o'.side = o.side ∧ o'.price = o.price ∧
      o'.quantity = o.quantity ∧ o'.symbol = o.symbol ∧
      o'.order_type = o.order_type := by
  unfold Order.fill at h
  split at h
  · exact absurd h (by simp)
  · split at h
    · exact absurd h (by simp)
    · simp only [Except.ok.injEq] at h
      subst h
      refine ⟨by omega, by omega, ?_⟩
      simp

/-! ## The matching loop

`MatchingEngine._match_order` iterates over price levels of the contra
side; the inner loop (embedded as `matchLevel`) fills against the FIFO
queue of one level.  The Python local `price_level` *aliases* the map
entry `book[best_price]`; the embedding threads the level value `L`
separately and mirrors every mutation on both the local value and the map
(`SideMap.set` is a no-op once the entry has been deleted, exactly like a
mutation of a detached object). -/

/-- `order_book.asks if order.side == BUY else order_book.bids`. -/
def OrderBook.contraMap (b : OrderBook) (s : OrderSide) : SideMap :=
  if s = OrderSide.buy then b.asks else b.bids

def OrderBook.setContraMap (b : OrderBook) (s : OrderSide) (m : SideMap) :
    OrderBook :=
  if s = OrderSide.buy then { b with asks := m } else { b with bids := m }

/-- `self.bids if order.side == BUY else self.asks` — the side-map that
`OrderBook.update_order_quantity` picks from the *resting* order's side. -/
def OrderBook.ownMap (b : OrderBook) (s : OrderSide) : SideMap :=
  if s = OrderSide.buy then b.bids else b.asks

def OrderBook.setOwnMap (b : OrderBook) (s : OrderSide) (m : SideMap) :
    OrderBook :=
  if s = OrderSide.buy then { b with bids := m } else { b with asks := m }

/-- Result of one pass of the inner matching loop body
(`engine.py` lines 279–315). -/
structure StepOut where
  agg : Order        -- the aggressor after `order.fill(fill_quantity)`
  maker : Order      -- the resting order after `resting_order.fill(...)`
  level : PriceLevel -- the `price_level` local after the body
  book : OrderBook
  trade : Trade
deriving Repr

/-- One pass of the inner loop body of `_match_order`, for
`resting :: qtail = price_level.orders`.  The call
`order_book.update_order_quantity(resting_order, fill_quantity)` is
inlined: it targets the side map of the *resting* order's side at the
resting order's own price, which is the very `price_level` object exactly
when that is the contra side, the price is `bp`, and the entry has not
been deleted yet; in every other case it touches a different entry (or
nothing at all, since `None in book` is `False` for a priceless order). -/
def matchStep (o : Order) (bp : Int) (resting : Order) (qtail : List Order)
    (L : PriceLevel) (ob : OrderBook) : Except String StepOut :=
  let fill := min o.remaining_quantity resting.remaining_quantity
  let trade : Trade :=
    { symbol := o.symbol, price := bp, quantity := fill,
      aggressor_side := o.side, maker_order_id := resting.order_id,
      taker_order_id := o.order_id }
  match o.fill fill with
  | .error e => .error e
  | .ok o' =>
    match resting.fill fill with
    | .error e => .error e
    | .ok r' =>
      -- mutating `resting` rewrites the head of the `price_level` queue
      -- (and of `book[bp]` while that entry is still present)
      let L₁ : PriceLevel := { L with orders := r' :: qtail }
      let ob₁ := ob.setContraMap o.side ((ob.contraMap o.side).set bp L₁)
      -- inlined `update_order_quantity`, aliased case
      let L₂ : PriceLevel :=
        if r'.side ≠ o.side ∧ r'.price = some bp ∧
            (ob₁.contraMap o.side).containsKey bp then
          L₁.updateQuantity (-fill)
        else L₁
      let ob₂ : OrderBook :=
        if r'.side ≠ o.side ∧ r'.price = some bp ∧
            (ob₁.contraMap o.side).containsKey bp then
          let m := (ob₁.contraMap o.side).set bp (L₁.updateQuantity (-fill))
          ob₁.setContraMap o.side
            (if (L₁.updateQuantity (-fill)).isEmpty then m.erase bp else m)
        else
          -- inlined `update_order_quantity`, detached / other-entry case
          match r'.price with
          | none => ob₁
          | some rp =>
            match (ob₁.ownMap r'.side).find rp with
            | none => ob₁
            | some L₀ =>
              let Lu := L₀.updateQuantity (-fill)
              let m := (ob₁.ownMap r'.side).set rp Lu
              ob₁.setOwnMap r'.side (if Lu.isEmpty then m.erase rp else m)
      -- `if resting_order.remaining_quantity == 0: popleft(); del index`
      let L₃ : PriceLevel :=
        if r'.remaining_quantity = 0 then { L₂ with orders := L₂.orders.tail }
        else L₂
      let ob₃ : OrderBook :=
        if r'.remaining_quantity = 0 then
          { ob₂.setContraMap o.side
              ((ob₂.contraMap o.side).set bp { L₂ with orders := L₂.orders.tail })
            with orders := ob₂.orders.erase r'.order_id }
        else ob₂
      .ok ⟨o', r', L₃, ob₃, trade⟩

/-! ### Side-map bookkeeping lemmas -/

theorem SideMap.set_length (m : SideMap) (p : Int) (L : PriceLevel) :
    (m.set p L).length = m.length := by
  induction m with
  | nil => rfl
  | cons kv rest ih =>
    obtain ⟨k, L₀⟩ := kv
    simp only [SideMap.set]
    split <;> simp [ih]

theorem SideMap.set_containsKey (m : SideMap) (p : Int) (L : PriceLevel)
    (q : Int) : (m.set p L).containsKey q = m.containsKey q := by
  induction m with
  | nil => rfl
  | cons kv rest ih =>
    obtain ⟨k, L₀⟩ := kv
    simp only [SideMap.set]
    split <;> simp_all [SideMap.containsKey]

theorem SideMap.erase_length_le (m : SideMap) (p : Int) :
    (m.erase p).length ≤ m.length := by
  induction m with
  | nil => simp [SideMap.erase]
  | cons kv rest ih =>
    obtain ⟨k, L₀⟩ := kv
    simp only [SideMap.erase]
    split
    · simp
    · simpa using Nat.succ_le_succ ih

theorem SideMap.erase_length_lt {m : SideMap} {p : Int}
    (h : m.containsKey p = true) : (m.erase p).length < m.length := by
  induction m with
  | nil => simp [SideMap.containsKey] at h
  | cons kv rest ih =>
    obtain ⟨k, L₀⟩ := kv
    simp only [SideMap.containsKey, Bool.or_eq_true, beq_iff_eq] at h
    simp only [SideMap.erase]
    split
    · simp
    · have hk : ¬ k = p := by assumption
      have : SideMap.containsKey rest p = true := by tauto
      simpa using Nat.succ_lt_succ (ih this)

theorem SideMap.containsKey_erase_ne {m : SideMap} {p q : Int} (h : q ≠ p) :
    (m.erase p).containsKey q = m.containsKey q := by
  induction m with
  | nil => rfl
  | cons kv rest ih =>
    obtain ⟨k, L₀⟩ := kv
    simp only [SideMap.erase]
    split
    · rename_i hk
      have hkq : (k == q) = false := by
        subst hk
        exact beq_eq_false_iff_ne.mpr fun e => h e.symm
      simp [SideMap.containsKey, hkq]
    · simp_all [SideMap.containsKey]

theorem SideMap.find_some_containsKey {m : SideMap} {p : Int} {L : PriceLevel}
    (h : m.find p = some L) : m.containsKey p = true := by
  induction m with
  | nil => simp [SideMap.find] at h
  | cons kv rest ih =>
    obtain ⟨k, L₀⟩ := kv
    simp only [SideMap.find] at h
    simp only [SideMap.containsKey, Bool.or_eq_true, beq_iff_eq]
    by_cases hk : k = p
    · exact Or.inl hk
    · simp [hk] at h
      exact Or.inr (ih h)

/-- The relation that one body of the level loop induces on the contra
side map: the map never grows, and once the key `bp` is gone the map has
strictly shrunk (or never held `bp` at all). -/
def ContraRel (bp : Int) (c₀ c₁ : SideMap) : Prop :=
  c₁.length ≤ c₀.length ∧
    (c₁.containsKey bp = false →
      c₁.length < c₀.length ∨ c₀.containsKey bp = false)

theorem ContraRel.refl (bp : Int) (c : SideMap) : ContraRel bp c c :=
  ⟨le_refl _, fun h => Or.inr h⟩

theorem ContraRel.trans {bp : Int} {c₀ c₁ c₂ : SideMap}
    (h₁ : ContraRel bp c₀ c₁) (h₂ : ContraRel bp c₁ c₂) :
    ContraRel bp c₀ c₂ := by
  obtain ⟨l₁, d₁⟩ := h₁
  obtain ⟨l₂, d₂⟩ := h₂
  refine ⟨le_trans l₂ l₁, fun hc => ?_⟩
  rcases d₂ hc with h | h
  · exact Or.inl (lt_of_lt_of_le h l₁)
  · rcases d₁ h with h' | h'
    · exact Or.inl (lt_of_le_of_lt l₂ h')
    · exact Or.inr h'

theorem ContraRel.of_set (bp : Int) (c : SideMap) (p : Int) (L : PriceLevel) :
    ContraRel bp c (c.set p L) := by
  refine ⟨le_of_eq (SideMap.set_length c p L), fun hc => ?_⟩
  rw [SideMap.set_containsKey] at hc
  exact Or.inr hc

theorem ContraRel.of_erase (bp : Int) (c : SideMap) (q : Int) :
    ContraRel bp c (c.erase q) := by
  refine ⟨SideMap.erase_length_le c q, fun hc => ?_⟩
  by_cases hq : q = bp
  · subst hq
    by_cases h0 : c.containsKey q = true
    · exact Or.inl (SideMap.erase_length_lt h0)
    · exact Or.inr (by simpa using h0)
  · rw [SideMap.containsKey_erase_ne (Ne.symm hq)] at hc
    exact Or.inr hc

/-! ### Order-book projection lemmas -/

theorem OrderBook.contraMap_setContraMap (ob : OrderBook) (s : OrderSide)
    (m : SideMap) : (ob.setContraMap s m).contraMap s = m := by
  cases s <;> simp [OrderBook.contraMap, OrderBook.setContraMap]

theorem OrderBook.contraMap_setOwnMap (ob : OrderBook) (s t : OrderSide)
    (m : SideMap) (h : t = s) :
    (ob.setOwnMap t m).contraMap s = ob.contraMap s := by
  subst h
  cases t <;> simp [OrderBook.contraMap, OrderBook.setOwnMap]

theorem OrderBook.ownMap_eq_contraMap {t s : OrderSide} (ob : OrderBook)
    (h : t ≠ s) : ob.ownMap t = ob.contraMap s := by
  cases t <;> cases s <;> simp_all [OrderBook.ownMap, OrderBook.contraMap]

theorem OrderBook.contraMap_setOwnMap_ne (ob : OrderBook) {s t : OrderSide}
    (m : SideMap) (h : t ≠ s) : (ob.setOwnMap t m).contraMap s = m := by
  cases t <;> cases s <;> simp_all [OrderBook.contraMap, OrderBook.setOwnMap]

/-! ### One-step facts about the loop body -/

theorem matchStep_basic {o : Order} {bp : Int} {resting : Order}
    {qtail : List Order} {L : PriceLevel} {ob : OrderBook} {s : StepOut}
    (h : matchStep o bp resting qtail L ob = .ok s) :
    s.agg.side = o.side ∧ s.agg.price = o.price ∧
    s.agg.order_id = o.order_id ∧ s.agg.symbol = o.symbol ∧
    s.agg.quantity = o.quantity ∧ s.agg.order_type = o.order_type ∧
    s.agg.remaining_quantity =
      o.remaining_quantity - min o.remaining_quantity resting.remaining_quantity ∧
    s.agg.filled_quantity =
      o.filled_quantity + min o.remaining_quantity resting.remaining_quantity ∧
    0 < min o.remaining_quantity resting.remaining_quantity ∧
    s.maker.remaining_quantity =
      resting.remaining_quantity -
        min o.remaining_quantity resting.remaining_quantity ∧
    s.maker.order_id = resting.order_id ∧ s.maker.side = resting.side ∧
    s.maker.price = resting.price ∧
    s.level.orders =
      (if s.maker.remaining_quantity = 0 then qtail else s.maker :: qtail) ∧
    (s.maker.remaining_quantity ≠ 0 → s.agg.remaining_quantity = 0) ∧
    s.trade = { symbol := o.symbol, price := bp,
                quantity := min o.remaining_quantity resting.remaining_quantity,
                aggressor_side := o.side, maker_order_id := resting.order_id,
                taker_order_id := o.order_id } := by
  simp only [matchStep] at h
  split at h
  · exact absurd h (by simp)
  · rename_i o' hfo
    split at h
    · exact absurd h (by simp)
    · rename_i r' hfr
      simp only [Except.ok.injEq] at h
      subst h
      obtain ⟨hfo1, hfo2, hfo3, hfo4, hfo5, hfo6, hfo7, hfo8, hfo9, hfo10⟩ :=
        Order.fill_ok hfo
      obtain ⟨hfr1, hfr2, hfr3, hfr4, hfr5, hfr6, hfr7, hfr8, hfr9, hfr10⟩ :=
        Order.fill_ok hfr
      refine ⟨hfo6, hfo7, hfo5, hfo9, hfo8, hfo10, hfo3, hfo4, hfo1, hfr3,
              hfr5, hfr6, hfr7, ?_, ?_, rfl⟩
      · split <;> split <;>
          simp_all [PriceLevel.updateQuantity, List.tail]
      · intro hne
        rw [hfr3] at hne
        rw [hfo3]
        omega


theorem ContraRel.step_set {bp : Int} {c₀ c₁ : SideMap}
    (h : ContraRel bp c₀ c₁) (p : Int) (L : PriceLevel) :
    ContraRel bp c₀ (c₁.set p L) :=
  h.trans (ContraRel.of_set bp c₁ p L)

theorem ContraRel.step_erase {bp : Int} {c₀ c₁ : SideMap}
    (h : ContraRel bp c₀ c₁) (q : Int) :
    ContraRel bp c₀ (c₁.erase q) :=
  h.trans (ContraRel.of_erase bp c₁ q)

theorem OrderBook.contraMap_mk_orders (b : OrderBook) (idx : OrderIndex)
    (s : OrderSide) :
    OrderBook.contraMap
      { symbol := b.symbol, bids := b.bids, asks := b.asks, orders := idx } s =
      b.contraMap s := by
  cases s <;> rfl

theorem ContraRel.pop_stage {bp : Int} {c : SideMap} {b : OrderBook}
    {s : OrderSide} (h : ContraRel bp c (b.contraMap s)) (Lp : PriceLevel)
    (idx : OrderIndex) :
    ContraRel bp c
      (OrderBook.contraMap
        { b.setContraMap s ((b.contraMap s).set bp Lp) with orders := idx } s) := by
  have e : OrderBook.contraMap
      { b.setContraMap s ((b.contraMap s).set bp Lp) with orders := idx } s =
      (b.contraMap s).set bp Lp := by
    cases s <;> simp [OrderBook.contraMap, OrderBook.setContraMap]
  rw [e]
  exact h.step_set bp Lp

theorem matchStep_contra {o : Order} {bp : Int} {resting : Order}
    {qtail : List Order} {L : PriceLevel} {ob : OrderBook} {s : StepOut}
    (h : matchStep o bp resting qtail L ob = .ok s) :
    ContraRel bp (ob.contraMap o.side) (s.book.contraMap o.side) := by
  simp only [matchStep] at h
  split at h
  · exact absurd h (by simp)
  · rename_i o' hfo
    split at h
    · exact absurd h (by simp)
    · rename_i r' hfr
      simp only [Except.ok.injEq] at h
      subst h
      simp only
      by_cases hpop : r'.remaining_quantity = 0
      · simp only [hpop, reduceIte]
        refine ContraRel.pop_stage ?_ _ _
        split
        · simp only [OrderBook.contraMap_setContraMap]
          split
          · exact ((((ContraRel.refl bp _).step_set _ _).step_set _ _).step_erase _)
          · exact (((ContraRel.refl bp _).step_set _ _).step_set _ _)
        · split
          · simp only [OrderBook.contraMap_setContraMap]
            exact (ContraRel.refl bp _).step_set _ _
          · split
            · simp only [OrderBook.contraMap_setContraMap]
              exact (ContraRel.refl bp _).step_set _ _
            · rename_i hmatch L₀ hfind
              by_cases hside : r'.side = o.side
              · rw [OrderBook.contraMap_setOwnMap _ _ _ _ hside]
                simp only [OrderBook.contraMap_setContraMap]
                exact (ContraRel.refl bp _).step_set _ _
              · rw [OrderBook.contraMap_setOwnMap_ne _ _ hside,
                    OrderBook.ownMap_eq_contraMap _ hside]
                simp only [OrderBook.contraMap_setContraMap]
                split
                · exact ((((ContraRel.refl bp _).step_set _ _).step_set _ _).step_erase _)
                · exact (((ContraRel.refl bp _).step_set _ _).step_set _ _)
      · simp only [hpop, reduceIte]
        split
        · simp only [OrderBook.contraMap_setContraMap]
          split
          · exact ((((ContraRel.refl bp _).step_set _ _).step_set _ _).step_erase _)
          · exact (((ContraRel.refl bp _).step_set _ _).step_set _ _)
        · split
          · simp only [OrderBook.contraMap_setContraMap]
            exact (ContraRel.refl bp _).step_set _ _
          · split
            · simp only [OrderBook.contraMap_setContraMap]
              exact (ContraRel.refl bp _).step_set _ _
            · rename_i hmatch L₀ hfind
              by_cases hside : r'.side = o.side
              · rw [OrderBook.contraMap_setOwnMap _ _ _ _ hside]
                simp only [OrderBook.contraMap_setContraMap]
                exact (ContraRel.refl bp _).step_set _ _
              · rw [OrderBook.contraMap_setOwnMap_ne _ _ hside,
                    OrderBook.ownMap_eq_contraMap _ hside]
                simp only [OrderBook.contraMap_setContraMap]
                split
                · exact ((((ContraRel.refl bp _).step_set _ _).step_set _ _).step_erase _)
                · exact (((ContraRel.refl bp _).step_set _ _).step_set _ _)

/-- The inner `while order.remaining_quantity > 0 and price_level.orders:`
loop of `_match_order`, one price level at a time.  `L` is the Python
local `price_level`; `bp` is `best_price`. -/
def matchLevel (o : Order) (bp : Int) (L : PriceLevel) (ob : OrderBook)
    (trades : List Trade) :
    Except String (Order × PriceLevel × OrderBook × List Trade) :=
  if 0 < o.remaining_quantity ∧ L.orders ≠ [] then
    match hq : L.orders with
    | [] => .ok (o, L, ob, trades)  -- unreachable under the guard
    | resting :: qtail =>
      match hs : matchStep o bp resting qtail L ob with
      | .error e => .error e
      | .ok s => matchLevel s.agg bp s.level s.book (trades ++ [s.trade])
  else .ok (o, L, ob, trades)
termination_by L.orders.length + (if 0 < o.remaining_quantity then 1 else 0)
decreasing_by
  have hb := matchStep_basic hs
  obtain ⟨-, -, -, -, -, -, -, -, -, -, -, -, -, hlev, himp, -⟩ := hb
  rename_i hguard
  rw [hq]
  by_cases hm : s.maker.remaining_quantity = 0
  · rw [if_pos hm] at hlev
    rw [hlev]
    simp only [List.length_cons]
    split <;> split <;> omega
  · rw [if_neg hm] at hlev
    have := himp hm
    rw [hlev, this]
    simp only [List.length_cons]
    split <;> simp_all <;> omega

/-- Unfolding equation for `matchLevel` at a non-empty level with a live
aggressor. -/
theorem matchLevel_cons {o : Order} {bp : Int} {L : PriceLevel}
    {ob : OrderBook} {trades : List Trade} {resting : Order}
    {qtail : List Order} (hrem : 0 < o.remaining_quantity)
    (hq : L.orders = resting :: qtail) :
    matchLevel o bp L ob trades =
      match matchStep o bp resting qtail L ob with
      | .error e => .error e
      | .ok s => matchLevel s.agg bp s.level s.book (trades ++ [s.trade]) := by
  rw [matchLevel, if_pos ⟨hrem, by simp [hq]⟩]
  split
  · rename_i heq
    rw [hq] at heq
    cases heq
  · rename_i r q heq
    rw [hq] at heq
    cases heq
    split
    · rename_i e heq'
      rw [heq']
    · rename_i s heq'
      rw [heq']

/-- Unfolding equation for `matchLevel` when the loop guard fails. -/
theorem matchLevel_stop {o : Order} {bp : Int} {L : PriceLevel}
    {ob : OrderBook} {trades : List Trade}
    (hn : ¬(0 < o.remaining_quantity ∧ L.orders ≠ [])) :
    matchLevel o bp L ob trades = .ok (o, L, ob, trades) := by
  rw [matchLevel, if_neg hn]

theorem matchLevel_progress {o : Order} {bp : Int} {L : PriceLevel}
    {ob : OrderBook} {trades : List Trade} :
    ∀ {o' : Order} {L' : PriceLevel} {ob' : OrderBook} {trades' : List Trade},
    matchLevel o bp L ob trades = .ok (o', L', ob', trades') →
    o'.side = o.side ∧ (0 < o'.remaining_quantity → L'.orders = []) ∧
    ContraRel bp (ob.contraMap o.side) (ob'.contraMap o.side) := by
  induction o, bp, L, ob, trades using matchLevel.induct with
  | case1 o bp L ob trades hguard hnil =>
    exact absurd hnil hguard.2
  | case2 o bp L ob trades hguard resting qtail hq e herr =>
    intro o' L' ob' trades' h
    rw [matchLevel_cons hguard.1 hq] at h
    rw [herr] at h
    exact absurd h (by simp)
  | case3 o bp L ob trades hguard resting qtail hq s hs ih =>
    intro o' L' ob' trades' h
    rw [matchLevel_cons hguard.1 hq] at h
    rw [hs] at h
    obtain ⟨ih1, ih2, ih3⟩ := ih h
    obtain ⟨hside, -⟩ := matchStep_basic hs
    refine ⟨ih1.trans hside, ih2, ?_⟩
    have hc := matchStep_contra hs
    rw [hside] at ih3
    exact hc.trans ih3
  | case4 o bp L ob trades hguard =>
    intro o' L' ob' trades' h
    rw [matchLevel_stop hguard] at h
    simp only [Except.ok.injEq, Prod.mk.injEq] at h
    obtain ⟨h1, h2, h3, h4⟩ := h
    subst h1; subst h2; subst h3; subst h4
    refine ⟨rfl, ?_, ContraRel.refl bp _⟩
    intro hrem
    by_contra hne
    exact hguard ⟨hrem, hne⟩

/-- `if best_price in book and price_level.is_empty(): del book[best_price]`
— the level cleanup after the inner loop of `_match_order`. -/
def eraseEmptyLevel (s : OrderSide) (bp : Int) (L' : PriceLevel)
    (ob' : OrderBook) : OrderBook :=
  if (ob'.contraMap s).containsKey bp ∧ L'.isEmpty then
    ob'.setContraMap s ((ob'.contraMap s).erase bp)
  else ob'

/-- The price-cross test of `_match_order` (step 2 of the loop): a BUY
stops once `best_price > order.price`, a SELL once `best_price <
order.price`; a priceless (market) order never stops on price. -/
def priceBreak (o : Order) (bp : Int) : Bool :=
  match o.price with
  | some lim =>
    decide ((o.side = OrderSide.buy ∧ lim < bp) ∨
            (o.side = OrderSide.sell ∧ bp < lim))
  | none => false

/-- `MatchingEngine._match_order` (`engine.py` lines 250–321): the outer
`while order.remaining_quantity > 0 and book:` loop over price levels,
with the no-trade-through price-cross test before entering each level. -/
def matchOrder (o : Order) (ob : OrderBook) (trades : List Trade) :
    Except String (Order × OrderBook × List Trade) :=
  if 0 < o.remaining_quantity then
    match hb : ob.contraMap o.side with
    | [] => .ok (o, ob, trades)
    | (bp, L) :: _ =>
      -- `if order.price is not None: ... break` — stop once the best
      -- contra price is worse than the limit
      if priceBreak o bp then
        .ok (o, ob, trades)
      else
        match hs : matchLevel o bp L ob trades with
        | .error e => .error e
        | .ok (o', L', ob', trades') =>
          let ob'' := eraseEmptyLevel o.side bp L' ob'
          if h' : 0 < o'.remaining_quantity then matchOrder o' ob'' trades'
          else .ok (o', ob'', trades')
  else .ok (o, ob, trades)
termination_by (ob.contraMap o.side).length
decreasing_by
  obtain ⟨hside, hLempty, hrel⟩ := matchLevel_progress hs
  have hLe : L'.isEmpty = true := by
    simp [PriceLevel.isEmpty, hLempty h']
  rw [hside]
  unfold eraseEmptyLevel
  split
  · rename_i hc
    rw [OrderBook.contraMap_setContraMap]
    exact lt_of_lt_of_le (SideMap.erase_length_lt hc.1) hrel.1
  · rename_i hc
    have hnc : (ob'.contraMap o.side).containsKey bp = false := by
      rcases Bool.eq_false_or_eq_true ((ob'.contraMap o.side).containsKey bp)
        with ht | hf
      · exact absurd ⟨ht, hLe⟩ hc
      · exact hf
    rcases hrel.2 hnc with hlt | hq
    · exact hlt
    · rw [hb] at hq
      simp [SideMap.containsKey] at hq

/-- Unfolding equations for `matchOrder`. -/
theorem matchOrder_stop {o : Order} {ob : OrderBook} {trades : List Trade}
    (h : ¬ 0 < o.remaining_quantity) :
    matchOrder o ob trades = .ok (o, ob, trades) := by
  rw [matchOrder, if_neg h]

theorem matchOrder_nil {o : Order} {ob : OrderBook} {trades : List Trade}
    (hrem : 0 < o.remaining_quantity) (hb : ob.contraMap o.side = []) :
    matchOrder o ob trades = .ok (o, ob, trades) := by
  rw [matchOrder, if_pos hrem]
  split
  · rfl
  · rename_i bp L rest heq
    rw [hb] at heq
    cases heq

theorem matchOrder_break {o : Order} {ob : OrderBook} {trades : List Trade}
    {bp : Int} {L : PriceLevel} {rest : SideMap}
    (hrem : 0 < o.remaining_quantity)
    (hb : ob.contraMap o.side = (bp, L) :: rest)
    (hbr : priceBreak o bp = true) :
    matchOrder o ob trades = .ok (o, ob, trades) := by
  rw [matchOrder, if_pos hrem]
  split
  · rfl
  · rename_i bp' L' rest' heq
    rw [hb] at heq
    cases heq
    rw [if_pos hbr]

theorem matchOrder_level {o : Order} {ob : OrderBook} {trades : List Trade}
    {bp : Int} {L : PriceLevel} {rest : SideMap}
    (hrem : 0 < o.remaining_quantity)
    (hb : ob.contraMap o.side = (bp, L) :: rest)
    (hbr : priceBreak o bp = false) :
    matchOrder o ob trades =
      match matchLevel o bp L ob trades with
      | .error e => .error e
      | .ok (o', L', ob', trades') =>
        if 0 < o'.remaining_quantity then
          matchOrder o' (eraseEmptyLevel o.side bp L' ob') trades'
        else .ok (o', eraseEmptyLevel o.side bp L' ob', trades') := by
  rw [matchOrder, if_pos hrem]
  split
  · rename_i heq
    rw [hb] at heq
    cases heq
  · rename_i bp' L' rest' heq
    rw [hb] at heq
    cases heq
    rw [if_neg (by simp [hbr])]
    split
    · rename_i e heq'
      rw [heq']
    · rename_i o' L' ob' trades' heq'
      rw [heq']
      simp only
      split <;> rfl

/-- `MatchingEngine._can_fill_completely` (`engine.py` lines 220–248): the
read-only FOK liquidity precheck, walking contra levels in iteration
order. -/
def canFillFrom (o : Order) : Int → SideMap → Bool
  | remaining, [] => decide (remaining ≤ 0)
  | remaining, (price, level) :: rest =>
    if priceBreak o price then decide (remaining ≤ 0)
    else if level.total_quantity ≥ remaining then true
    else canFillFrom o (remaining - level.total_quantity) rest

/-- `_can_fill_completely(order, order_book)`.  The per-level price test
is the same two-sided comparison as the matching loop's `priceBreak`. -/
def canFillCompletely (o : Order) (ob : OrderBook) : Bool :=
  canFillFrom o o.quantity (ob.contraMap o.side)

/-! ## Order-type dispatch (`engine.py` lines 127–248) -/

/-- `_process_market_order`: match, then cancel any residual. -/
def processMarketOrder (o : Order) (ob : OrderBook) :
    Except String (Order × OrderBook × List Trade) :=
  match matchOrder o ob [] with
  | .error e => .error e
  | .ok (o', ob', trades) =>
    if 0 < o'.remaining_quantity then
      .ok ({ o' with status := OrderStatus.cancelled }, ob', trades)
    else .ok (o', ob', trades)

/-- `_process_limit_order`: match, then rest any residual on the book. -/
def processLimitOrder (o : Order) (ob : OrderBook) :
    Except String (Order × OrderBook × List Trade) :=
  match matchOrder o ob [] with
  | .error e => .error e
  | .ok (o', ob', trades) =>
    if 0 < o'.remaining_quantity then
      match ob'.addOrder o' with
      | .error e => .error e
      | .ok ob'' => .ok (o', ob'', trades)
    else .ok (o', ob', trades)

/-- `_process_ioc_order`: match, then cancel any residual. -/
def processIocOrder (o : Order) (ob : OrderBook) :
    Except String (Order × OrderBook × List Trade) :=
  match matchOrder o ob [] with
  | .error e => .error e
  | .ok (o', ob', trades) =>
    if 0 < o'.remaining_quantity then
      .ok ({ o' with status := OrderStatus.cancelled }, ob', trades)
    else .ok (o', ob', trades)

/-- `_process_fok_order`.  Returns the trades handed back to the caller
*and* the trades that went to the engine's log (they differ only in the
defensive `shouldn't happen` branch, which returns `[]` to the caller
while the executed trades remain in the log). -/
def processFokOrder (o : Order) (ob : OrderBook) :
    Except String (Order × OrderBook × List Trade × List Trade) :=
  if ¬ canFillCompletely o ob then
    .ok ({ o with status := OrderStatus.cancelled }, ob, [], [])
  else
    match matchOrder o ob [] with
    | .error e => .error e
    | .ok (o', ob', trades) =>
      if 0 < o'.remaining_quantity then
        .ok ({ o' with status := OrderStatus.cancelled }, ob', [], trades)
      else .ok (o', ob', trades, trades)

/-- Type dispatch inside `submit_order`, returning
`(order, book, trades for the report, trades for the engine log)`. -/
def dispatchOrder (o : Order) (ob : OrderBook) :
    Except String (Order × OrderBook × List Trade × List Trade) :=
  match o.order_type with
  | OrderType.market =>
    match processMarketOrder o ob with
    | .error e => .error e
    | .ok (o', ob', trades) => .ok (o', ob', trades, trades)
  | OrderType.limit =>
    match processLimitOrder o ob with
    | .error e => .error e
    | .ok (o', ob', trades) => .ok (o', ob', trades, trades)
  | OrderType.ioc =>
    match processIocOrder o ob with
    | .error e => .error e
    | .ok (o', ob', trades) => .ok (o', ob', trades, trades)
  | OrderType.fok => processFokOrder o ob

/-! ## The engine (`engine.py`) -/

abbrev Books := List (String × OrderBook)

def Books.find (l : Books) (s : String) : Option OrderBook :=
  match l with
  | [] => none
  | (k, b) :: rest => if k = s then some b else Books.find rest s

/-- Dict set: replace in place or append a new key. -/
def Books.set (l : Books) (s : String) (b : OrderBook) : Books :=
  match l with
  | [] => [(s, b)]
  | (k, b₀) :: rest =>
    if k = s then (k, b) :: rest else (k, b₀) :: Books.set rest s b

/-- `MatchingEngine` mutable state: the symbol → book registry and the
in-memory trade log (callback lists carry no state relevant here). -/
structure Engine where
  order_books : Books
  trades : List Trade
deriving Repr

def Engine.empty : Engine := { order_books := [], trades := [] }

/-- `get_or_create_order_book`: returns the book and the (possibly
updated) registry. -/
def Engine.getOrCreateOrderBook (e : Engine) (symbol : String) :
    OrderBook × Books :=
  match e.order_books.find symbol with
  | some b => (b, e.order_books)
  | none =>
    let b := OrderBook.empty symbol
    (b, e.order_books.set symbol b)

/-- The dictionary returned by `submit_order`: either an execution report
or (on a processing fault) a REJECTED report with an error message. -/
inductive SubmitResult where
  | report (order_id : Nat) (status : OrderStatus)
      (filled_quantity remaining_quantity : Int) (trades : List Trade)
  | rejected (order_id : Nat) (error : String)
deriving DecidableEq, Repr

/-- `submit_order`.  On the `except` path the Python keeps whatever
mutations were already applied; that path is unreachable from validated
orders (proved below), and the embedding keeps the pre-dispatch state. -/
def Engine.submitOrder (e : Engine) (o : Order) : SubmitResult × Engine :=
  let (ob, books) := e.getOrCreateOrderBook o.symbol
  match dispatchOrder o ob with
  | .ok (o', ob', reportTrades, logTrades) =>
    (SubmitResult.report o.order_id o'.status o'.filled_quantity
       o'.remaining_quantity reportTrades,
     { order_books := books.set o.symbol ob',
       trades := e.trades ++ logTrades })
  | .error err =>
    (SubmitResult.rejected o.order_id err,
     { e with order_books := books })

/-- The dictionary returned by `cancel_order`. -/
inductive CancelResult where
  | cancelled (order_id : Nat)
  | error (order_id : Nat) (message : String)
deriving DecidableEq, Repr

/-- `cancel_order`.  Note the book mutation made by
`OrderBook.remove_order` persists even when no order was found. -/
def Engine.cancelOrder (e : Engine) (symbol : String) (oid : Nat) :
    CancelResult × Engine :=
  match e.order_books.find symbol with
  | none => (CancelResult.error oid ("No order book for " ++ symbol), e)
  | some ob =>
    let (removed, ob') := ob.removeOrder oid
    match removed with
    | some _ =>
      (CancelResult.cancelled oid,
       { e with order_books := e.order_books.set symbol ob' })
    | none =>
      (CancelResult.error oid "Order not found",
       { e with order_books := e.order_books.set symbol ob' })

/-- `MatchingEngine.get_bbo`. -/
def Engine.getBBO (e : Engine) (symbol : String) : Option BBODict :=
  (e.order_books.find symbol).map fun b => b.getBBO.toDict

/-- `MatchingEngine.get_order_book_snapshot`. -/
def Engine.getOrderBookSnapshot (e : Engine) (symbol : String)
    (depth : Nat) : Option OrderBookSnapshot :=
  (e.order_books.find symbol).map fun b => b.getSnapshot depth

/-! ## Claim C8 — order construction validation -/

/-- C8 counterexample input: a well-formed LIMIT order with an *empty*
symbol. -/
def emptySymbolOrder : Except String Order :=
  Order.build 1 "" OrderType.limit OrderSide.buy 1 (some 1)

/-- C8 (counterexample): construction does *not* reject an unknown/empty
symbol format — `Order.__post_init__` never looks at `symbol`, so building
an order with `symbol=""` (and otherwise valid fields) succeeds with
status PENDING instead of failing. -/
theorem claim_C8_counterexample :
    emptySymbolOrder =
      .ok { order_id := 1, symbol := "", order_type := OrderType.limit,
            side := OrderSide.buy, quantity := 1, price := some 1,
            status := OrderStatus.pending, filled_quantity := 0,
            remaining_quantity := 1 } := by
  rfl

/-- C8 (amended): order construction fails exactly for non-positive
quantity, missing price on a non-MARKET order, price on a MARKET order,
or non-positive price — the symbol is never validated (construction
succeeds for any string, including the empty one) — and every successful
construction yields status PENDING with `filled = 0` and
`remaining = quantity`. -/
theorem claim_C8 (id : Nat) (sym : String) (ty : OrderType)
    (sd : OrderSide) (q : Int) (pr : Option Int) :
    ((∃ o, Order.build id sym ty sd q pr = .ok o) ↔
      (0 < q ∧ (pr = none ↔ ty = OrderType.market) ∧
        ∀ x, pr = some x → 0 < x)) ∧
    (∀ o, Order.build id sym ty sd q pr = .ok o →
      o = { order_id := id, symbol := sym, order_type := ty, side := sd,
            quantity := q, price := pr, status := OrderStatus.pending,
            filled_quantity := 0, remaining_quantity := q }) := by
  unfold Order.build
  constructor
  · constructor
    · rintro ⟨o, ho⟩
      split at ho
      · exact absurd ho (by simp)
      · split at ho
        · exact absurd ho (by simp)
        · split at ho
          · exact absurd ho (by simp)
          · split at ho
            · exact absurd ho (by simp)
            · rename_i h1 h2 h3 h4
              refine ⟨by omega, ?_, ?_⟩
              · constructor
                · intro hn
                  by_contra hm
                  exact h2 ⟨hm, hn⟩
                · intro hm
                  by_contra hn
                  exact h3 ⟨hm, hn⟩
              · intro x hx
                rw [hx] at h4
                simp at h4
                omega
    · rintro ⟨hq, hiff, hpos⟩
      have h2 : ¬(ty ≠ OrderType.market ∧ pr = none) := by
        rintro ⟨hm, hp⟩
        exact hm (hiff.mp hp)
      have h3 : ¬(ty = OrderType.market ∧ pr ≠ none) := by
        rintro ⟨hm, hp⟩
        exact hp (hiff.mpr hm)
      cases hpr : pr with
      | none =>
        subst hpr
        refine ⟨{ order_id := id, symbol := sym, order_type := ty, side := sd,
                  quantity := q, price := none,
                  status := OrderStatus.pending, filled_quantity := 0,
                  remaining_quantity := q }, ?_⟩
        rw [if_neg (by omega), if_neg h2, if_neg h3]
        rfl
      | some x =>
        have hx := hpos x hpr
        subst hpr
        refine ⟨{ order_id := id, symbol := sym, order_type := ty, side := sd,
                  quantity := q, price := some x,
                  status := OrderStatus.pending, filled_quantity := 0,
                  remaining_quantity := q }, ?_⟩
        rw [if_neg (by omega), if_neg h2, if_neg h3,
            if_neg (by simp only [decide_eq_true_eq]; omega)]
  · intro o ho
    split at ho
    · exact absurd ho (by simp)
    · split at ho
      · exact absurd ho (by simp)
      · split at ho
        · exact absurd ho (by simp)
        · split at ho
          · exact absurd ho (by simp)
          · simpa using ho.symm

/-! ## Claim C7 — BBO fields for an empty side -/

/-- A resting SELL LIMIT order used to build a book whose bid side is
empty. -/
def c7SellOrder : Order :=
  { order_id := 1, symbol := "BTC-USDT", order_type := OrderType.limit,
    side := OrderSide.sell, quantity := 1, price := some 50000,
    status := OrderStatus.pending, filled_quantity := 0,
    remaining_quantity := 1 }

/-- The engine after submitting that order to a fresh engine: its book
has an empty bid side and one ask level. -/
def c7Engine : Engine := (Engine.empty.submitOrder c7SellOrder).2

/-- C7 (counterexample): with an empty bid side, the externally returned
BBO dictionary has `best_bid = None` but `best_bid_quantity = "0"` — a
string, not `None` — so the claim that *both* the best price and the
best-quantity field are `None` is false. -/
theorem claim_C7_counterexample :
    c7Engine.getBBO "BTC-USDT" =
      some { symbol := "BTC-USDT", best_bid := none,
             best_bid_quantity := "0", best_ask := some "50000",
             best_ask_quantity := "1" } := by
  simp [c7Engine, c7SellOrder, Engine.submitOrder,
    Engine.getOrCreateOrderBook, Engine.getBBO, dispatchOrder,
    processLimitOrder, matchOrder.eq_def, OrderBook.empty,
    OrderBook.contraMap, Books.find, Books.set, OrderBook.addOrder,
    SideMap.containsKey, SideMap.insertDesc, SideMap.insertAsc,
    SideMap.find, SideMap.set, OrderIndex.set, OrderBook.getBBO,
    OrderBook.getBestBid, OrderBook.getBestAsk, SideMap.firstKey,
    BBO.toDict, PriceLevel.addOrder, Engine.empty]
  decide

/-- C7 (amended): for every symbol whose book exists, when one half of
the book is empty the returned BBO reports that side's best *price* as
`None` while the best-*quantity* field is the string `"0"` (it is never
`None`); symmetrically for the other side. -/
theorem claim_C7 (e : Engine) (sym : String) (b : OrderBook)
    (hfind : e.order_books.find sym = some b) :
    ((b.bids = [] → ∃ d, e.getBBO sym = some d ∧ d.best_bid = none ∧
        d.best_bid_quantity = "0") ∧
     (b.asks = [] → ∃ d, e.getBBO sym = some d ∧ d.best_ask = none ∧
        d.best_ask_quantity = "0")) := by
  constructor
  · intro hb
    refine ⟨(b.getBBO).toDict, ?_, ?_, ?_⟩
    · simp [Engine.getBBO, hfind]
    · simp [OrderBook.getBBO, BBO.toDict, OrderBook.getBestBid, hb,
        SideMap.firstKey]
    · simp [OrderBook.getBBO, BBO.toDict, OrderBook.getBestBid, hb,
        SideMap.firstKey]
      rfl
  · intro hb
    refine ⟨(b.getBBO).toDict, ?_, ?_, ?_⟩
    · simp [Engine.getBBO, hfind]
    · simp [OrderBook.getBBO, BBO.toDict, OrderBook.getBestAsk, hb,
        SideMap.firstKey]
    · simp [OrderBook.getBBO, BBO.toDict, OrderBook.getBestAsk, hb,
        SideMap.firstKey]
      rfl

/-- C7 witness: the amended theorem applied to the concrete engine whose
ask side is empty (a fresh book has both sides empty). -/
def c7BuyOrder : Order :=
  { order_id := 2, symbol := "BTC-USDT", order_type := OrderType.limit,
    side := OrderSide.buy, quantity := 1, price := some 49000,
    status := OrderStatus.pending, filled_quantity := 0,
    remaining_quantity := 1 }

def c7EngineBuy : Engine := (Engine.empty.submitOrder c7BuyOrder).2

theorem claim_C7_witness :
    ∃ b, c7EngineBuy.order_books.find "BTC-USDT" = some b ∧
      b.asks = [] ∧
      (∃ d, c7EngineBuy.getBBO "BTC-USDT" = some d ∧ d.best_ask = none ∧
        d.best_ask_quantity = "0") := by
  have hb : c7EngineBuy.order_books.find "BTC-USDT" =
      some { symbol := "BTC-USDT",
             bids := [(49000,
               { price := 49000, orders := [c7BuyOrder],
                 total_quantity := 1 })],
             asks := [],
             orders := [(2, ⟨OrderSide.buy, 49000⟩)] } := by
    simp [c7EngineBuy, c7BuyOrder, Engine.submitOrder,
      Engine.getOrCreateOrderBook, dispatchOrder, processLimitOrder,
      matchOrder.eq_def, OrderBook.empty, OrderBook.contraMap, Books.find,
      Books.set, OrderBook.addOrder, SideMap.containsKey,
      SideMap.insertDesc, SideMap.insertAsc, SideMap.find, SideMap.set,
      OrderIndex.set, PriceLevel.addOrder, Engine.empty]
  refine ⟨_, hb, rfl, (claim_C7 c7EngineBuy "BTC-USDT" _ hb).2 rfl⟩

/-! ## Claim C10 — books are created eagerly and never removed -/

theorem Books.find_set (l : Books) (s : String) (b : OrderBook)
    (k : String) :
    (l.set s b).find k = if k = s then some b else l.find k := by
  induction l with
  | nil =>
    simp only [Books.set, Books.find]
    by_cases hk : k = s
    · subst hk
      simp
    · rw [if_neg fun e => hk e.symm, if_neg hk]
  | cons kv rest ih =>
    obtain ⟨k₀, b₀⟩ := kv
    by_cases h₀ : k₀ = s <;> by_cases hk : k₀ = k <;>
      simp_all [Books.set, Books.find] <;>
      rw [if_neg fun e => hk e.symm]

/-- One-step unfolding of `submit_order` (the tuple `let` is transparent
thanks to structure eta). -/
theorem Engine.submitOrder_def (e : Engine) (o : Order) :
    e.submitOrder o =
      match dispatchOrder o (e.getOrCreateOrderBook o.symbol).1 with
      | .ok (o', ob', reportTrades, logTrades) =>
        (SubmitResult.report o.order_id o'.status o'.filled_quantity
           o'.remaining_quantity reportTrades,
         { order_books :=
             ((e.getOrCreateOrderBook o.symbol).2).set o.symbol ob',
           trades := e.trades ++ logTrades })
      | .error err =>
        (SubmitResult.rejected o.order_id err,
         { e with order_books := (e.getOrCreateOrderBook o.symbol).2 }) :=
  rfl

/-- C10: submitting any order for a symbol creates that symbol's book
before dispatch and no operation removes books.  Concretely: (1) after
any `submit_order` the submitted symbol's book exists — also on the
REJECTED path; (2) `submit_order` preserves existing books; (3)
`cancel_order` preserves existing books; (4) whenever a book exists,
`get_bbo` and `get_order_book_snapshot` return a non-`None` value. -/
theorem claim_C10 (e : Engine) (o : Order) (sym : String) (oid : Nat)
    (depth : Nat) :
    (((e.submitOrder o).2.order_books.find o.symbol).isSome = true) ∧
    (∀ s, ((e.order_books.find s).isSome = true) →
      (((e.submitOrder o).2.order_books.find s).isSome = true)) ∧
    (∀ s, ((e.order_books.find s).isSome = true) →
      (((e.cancelOrder sym oid).2.order_books.find s).isSome = true)) ∧
    (∀ s, ((e.order_books.find s).isSome = true) →
      ((e.getBBO s).isSome = true ∧
       (e.getOrderBookSnapshot s depth).isSome = true)) := by
  have hcreate : ∀ s, ((e.getOrCreateOrderBook o.symbol).2.find s).isSome =
      ((e.order_books.find s).isSome || decide (s = o.symbol)) := by
    intro s
    unfold Engine.getOrCreateOrderBook
    split
    · rename_i b hb
      by_cases hs : s = o.symbol
      · subst hs
        simp [hb]
      · simp [hs]
    · rename_i hb
      rw [Books.find_set]
      by_cases hs : s = o.symbol
      · subst hs
        simp
      · simp [hs]
  refine ⟨?_, ?_, ?_, ?_⟩
  · rw [Engine.submitOrder_def]
    split
    · rename_i o' ob' rts lts hd
      simp only
      rw [Books.find_set, if_pos rfl]
      rfl
    · rename_i err hd
      simp only
      rw [hcreate]
      simp
  · intro s hs
    rw [Engine.submitOrder_def]
    split
    · rename_i o' ob' rts lts hd
      simp only
      rw [Books.find_set]
      split
      · rfl
      · rw [hcreate]
        simp [hs]
    · rename_i err hd
      simp only
      rw [hcreate]
      simp [hs]
  · intro s hs
    unfold Engine.cancelOrder
    split
    · exact hs
    · rename_i ob hob
      simp only
      split
      · simp only
        rw [Books.find_set]
        split
        · rfl
        · exact hs
      · simp only
        rw [Books.find_set]
        split
        · rfl
        · exact hs
  · intro s hs
    rcases Option.isSome_iff_exists.mp hs with ⟨b, hb⟩
    constructor
    · simp [Engine.getBBO, hb]
    · simp [Engine.getOrderBookSnapshot, hb]

/-- C10 witness: instantiated on a fresh engine and the concrete SELL
order: its symbol's book exists afterwards, and BBO/snapshot are
non-`None` on the resulting engine. -/
theorem claim_C10_witness :
    ((c7Engine.order_books.find "BTC-USDT").isSome = true) ∧
    ((c7Engine.getBBO "BTC-USDT").isSome = true ∧
     (c7Engine.getOrderBookSnapshot "BTC-USDT" 10).isSome = true) := by
  have h1 := (claim_C10 Engine.empty c7SellOrder "BTC-USDT" 1 10).1
  exact ⟨h1, (claim_C10 c7Engine c7SellOrder "BTC-USDT" 1 10).2.2.2
    "BTC-USDT" h1⟩

/-! ## The book invariant -/

/-- The side opposite to `s` (resting orders on the contra map have this
side). -/
def contraSide : OrderSide → OrderSide
  | OrderSide.buy => OrderSide.sell
  | OrderSide.sell => OrderSide.buy

theorem contraSide_ne (s : OrderSide) : contraSide s ≠ s := by
  cases s <;> simp [contraSide]

/-- Per-level invariant, without the non-emptiness requirement (the level
being worked on may momentarily drain): the aggregate equals the sum of
remaining quantities, and every resting order has positive remainder, the
level's price, the side of its map, and a non-terminal live status. -/
def LevelPartInv (p : Int) (sd : OrderSide) (L : PriceLevel) : Prop :=
  L.total_quantity = (L.orders.map Order.remaining_quantity).sum ∧
  ∀ o ∈ L.orders, 0 < o.remaining_quantity ∧ o.price = some p ∧
    o.side = sd ∧
    (o.status = OrderStatus.pending ∨ o.status = OrderStatus.partFilled)

/-- Full per-level invariant: additionally the queue is non-empty. -/
def LevelInv (p : Int) (sd : OrderSide) (L : PriceLevel) : Prop :=
  LevelPartInv p sd L ∧ L.orders ≠ []

/-- All levels of one side map satisfy the level invariant. -/
def MapInv (sd : OrderSide) (m : SideMap) : Prop :=
  ∀ pair ∈ m, LevelInv pair.1 sd pair.2

theorem sum_remaining_nonneg (l : List Order)
    (hl : ∀ o ∈ l, 0 < o.remaining_quantity) :
    0 ≤ (l.map Order.remaining_quantity).sum := by
  induction l with
  | nil => simp
  | cons a t ih =>
    simp only [List.map_cons, List.sum_cons]
    have h1 := (hl a (by simp)).le
    have h2 := ih fun o ho => hl o (by simp [ho])
    omega

theorem sum_remaining_pos (l : List Order) (hne : l ≠ [])
    (hl : ∀ o ∈ l, 0 < o.remaining_quantity) :
    0 < (l.map Order.remaining_quantity).sum := by
  cases l with
  | nil => exact absurd rfl hne
  | cons a t =>
    have ha := hl a (by simp)
    have ht : 0 ≤ (t.map Order.remaining_quantity).sum :=
      sum_remaining_nonneg t fun o ho => hl o (by simp [ho])
    simp only [List.map_cons, List.sum_cons]
    omega

theorem LevelPartInv.total_nonneg {p : Int} {sd : OrderSide}
    {L : PriceLevel} (h : LevelPartInv p sd L) : 0 ≤ L.total_quantity := by
  rw [h.1]
  exact sum_remaining_nonneg L.orders fun o ho => (h.2 o ho).1

theorem LevelPartInv.total_pos {p : Int} {sd : OrderSide} {L : PriceLevel}
    (h : LevelPartInv p sd L) (hne : L.orders ≠ []) :
    0 < L.total_quantity := by
  rw [h.1]
  cases hq : L.orders with
  | nil => exact absurd hq hne
  | cons a t =>
    have ha := (h.2 a (by simp [hq])).1
    have ht : 0 ≤ (t.map Order.remaining_quantity).sum :=
      sum_remaining_nonneg t fun o ho => (h.2 o (by simp [hq, ho])).1
    simp only [List.map_cons, List.sum_cons]
    omega

theorem OrderBook.ownMap_setContraMap (ob : OrderBook) (s : OrderSide)
    (m : SideMap) : (ob.setContraMap s m).ownMap s = ob.ownMap s := by
  cases s <;> simp [OrderBook.ownMap, OrderBook.setContraMap]

theorem OrderBook.orders_setContraMap (ob : OrderBook) (s : OrderSide)
    (m : SideMap) : (ob.setContraMap s m).orders = ob.orders := by
  cases s <;> simp [OrderBook.setContraMap]

theorem OrderBook.symbol_setContraMap (ob : OrderBook) (s : OrderSide)
    (m : SideMap) : (ob.setContraMap s m).symbol = ob.symbol := by
  cases s <;> simp [OrderBook.setContraMap]

theorem OrderBook.ownMap_mk_orders (b : OrderBook) (idx : OrderIndex)
    (s : OrderSide) :
    OrderBook.ownMap
      { symbol := b.symbol, bids := b.bids, asks := b.asks, orders := idx } s =
      b.ownMap s := by
  cases s <;> rfl

theorem SideMap.set_of_not_contains {m : SideMap} {p : Int}
    (h : m.containsKey p = false) (L : PriceLevel) : m.set p L = m := by
  induction m with
  | nil => rfl
  | cons kv rest ih =>
    obtain ⟨k, L₀⟩ := kv
    simp only [SideMap.containsKey, Bool.or_eq_false_iff, beq_eq_false_iff_ne,
      ne_eq] at h
    simp only [SideMap.set, if_neg h.1]
    rw [ih h.2]

theorem Order.fill_status {o : Order} {q : Int} {o' : Order}
    (h : o.fill q = .ok o') :
    o'.status = (if o'.remaining_quantity = 0 then OrderStatus.filled
      else if 0 < o'.filled_quantity then OrderStatus.partFilled
      else o.status) := by
  unfold Order.fill at h
  split at h
  · exact absurd h (by simp)
  · split at h
    · exact absurd h (by simp)
    · simp only [Except.ok.injEq] at h
      subst h
      simp

/-- The loop-body lemma under the level invariant: with the contra map
headed by the level being matched, one body pass fills the head resting
order, keeps every book component in the expected shape, and preserves
the level invariant. -/
theorem matchStep_inv {o : Order} {bp : Int} {resting : Order}
    {qtail : List Order} {L : PriceLevel} {ob : OrderBook} {s : StepOut}
    {rest : SideMap}
    (hcontra : ob.contraMap o.side = (bp, L) :: rest)
    (hnodup : rest.containsKey bp = false)
    (hLinv : LevelPartInv bp (contraSide o.side) L)
    (hq : L.orders = resting :: qtail)
    (h0 : 0 < o.remaining_quantity)
    (hs : matchStep o bp resting qtail L ob = .ok s) :
    (s.agg.order_id = o.order_id ∧ s.agg.side = o.side ∧
     s.agg.price = o.price ∧ s.agg.symbol = o.symbol ∧
     s.agg.order_type = o.order_type ∧ s.agg.quantity = o.quantity) ∧
    (s.agg.remaining_quantity =
       o.remaining_quantity - min o.remaining_quantity resting.remaining_quantity ∧
     s.agg.filled_quantity =
       o.filled_quantity + min o.remaining_quantity resting.remaining_quantity ∧
     s.agg.status = (if s.agg.remaining_quantity = 0 then OrderStatus.filled
       else if 0 < s.agg.filled_quantity then OrderStatus.partFilled
       else o.status) ∧
     0 < min o.remaining_quantity resting.remaining_quantity) ∧
    (s.maker.remaining_quantity =
       resting.remaining_quantity - min o.remaining_quantity resting.remaining_quantity ∧
     s.maker.order_id = resting.order_id) ∧
    (s.level.orders =
       (if s.maker.remaining_quantity = 0 then qtail else s.maker :: qtail) ∧
     s.level.total_quantity =
       L.total_quantity - min o.remaining_quantity resting.remaining_quantity ∧
     LevelPartInv bp (contraSide o.side) s.level) ∧
    (s.book.contraMap o.side =
       (if s.maker.remaining_quantity = 0 ∧ qtail = [] then rest
        else (bp, s.level) :: rest) ∧
     s.book.ownMap o.side = ob.ownMap o.side ∧
     s.book.symbol = ob.symbol ∧
     s.book.orders =
       (if s.maker.remaining_quantity = 0 then
          ob.orders.erase resting.order_id
        else ob.orders)) ∧
    s.trade = { symbol := o.symbol, price := bp,
                quantity := min o.remaining_quantity resting.remaining_quantity,
                aggressor_side := o.side, maker_order_id := resting.order_id,
                taker_order_id := o.order_id } := by
  have hrmem : resting ∈ L.orders := by
    rw [hq]
    exact List.mem_cons_self _ _
  obtain ⟨hrpos, hrprice, hrside, hrstatus⟩ := hLinv.2 resting hrmem
  have hfillpos : 0 < min o.remaining_quantity resting.remaining_quantity :=
    lt_min h0 hrpos
  simp only [matchStep] at hs
  split at hs
  · exact absurd hs (by simp)
  · rename_i o' hfo
    split at hs
    · exact absurd hs (by simp)
    · rename_i r' hfr
      simp only [Except.ok.injEq] at hs
      subst hs
      obtain ⟨hfo1, hfo2, hfo3, hfo4, hfo5, hfo6, hfo7, hfo8, hfo9, hfo10⟩ :=
        Order.fill_ok hfo
      obtain ⟨hfr1, hfr2, hfr3, hfr4, hfr5, hfr6, hfr7, hfr8, hfr9, hfr10⟩ :=
        Order.fill_ok hfr
      -- the aliased-update condition of the inlined
      -- `update_order_quantity` holds
      have hA : (ob.setContraMap o.side
          ((ob.contraMap o.side).set bp
            { L with orders := r' :: qtail })).contraMap o.side =
          (bp, { L with orders := r' :: qtail }) :: rest := by
        rw [OrderBook.contraMap_setContraMap, hcontra]
        simp [SideMap.set]
      have hcond : r'.side ≠ o.side ∧ r'.price = some bp ∧
          ((ob.setContraMap o.side
            ((ob.contraMap o.side).set bp
              { L with orders := r' :: qtail })).contraMap o.side).containsKey
            bp = true := by
        refine ⟨?_, ?_, ?_⟩
        · rw [hfr6, hrside]
          exact contraSide_ne o.side
        · rw [hfr7, hrprice]
        · rw [hA]
          simp [SideMap.containsKey]
      rw [if_pos hcond, if_pos hcond]
      have hst := Order.fill_status hfo
      have hsum : L.total_quantity =
          resting.remaining_quantity +
            (qtail.map Order.remaining_quantity).sum := by
        rw [hLinv.1, hq]
        simp
      have hqmem : ∀ x ∈ qtail, 0 < x.remaining_quantity ∧
          x.price = some bp ∧ x.side = contraSide o.side ∧
          (x.status = OrderStatus.pending ∨
           x.status = OrderStatus.partFilled) := by
        intro x hx
        exact hLinv.2 x (by rw [hq]; exact List.mem_cons_of_mem _ hx)
      have hqsum : 0 ≤ (qtail.map Order.remaining_quantity).sum :=
        sum_remaining_nonneg _ fun x hx => (hqmem x hx).1
      simp only [PriceLevel.updateQuantity, hA]
      simp only [SideMap.set, if_pos rfl, SideMap.erase]
      refine ⟨⟨hfo5, hfo6, hfo7, hfo9, hfo10, hfo8⟩,
              ⟨hfo3, hfo4, hst, hfillpos⟩, ⟨hfr3, hfr5⟩, ?_, ?_, trivial⟩
      · -- the level triple
        by_cases hpop : r'.remaining_quantity = 0
        · simp only [if_pos hpop, List.tail_cons]
          refine ⟨trivial, by omega, And.intro ?_ ?_⟩
          · show L.total_quantity +
                -(o.remaining_quantity ⊓ resting.remaining_quantity) =
              (qtail.map Order.remaining_quantity).sum
            omega
          · intro x hx
            exact hqmem x hx
        · simp only [if_neg hpop]
          refine ⟨trivial, by omega, And.intro ?_ ?_⟩
          · show L.total_quantity +
                -(o.remaining_quantity ⊓ resting.remaining_quantity) =
              ((r' :: qtail).map Order.remaining_quantity).sum
            simp only [List.map_cons, List.sum_cons]
            omega
          · intro x hx
            rcases List.mem_cons.mp hx with hxr | hxq
            · rw [hxr]
              refine ⟨by omega, ?_, ?_, ?_⟩
              · rw [hfr7, hrprice]
              · rw [hfr6, hrside]
              · have hrs := Order.fill_status hfr
                rw [hrs, if_neg hpop]
                by_cases hf : 0 < Order.filled_quantity r'
                · rw [if_pos hf]
                  exact Or.inr rfl
                · rw [if_neg hf]
                  exact hrstatus
            · exact hqmem x hxq
      · -- the book quad
        simp only [if_true]
        by_cases hpop : r'.remaining_quantity = 0
        · by_cases hqe : qtail = []
          · subst hqe
            have hie : (PriceLevel.mk L.price [r']
                (L.total_quantity +
                  -(o.remaining_quantity ⊓ resting.remaining_quantity))).isEmpty
                = true := by
              simp only [PriceLevel.isEmpty, List.isEmpty_cons, Bool.false_or,
                beq_iff_eq]
              simp only [List.map_nil, List.sum_nil] at hsum
              omega
            simp only [if_pos hpop, hie, reduceIte, and_true,
              List.tail_cons]
            refine ⟨?_, ?_, ?_, ?_⟩
            · rw [OrderBook.contraMap_mk_orders,
                OrderBook.contraMap_setContraMap,
                OrderBook.contraMap_setContraMap]
              exact SideMap.set_of_not_contains hnodup _
            · rw [OrderBook.ownMap_mk_orders, OrderBook.ownMap_setContraMap,
                OrderBook.ownMap_setContraMap, OrderBook.ownMap_setContraMap]
            · rw [OrderBook.symbol_setContraMap,
                OrderBook.symbol_setContraMap, OrderBook.symbol_setContraMap]
            · rw [OrderBook.orders_setContraMap,
                OrderBook.orders_setContraMap, hfr5]
          · have hpos : 0 < (qtail.map Order.remaining_quantity).sum :=
              sum_remaining_pos qtail hqe fun x hx => (hqmem x hx).1
            have hie : (PriceLevel.mk L.price (r' :: qtail)
                (L.total_quantity +
                  -(o.remaining_quantity ⊓ resting.remaining_quantity))).isEmpty
                = false := by
              simp only [PriceLevel.isEmpty, List.isEmpty_cons, Bool.false_or,
                beq_eq_false_iff_ne, ne_eq]
              omega
            simp only [if_pos hpop, hie, reduceIte, hqe, and_false,
              List.tail_cons]
            refine ⟨?_, ?_, ?_, ?_⟩
            · rw [OrderBook.contraMap_mk_orders,
                OrderBook.contraMap_setContraMap,
                OrderBook.contraMap_setContraMap]
              simp [SideMap.set]
            · rw [OrderBook.ownMap_mk_orders, OrderBook.ownMap_setContraMap,
                OrderBook.ownMap_setContraMap, OrderBook.ownMap_setContraMap]
            · rw [OrderBook.symbol_setContraMap,
                OrderBook.symbol_setContraMap, OrderBook.symbol_setContraMap]
            · rw [OrderBook.orders_setContraMap,
                OrderBook.orders_setContraMap, hfr5]
        · have hie : (PriceLevel.mk L.price (r' :: qtail)
              (L.total_quantity +
                -(o.remaining_quantity ⊓ resting.remaining_quantity))).isEmpty
              = false := by
            simp only [PriceLevel.isEmpty, List.isEmpty_cons, Bool.false_or,
              beq_eq_false_iff_ne, ne_eq]
            omega
          simp only [if_neg hpop, hie, reduceIte, false_and]
          refine ⟨?_, ?_, ?_, ?_⟩
          · rw [OrderBook.contraMap_setContraMap]
            simp [hpop]
          · rw [OrderBook.ownMap_setContraMap, OrderBook.ownMap_setContraMap]
          · rw [OrderBook.symbol_setContraMap, OrderBook.symbol_setContraMap]
          · rw [OrderBook.orders_setContraMap, OrderBook.orders_setContraMap]

theorem OrderIndex.containsKey_erase_imp {m : OrderIndex} {p n : Nat}
    (h : (m.erase p).containsKey n = true) : m.containsKey n = true := by
  induction m with
  | nil => simpa [OrderIndex.erase] using h
  | cons kv rest ih =>
    obtain ⟨k, e⟩ := kv
    simp only [OrderIndex.erase] at h
    simp only [OrderIndex.containsKey, Bool.or_eq_true]
    split at h
    · exact Or.inr h
    · simp only [OrderIndex.containsKey, Bool.or_eq_true] at h
      rcases h with h | h
      · exact Or.inl h
      · exact Or.inr (ih h)

/-- Everything one inner-loop run guarantees, relative to a contra map
headed by `(bp, L)` followed by `rest`. -/
def MatchLevelSpec (o : Order) (bp : Int) (L : PriceLevel) (ob : OrderBook)
    (trades : List Trade) (o' : Order) (L' : PriceLevel) (ob' : OrderBook)
    (trades' : List Trade) (rest : SideMap) : Prop :=
  (o'.order_id = o.order_id ∧ o'.side = o.side ∧ o'.price = o.price ∧
   o'.symbol = o.symbol ∧ o'.order_type = o.order_type ∧
   o'.quantity = o.quantity) ∧
  (¬(0 < o.remaining_quantity ∧ L.orders ≠ []) →
    o' = o ∧ L' = L ∧ ob' = ob ∧ trades' = trades) ∧
  ((0 < o.remaining_quantity ∧ L.orders ≠ []) →
    (o'.remaining_quantity =
       o.remaining_quantity - min o.remaining_quantity L.total_quantity ∧
     o'.filled_quantity =
       o.filled_quantity + min o.remaining_quantity L.total_quantity ∧
     o'.status = (if o'.remaining_quantity = 0 then OrderStatus.filled
       else if 0 < o'.filled_quantity then OrderStatus.partFilled
       else o.status)) ∧
    (LevelPartInv bp (contraSide o.side) L' ∧
     L'.total_quantity =
       L.total_quantity - min o.remaining_quantity L.total_quantity) ∧
    (ob'.contraMap o.side =
       (if L'.orders = [] then rest else (bp, L') :: rest) ∧
     ob'.ownMap o.side = ob.ownMap o.side ∧ ob'.symbol = ob.symbol ∧
     (∀ n, ob'.orders.containsKey n = true →
        ob.orders.containsKey n = true)) ∧
    (∃ ntr, trades' = trades ++ ntr ∧ ntr ≠ [] ∧
      (∀ t ∈ ntr, t.symbol = o.symbol ∧ t.price = bp ∧
        t.aggressor_side = o.side ∧ t.taker_order_id = o.order_id ∧
        0 < t.quantity) ∧
      (ntr.map Trade.quantity).sum =
        min o.remaining_quantity L.total_quantity ∧
      ntr.length ≤ L.orders.length ∧
      ntr.map Trade.maker_order_id =
        (L.orders.take ntr.length).map Order.order_id ∧
      List.Forall₂ (fun t ro => t.quantity = ro.remaining_quantity)
        ntr.dropLast (L.orders.take (ntr.length - 1))))

theorem matchLevel_inv {o : Order} {bp : Int} {L : PriceLevel}
    {ob : OrderBook} {trades : List Trade} :
    ∀ {rest : SideMap} {o' : Order} {L' : PriceLevel} {ob' : OrderBook}
      {trades' : List Trade},
    ob.contraMap o.side = (bp, L) :: rest →
    rest.containsKey bp = false →
    LevelPartInv bp (contraSide o.side) L →
    matchLevel o bp L ob trades = .ok (o', L', ob', trades') →
    MatchLevelSpec o bp L ob trades o' L' ob' trades' rest := by
  induction o, bp, L, ob, trades using matchLevel.induct with
  | case1 o bp L ob trades hguard hnil =>
    exact absurd hnil hguard.2
  | case2 o bp L ob trades hguard resting qtail hq e herr =>
    intro rest o' L' ob' trades' hcontra hnodup hLinv hrun
    rw [matchLevel_cons hguard.1 hq, herr] at hrun
    exact absurd hrun (by simp)
  | case4 o bp L ob trades hguard =>
    intro rest o' L' ob' trades' hcontra hnodup hLinv hrun
    rw [matchLevel_stop hguard] at hrun
    simp only [Except.ok.injEq, Prod.mk.injEq] at hrun
    obtain ⟨h1, h2, h3, h4⟩ := hrun
    subst h1; subst h2; subst h3; subst h4
    exact ⟨⟨rfl, rfl, rfl, rfl, rfl, rfl⟩,
      fun _ => ⟨rfl, rfl, rfl, rfl⟩, fun hg => absurd hg hguard⟩
  | case3 o bp L ob trades hguard resting qtail hq s hs ih =>
    intro rest o' L' ob' trades' hcontra hnodup hLinv hrun
    rw [matchLevel_cons hguard.1 hq, hs] at hrun
    obtain ⟨⟨ha1, ha2, ha3, ha4, ha5, ha6⟩, ⟨hb1, hb2, hb3, hb4⟩,
      ⟨hc1, hc2⟩, ⟨hd1, hd2, hd3⟩, ⟨he1, he2, he3, he4⟩, htr⟩ :=
      matchStep_inv hcontra hnodup hLinv hq hguard.1 hs
    have hrmem : resting ∈ L.orders := by
      rw [hq]; exact List.mem_cons_self _ _
    have hrpos : 0 < resting.remaining_quantity := (hLinv.2 resting hrmem).1
    have hsum : L.total_quantity =
        resting.remaining_quantity +
          (qtail.map Order.remaining_quantity).sum := by
      rw [hLinv.1, hq]; simp
    have hqsum : 0 ≤ (qtail.map Order.remaining_quantity).sum :=
      sum_remaining_nonneg _ fun x hx =>
        (hLinv.2 x (by rw [hq]; exact List.mem_cons_of_mem _ hx)).1
    by_cases hz : 0 < s.agg.remaining_quantity ∧ s.level.orders ≠ []
    · -- the loop recurses with real work left: the head maker was
      -- fully consumed and the queue is still non-empty
      have hpop : s.maker.remaining_quantity = 0 := by
        by_contra hnp
        have := hb4  -- maker not fully filled forces the aggressor to 0
        rw [hd1, if_neg hnp] at hz
        have h0 : s.agg.remaining_quantity = 0 := by
          rw [hb1]
          have hfe : min o.remaining_quantity resting.remaining_quantity ≠
              resting.remaining_quantity := by
            intro he
            rw [he] at hc1
            omega
          omega
        omega
      have hqne : qtail ≠ [] := by
        intro hqe
        rw [hd1, if_pos hpop, hqe] at hz
        exact hz.2 rfl
      have hlev : s.level.orders = qtail := by rw [hd1, if_pos hpop]
      have hcontra' : s.book.contraMap s.agg.side = (bp, s.level) :: rest := by
        rw [ha2, he1, if_neg (by simp [hpop, hqne])]
      have hrun' : matchLevel s.agg bp s.level s.book
          (trades ++ [s.trade]) = .ok (o', L', ob', trades') := hrun
      have hspec := ih hcontra' hnodup (by rw [ha2]; exact hd3) hrun'
      obtain ⟨⟨hi1, hi2, hi3, hi4, hi5, hi6⟩, hid, hrec⟩ := hspec
      obtain ⟨⟨hj1, hj2, hj3⟩, ⟨hk1, hk2⟩, ⟨hl1, hl2, hl3, hl4⟩,
        ⟨ntr₂, hm1, hm2, hm3, hm4, hm5, hm6, hm7⟩⟩ := hrec hz
      rw [ha2] at hk1 hl1 hl2
      have hfill : min o.remaining_quantity resting.remaining_quantity =
          resting.remaining_quantity := by
        by_contra hne
        have : s.agg.remaining_quantity = 0 := by rw [hb1]; omega
        omega
      refine ⟨⟨hi1.trans ha1, hi2.trans ha2, hi3.trans ha3,
        hi4.trans ha4, hi5.trans ha5, hi6.trans ha6⟩,
        fun habs => absurd hguard habs, fun _ => ?_⟩
      have hlevtot : s.level.total_quantity =
          L.total_quantity - resting.remaining_quantity := by
        rw [hd2, hfill]
      refine ⟨⟨?_, ?_, ?_⟩, ⟨?_, ?_⟩, ⟨?_, ?_, ?_, ?_⟩, ?_⟩
      · rw [hj1, hb1, hfill, hlevtot]
        omega
      · rw [hj2, hb2, hfill, hlevtot]
        omega
      · rw [hj3]
        have hzrem := hz.1
        by_cases hrz : o'.remaining_quantity = 0
        · rw [if_pos hrz, if_pos hrz]
        · rw [if_neg hrz, if_neg hrz]
          by_cases hfz : 0 < o'.filled_quantity
          · rw [if_pos hfz, if_pos hfz]
          · rw [if_neg hfz, if_neg hfz, hb3,
              if_neg (by omega), if_neg (by rw [hb2]; omega)]
      · exact hk1
      · rw [hk2, hlevtot, hb1, hfill]
        omega
      · exact hl1
      · rw [hl2, he2]
      · rw [hl3, he3]
      · intro n hn
        have h2 := hl4 n hn
        rw [he4, if_pos hpop] at h2
        exact OrderIndex.containsKey_erase_imp h2
      · have hstq : s.trade.quantity =
            o.remaining_quantity ⊓ resting.remaining_quantity := by
          rw [htr]
        have hstm : s.trade.maker_order_id = resting.order_id := by
          rw [htr]
        refine ⟨s.trade :: ntr₂, ?_, by simp, ?_, ?_, ?_, ?_, ?_⟩
        · rw [hm1]; simp
        · intro t ht
          rcases List.mem_cons.mp ht with h | h
          · subst h
            rw [htr]
            exact ⟨rfl, rfl, rfl, rfl, hb4⟩
          · obtain ⟨hh1, hh2, hh3, hh4, hh5⟩ := hm3 t h
            exact ⟨hh1.trans ha4, hh2, hh3.trans ha2, hh4.trans ha1, hh5⟩
        · simp only [List.map_cons, List.sum_cons]
          rw [hstq, hm4]
          omega
        · rw [hq]
          simp only [List.length_cons]
          rw [hlev] at hm5
          omega
        · rw [hq]
          simp only [List.map_cons, List.length_cons, List.take_succ_cons]
          rw [hm6, hlev, hstm]
        · cases hcc : ntr₂ with
          | nil => exact absurd hcc hm2
          | cons a t =>
            rw [hcc] at hm7
            rw [hlev] at hm7
            have hd : (s.trade :: a :: t).dropLast =
                s.trade :: (a :: t).dropLast := by
              simp
            rw [hd, hq]
            simp only [List.length_cons, Nat.add_sub_cancel,
              List.take_succ_cons]
            refine List.Forall₂.cons ?_ ?_
            · rw [hstq, hfill]
            · simpa using hm7
    · -- single pass: the recursion immediately returns
      have hrun' : matchLevel s.agg bp s.level s.book (trades ++ [s.trade]) =
          .ok (o', L', ob', trades') := hrun
      rw [matchLevel_stop hz] at hrun'
      simp only [Except.ok.injEq, Prod.mk.injEq] at hrun'
      obtain ⟨h1, h2, h3, h4⟩ := hrun'
      subst h1; subst h2; subst h3; subst h4
      have hfill1 : min o.remaining_quantity resting.remaining_quantity =
          min o.remaining_quantity L.total_quantity := by
        rcases not_and_or.mp hz with h | h
        · omega
        · have hqe : s.maker.remaining_quantity = 0 ∧ qtail = [] := by
            rw [hd1] at h
            by_cases hmz : s.maker.remaining_quantity = 0
            · rw [if_pos hmz] at h
              exact ⟨hmz, by
                by_contra hne
                exact h hne⟩
            · rw [if_neg hmz] at h
              exact absurd (by simp) h
          obtain ⟨hmz, hqe2⟩ := hqe
          rw [hqe2] at hsum
          simp only [List.map_nil, List.sum_nil] at hsum
          omega
      have hcondiff : (s.level.orders = []) ↔
          (s.maker.remaining_quantity = 0 ∧ qtail = []) := by
        rw [hd1]
        by_cases hmz : s.maker.remaining_quantity = 0
        · rw [if_pos hmz]
          constructor
          · intro hh
            exact ⟨hmz, hh⟩
          · intro hh
            exact hh.2
        · rw [if_neg hmz]
          constructor
          · intro hh
            exact absurd hh (by simp)
          · intro hh
            exact absurd hh.1 hmz
      refine ⟨⟨ha1, ha2, ha3, ha4, ha5, ha6⟩,
        fun habs => absurd hguard habs, fun _ => ?_⟩
      refine ⟨⟨?_, ?_, hb3⟩, ⟨hd3, ?_⟩, ⟨?_, he2, he3, ?_⟩, ?_⟩
      · rw [hb1, hfill1]
      · rw [hb2, hfill1]
      · rw [hd2, hfill1]
      · rw [he1]
        by_cases hle : s.level.orders = []
        · rw [if_pos hle, if_pos (hcondiff.mp hle)]
        · rw [if_neg hle, if_neg fun hh => hle (hcondiff.mpr hh)]
      · intro n hn
        rw [he4] at hn
        by_cases hmz : s.maker.remaining_quantity = 0
        · rw [if_pos hmz] at hn
          exact OrderIndex.containsKey_erase_imp hn
        · rw [if_neg hmz] at hn
          exact hn
      · have hstq : s.trade.quantity =
            o.remaining_quantity ⊓ resting.remaining_quantity := by
          rw [htr]
        have hstm : s.trade.maker_order_id = resting.order_id := by
          rw [htr]
        refine ⟨[s.trade], rfl, by simp, ?_, ?_, ?_, ?_, ?_⟩
        · intro t ht
          rcases List.mem_cons.mp ht with h | h
          · subst h
            rw [htr]
            exact ⟨rfl, rfl, rfl, rfl, hb4⟩
          · exact absurd h (by simp)
        · simp only [List.map_cons, List.map_nil, List.sum_cons,
            List.sum_nil]
          rw [hstq, hfill1]
          simp
        · rw [hq]
          simp
        · rw [hq]
          simp [hstm]
        · simp

/-! ## The outer matching loop under the invariant -/

/-- Iteration order of the contra map's keys: ascending on asks (BUY
aggressor), descending on bids (SELL aggressor). -/
def contraKeyLt (s : OrderSide) (a b : Int) : Prop :=
  match s with
  | OrderSide.buy => a < b
  | OrderSide.sell => b < a

theorem contraKeyLt_ne {s : OrderSide} {a b : Int}
    (h : contraKeyLt s a b) : a ≠ b := by
  cases s <;> simp [contraKeyLt] at h <;> omega

theorem SideMap.containsKey_iff_mem {m : SideMap} {p : Int} :
    m.containsKey p = true ↔ p ∈ m.map Prod.fst := by
  induction m with
  | nil => simp [SideMap.containsKey]
  | cons kv rest ih =>
    obtain ⟨k, L⟩ := kv
    simp only [SideMap.containsKey, Bool.or_eq_true, beq_iff_eq,
      List.map_cons, List.mem_cons, ih]
    constructor
    · rintro (h | h)
      · exact Or.inl h.symm
      · exact Or.inr h
    · rintro (h | h)
      · exact Or.inl h.symm
      · exact Or.inr h

theorem pairwise_head_not_contains {s : OrderSide} {bp : Int}
    {L : PriceLevel} {rest : SideMap}
    (h : (((bp, L) :: rest).map Prod.fst).Pairwise (contraKeyLt s)) :
    rest.containsKey bp = false := by
  simp only [List.map_cons, List.pairwise_cons] at h
  by_contra hc
  have hc' : rest.containsKey bp = true := by
    rcases Bool.eq_false_or_eq_true (rest.containsKey bp) with h' | h'
    · exact h'
    · exact absurd h' hc
  exact contraKeyLt_ne (h.1 bp (SideMap.containsKey_iff_mem.mp hc')) rfl

theorem priceBreak_congr {o o' : Order} (hp : o'.price = o.price)
    (hs : o'.side = o.side) (bp : Int) :
    priceBreak o' bp = priceBreak o bp := by
  unfold priceBreak
  rw [hp, hs]

theorem canFillFrom_congr {o o' : Order} (hp : o'.price = o.price)
    (hs : o'.side = o.side) :
    ∀ (r : Int) (m : SideMap), canFillFrom o' r m = canFillFrom o r m := by
  intro r m
  induction m generalizing r with
  | nil => rfl
  | cons kv rest ih =>
    obtain ⟨k, L⟩ := kv
    simp only [canFillFrom, priceBreak_congr hp hs]
    split
    · rfl
    · split
      · rfl
      · exact ih _

theorem sum_trade_quantity_nonneg (l : List Trade)
    (hl : ∀ t ∈ l, 0 < t.quantity) :
    0 ≤ (l.map Trade.quantity).sum := by
  induction l with
  | nil => simp
  | cons a t ih =>
    simp only [List.map_cons, List.sum_cons]
    have h1 := (hl a (by simp)).le
    have h2 := ih fun x hx => hl x (by simp [hx])
    omega

theorem eraseEmptyLevel_noop {s : OrderSide} {bp : Int} {L' : PriceLevel}
    {ob' : OrderBook}
    (h : (ob'.contraMap s).containsKey bp = false ∨ L'.isEmpty = false) :
    eraseEmptyLevel s bp L' ob' = ob' := by
  unfold eraseEmptyLevel
  rw [if_neg]
  rintro ⟨h1, h2⟩
  rcases h with h | h
  · rw [h1] at h
    cases h
  · rw [h2] at h
    cases h

/-- Everything one `_match_order` run guarantees under the side-map
invariants. -/
def MatchOrderSpec (o : Order) (ob : OrderBook) (trades : List Trade)
    (o' : Order) (ob' : OrderBook) (trades' : List Trade) : Prop :=
  (o'.order_id = o.order_id ∧ o'.side = o.side ∧ o'.price = o.price ∧
   o'.symbol = o.symbol ∧ o'.order_type = o.order_type ∧
   o'.quantity = o.quantity) ∧
  (o' = o ∨ o'.status = (if o'.remaining_quantity = 0 then
     OrderStatus.filled
   else if 0 < o'.filled_quantity then OrderStatus.partFilled
   else o.status)) ∧
  (ob'.ownMap o.side = ob.ownMap o.side ∧ ob'.symbol = ob.symbol ∧
   (∀ n, ob'.orders.containsKey n = true →
      ob.orders.containsKey n = true)) ∧
  (∃ n, (ob'.contraMap o.side).map Prod.fst =
     ((ob.contraMap o.side).map Prod.fst).drop n) ∧
  MapInv (contraSide o.side) (ob'.contraMap o.side) ∧
  ((ob'.contraMap o.side).map Prod.fst).Pairwise (contraKeyLt o.side) ∧
  (0 < o'.remaining_quantity →
    ob'.contraMap o.side = [] ∨
    (∃ bq Lq restq, ob'.contraMap o.side = (bq, Lq) :: restq ∧
      priceBreak o bq = true)) ∧
  (0 < o.remaining_quantity →
    (0 ≤ o'.remaining_quantity ∧
     (o'.remaining_quantity = 0 ↔
       canFillFrom o o.remaining_quantity (ob.contraMap o.side) = true))) ∧
  (∃ ntr, trades' = trades ++ ntr ∧
    (ntr.map Trade.quantity).sum =
      o.remaining_quantity - o'.remaining_quantity ∧
    (∀ t ∈ ntr, t.symbol = o.symbol ∧ t.aggressor_side = o.side ∧
      t.taker_order_id = o.order_id ∧ 0 < t.quantity)) ∧
  o'.filled_quantity =
    o.filled_quantity + (o.remaining_quantity - o'.remaining_quantity)

theorem matchOrder_inv {o : Order} {ob : OrderBook} {trades : List Trade} :
    ∀ {o' : Order} {ob' : OrderBook} {trades' : List Trade},
    MapInv (contraSide o.side) (ob.contraMap o.side) →
    ((ob.contraMap o.side).map Prod.fst).Pairwise (contraKeyLt o.side) →
    matchOrder o ob trades = .ok (o', ob', trades') →
    MatchOrderSpec o ob trades o' ob' trades' := by
  induction o, ob, trades using matchOrder.induct with
  | case1 o ob trades hrem hnil =>
    intro o' ob' trades' hMap hPair hrun
    rw [matchOrder_nil hrem hnil] at hrun
    simp only [Except.ok.injEq, Prod.mk.injEq] at hrun
    obtain ⟨h1, h2, h3⟩ := hrun
    subst h1; subst h2; subst h3
    refine ⟨⟨rfl, rfl, rfl, rfl, rfl, rfl⟩, Or.inl rfl,
      ⟨rfl, rfl, fun n hn => hn⟩, ⟨0, rfl⟩, hMap, hPair,
      fun _ => Or.inl hnil, fun h0 => ⟨le_of_lt hrem, ?_⟩,
      ⟨[], by simp, by simp, by simp⟩, by omega⟩
    rw [hnil]
    simp only [canFillFrom]
    constructor
    · intro h
      omega
    · intro h
      simp only [decide_eq_true_eq] at h
      omega
  | case2 o ob trades hrem bp L tail hb hbr =>
    intro o' ob' trades' hMap hPair hrun
    rw [matchOrder_break hrem hb hbr] at hrun
    simp only [Except.ok.injEq, Prod.mk.injEq] at hrun
    obtain ⟨h1, h2, h3⟩ := hrun
    subst h1; subst h2; subst h3
    refine ⟨⟨rfl, rfl, rfl, rfl, rfl, rfl⟩, Or.inl rfl,
      ⟨rfl, rfl, fun n hn => hn⟩, ⟨0, rfl⟩, hMap, hPair,
      fun _ => Or.inr ⟨bp, L, tail, hb, hbr⟩,
      fun h0 => ⟨le_of_lt hrem, ?_⟩,
      ⟨[], by simp, by simp, by simp⟩, by omega⟩
    rw [hb]
    simp only [canFillFrom, hbr, if_true]
    constructor
    · intro h
      omega
    · intro h
      simp only [decide_eq_true_eq] at h
      omega
  | case3 o ob trades hrem bp L tail hb hbr e herr =>
    intro o' ob' trades' hMap hPair hrun
    rw [matchOrder_level hrem hb (by simpa using hbr), herr] at hrun
    exact absurd hrun (by simp)
  | case6 o ob trades hrem =>
    intro o' ob' trades' hMap hPair hrun
    rw [matchOrder_stop hrem] at hrun
    simp only [Except.ok.injEq, Prod.mk.injEq] at hrun
    obtain ⟨h1, h2, h3⟩ := hrun
    subst h1; subst h2; subst h3
    exact ⟨⟨rfl, rfl, rfl, rfl, rfl, rfl⟩, Or.inl rfl,
      ⟨rfl, rfl, fun n hn => hn⟩, ⟨0, rfl⟩, hMap, hPair,
      fun h => absurd h hrem, fun h => absurd h hrem,
      ⟨[], by simp, by simp, by simp⟩, by omega⟩
  | case5 o ob trades hrem bp L tail hb hbr o₁ L₁ ob₁ trades₁ hlev hstop =>
    intro o' ob' trades' hMap hPair hrun
    rw [matchOrder_level hrem hb (by simpa using hbr), hlev] at hrun
    have hrun' : (if 0 < o₁.remaining_quantity then
        matchOrder o₁ (eraseEmptyLevel o.side bp L₁ ob₁) trades₁
      else .ok (o₁, eraseEmptyLevel o.side bp L₁ ob₁, trades₁)) =
        .ok (o', ob', trades') := hrun
    rw [if_neg hstop] at hrun'
    simp only [Except.ok.injEq, Prod.mk.injEq] at hrun'
    obtain ⟨h1, h2, h3⟩ := hrun'
    subst h1; subst h2; subst h3
    have hLinv : LevelInv bp (contraSide o.side) L :=
      hMap (bp, L) (by rw [hb]; exact List.mem_cons_self _ _)
    have hnodup : SideMap.containsKey tail bp = false := by
      rw [hb] at hPair
      exact pairwise_head_not_contains hPair
    have hspec := matchLevel_inv hb hnodup hLinv.1 hlev
    obtain ⟨⟨ha1, ha2, ha3, ha4, ha5, ha6⟩, -, hwork⟩ := hspec
    obtain ⟨⟨hj1, hj2, hj3⟩, ⟨hk1, hk2⟩, ⟨hl1, hl2, hl3, hl4⟩,
      ⟨ntr, hm1, hm2, hm3, hm4, hm5, hm6, hm7⟩⟩ :=
      hwork ⟨hrem, hLinv.2⟩
    have hLtot : 0 < L.total_quantity := hLinv.1.total_pos hLinv.2
    -- after a stop, the aggressor came out empty, so the precheck holds
    have hzero : o₁.remaining_quantity = 0 := by
      rw [hj1]
      rw [hj1] at hstop
      omega
    have hfull : L.total_quantity ≥ o.remaining_quantity := by
      by_contra hlt
      rw [hj1] at hstop
      omega
    have hnoop : eraseEmptyLevel o.side bp L₁ ob₁ = ob₁ := by
      apply eraseEmptyLevel_noop
      by_cases hle : L₁.orders = []
      · rw [hl1, if_pos hle]
        left
        exact hnodup
      · right
        have hpos : 0 < L₁.total_quantity := hk1.total_pos hle
        simp only [PriceLevel.isEmpty]
        rw [Bool.or_eq_false_iff]
        constructor
        · simpa using hle
        · simpa using by omega
    rw [hnoop]
    refine ⟨⟨ha1, ha2, ha3, ha4, ha5, ha6⟩, Or.inr hj3,
      ⟨hl2, hl3, hl4⟩, ?_, ?_, ?_, fun h => absurd h hstop,
      fun _ => ⟨by omega, ?_⟩, ⟨ntr, hm1, ?_, ?_⟩,
      by rw [hj2, hj1]; ring⟩
    · by_cases hle : L₁.orders = []
      · rw [hl1, if_pos hle, hb]
        exact ⟨1, by simp⟩
      · rw [hl1, if_neg hle, hb]
        exact ⟨0, by simp⟩
    · intro pair hmem
      by_cases hle : L₁.orders = []
      · rw [hl1, if_pos hle] at hmem
        exact hMap pair (by rw [hb]; exact List.mem_cons_of_mem _ hmem)
      · rw [hl1, if_neg hle] at hmem
        rcases List.mem_cons.mp hmem with h | h
        · subst h
          exact ⟨hk1, hle⟩
        · exact hMap pair (by rw [hb]; exact List.mem_cons_of_mem _ h)
    · by_cases hle : L₁.orders = []
      · rw [hl1, if_pos hle]
        rw [hb] at hPair
        simp only [List.map_cons, List.pairwise_cons] at hPair
        exact hPair.2
      · rw [hl1, if_neg hle]
        rw [hb] at hPair
        simp only [List.map_cons, List.pairwise_cons] at hPair ⊢
        exact hPair
    · constructor
      · intro h
        rw [hb]
        simp only [canFillFrom]
        rw [if_neg hbr, if_pos (by exact hfull)]
      · intro h
        exact hzero
    · rw [hm4, hj1]
      omega
    · intro t ht
      obtain ⟨hh1, hh2, hh3, hh4, hh5⟩ := hm3 t ht
      exact ⟨hh1, hh3, hh4, hh5⟩
  | case4 o ob trades hrem bp L tail hb hbr o₁ L₁ ob₁ trades₁ hlev
      obE hcont =>
    rename_i ih
    have hobE₀ : obE = eraseEmptyLevel o.side bp L₁ ob₁ := rfl
    clear_value obE
    intro o' ob' trades' hMap hPair hrun
    rw [matchOrder_level hrem hb (by simpa using hbr), hlev] at hrun
    have hrun₂ : (if 0 < o₁.remaining_quantity then
        matchOrder o₁ (eraseEmptyLevel o.side bp L₁ ob₁) trades₁
      else .ok (o₁, eraseEmptyLevel o.side bp L₁ ob₁, trades₁)) =
        .ok (o', ob', trades') := hrun
    rw [if_pos hcont] at hrun₂
    clear hrun
    have hrun := hrun₂
    have hLinv : LevelInv bp (contraSide o.side) L :=
      hMap (bp, L) (by rw [hb]; exact List.mem_cons_self _ _)
    have hnodup : SideMap.containsKey tail bp = false := by
      rw [hb] at hPair
      exact pairwise_head_not_contains hPair
    have hspec := matchLevel_inv hb hnodup hLinv.1 hlev
    obtain ⟨⟨ha1, ha2, ha3, ha4, ha5, ha6⟩, -, hwork⟩ := hspec
    obtain ⟨⟨hj1, hj2, hj3⟩, ⟨hk1, hk2⟩, ⟨hl1, hl2, hl3, hl4⟩,
      ⟨ntr, hm1, hm2, hm3, hm4, hm5, hm6, hm7⟩⟩ :=
      hwork ⟨hrem, hLinv.2⟩
    have hLtot : 0 < L.total_quantity := hLinv.1.total_pos hLinv.2
    -- work remains, so this level was fully consumed and deleted
    have hmin : min o.remaining_quantity L.total_quantity =
        L.total_quantity := by
      rcases le_total o.remaining_quantity L.total_quantity with h | h
      · exfalso
        rw [hj1, min_eq_left h] at hcont
        simp at hcont
      · exact min_eq_right h
    have hless : L.total_quantity < o.remaining_quantity := by
      have h := hcont
      rw [hj1, hmin] at h
      omega
    rw [hmin] at hj1 hj2
    have hempty : L₁.orders = [] := by
      by_contra hne
      have := hk1.total_pos hne
      rw [hk2, hmin] at this
      omega
    have hcontra₁ : ob₁.contraMap o.side = tail := by
      rw [hl1, if_pos hempty]
    have hnoop : eraseEmptyLevel o.side bp L₁ ob₁ = ob₁ := by
      apply eraseEmptyLevel_noop
      left
      rw [hcontra₁]
      exact hnodup
    rw [hnoop] at hrun
    have hobE : obE = ob₁ := hobE₀.trans hnoop
    rw [hobE] at ih
    have hMap₁ : MapInv (contraSide o₁.side) (ob₁.contraMap o₁.side) := by
      rw [ha2, hcontra₁]
      intro pair hmem
      exact hMap pair (by rw [hb]; exact List.mem_cons_of_mem _ hmem)
    have hPair₁ : ((ob₁.contraMap o₁.side).map Prod.fst).Pairwise
        (contraKeyLt o₁.side) := by
      rw [ha2, hcontra₁]
      rw [hb] at hPair
      simp only [List.map_cons, List.pairwise_cons] at hPair
      exact hPair.2
    have hspec₂ := ih hMap₁ hPair₁ hrun
    obtain ⟨⟨hi1, hi2, hi3, hi4, hi5, hi6⟩, hist, ⟨hn1, hn2, hn3⟩,
      ⟨nn, hdrop⟩, hMap', hPair', hstopc, hcf, ⟨ntr₂, hp1, hp2, hp3⟩,
      hfil₂⟩ := hspec₂
    rw [ha2] at hdrop hMap' hPair' hn1
    have hsum₂nn : 0 ≤ (ntr₂.map Trade.quantity).sum :=
      sum_trade_quantity_nonneg _ fun t ht => (hp3 t ht).2.2.2
    refine ⟨⟨hi1.trans ha1, hi2.trans ha2, hi3.trans ha3,
      hi4.trans ha4, hi5.trans ha5, hi6.trans ha6⟩, ?_,
      ⟨hn1.trans hl2, hn2.trans hl3,
        fun n hn => hl4 n (hn3 n hn)⟩, ?_, hMap', hPair', ?_, ?_, ?_,
      by omega⟩
    · -- status composition across levels
      right
      rcases hist with hsame | hform
      · rw [hsame, hj3]
      · rw [hform]
        by_cases hrz : o'.remaining_quantity = 0
        · rw [if_pos hrz, if_pos hrz]
        · rw [if_neg hrz, if_neg hrz]
          by_cases hfz : 0 < o'.filled_quantity
          · rw [if_pos hfz, if_pos hfz]
          · rw [if_neg hfz, if_neg hfz, hj3]
            have hrq : o'.remaining_quantity =
                o₁.remaining_quantity - (ntr₂.map Trade.quantity).sum := by
              omega
            have hfq : o₁.filled_quantity ≤ o'.filled_quantity := by
              omega
            rw [if_neg (by omega), if_neg (by omega)]
    · refine ⟨nn + 1, ?_⟩
      rw [hdrop, hcontra₁, hb]
      simp
    · intro hre
      rcases hstopc hre with h | ⟨bq, Lq, restq, hq1, hq2⟩
      · left
        rw [← ha2]
        exact h
      · right
        refine ⟨bq, Lq, restq, by rw [← ha2]; exact hq1, ?_⟩
        rw [← priceBreak_congr ha3 ha2]
        exact hq2
    · intro h0
      have hcf₁ := hcf hcont
      refine ⟨hcf₁.1, ?_⟩
      rw [hb]
      have hstep : canFillFrom o o.remaining_quantity ((bp, L) :: tail) =
          canFillFrom o (o.remaining_quantity - L.total_quantity) tail := by
        simp only [canFillFrom]
        rw [if_neg hbr, if_neg (by omega)]
      rw [hstep]
      have hrw : o.remaining_quantity - L.total_quantity =
          o₁.remaining_quantity := by
        rw [hj1]
      rw [hrw, ← hcontra₁, ← ha2, ← canFillFrom_congr ha3 ha2]
      exact hcf₁.2
    · refine ⟨ntr ++ ntr₂, ?_, ?_, ?_⟩
      · rw [hp1, hm1]
        simp
      · simp only [List.map_append, List.sum_append]
        rw [hm4, hp2, hmin, hj1]
        omega
      · intro t ht
        rcases List.mem_append.mp ht with h | h
        · obtain ⟨hh1, hh2, hh3, hh4, hh5⟩ := hm3 t h
          exact ⟨hh1, hh3, hh4, hh5⟩
        · obtain ⟨hh1, hh2, hh3, hh4⟩ := hp3 t h
          exact ⟨hh1.trans ha4, hh2.trans ha2, hh3.trans ha1, hh4⟩

/-! ## The matching loops never raise under the book invariants

`Order.fill` is the only raising call inside the loops; under the level
invariant every fill quantity is positive and within the resting
order's remainder. -/

theorem matchStep_ok {o : Order} {bp : Int} {resting : Order}
    {qtail : List Order} {L : PriceLevel} {ob : OrderBook}
    (h0 : 0 < o.remaining_quantity)
    (hr : 0 < resting.remaining_quantity) :
    ∃ s, matchStep o bp resting qtail L ob = .ok s := by
  have hmin : 0 < min o.remaining_quantity resting.remaining_quantity :=
    lt_min h0 hr
  obtain ⟨o', ho'⟩ : ∃ o',
      o.fill (min o.remaining_quantity resting.remaining_quantity) =
        .ok o' := by
    unfold Order.fill
    rw [if_neg (not_le.mpr hmin),
        if_neg (not_lt.mpr (min_le_left _ _))]
    exact ⟨_, rfl⟩
  obtain ⟨r', hr'⟩ : ∃ r',
      resting.fill (min o.remaining_quantity resting.remaining_quantity) =
        .ok r' := by
    unfold Order.fill
    rw [if_neg (not_le.mpr hmin),
        if_neg (not_lt.mpr (min_le_right _ _))]
    exact ⟨_, rfl⟩
  cases hstep : matchStep o bp resting qtail L ob with
  | ok s => exact ⟨s, rfl⟩
  | error e =>
    exfalso
    simp only [matchStep, ho', hr'] at hstep
    simp at hstep

theorem matchLevel_ok {o : Order} {bp : Int} {L : PriceLevel}
    {ob : OrderBook} {trades : List Trade} :
    ∀ {rest : SideMap},
    ob.contraMap o.side = (bp, L) :: rest →
    rest.containsKey bp = false →
    LevelPartInv bp (contraSide o.side) L →
    ∃ r, matchLevel o bp L ob trades = .ok r := by
  induction o, bp, L, ob, trades using matchLevel.induct with
  | case1 o bp L ob trades hguard hnil =>
    exact absurd hnil hguard.2
  | case2 o bp L ob trades hguard resting qtail hq e herr =>
    intro rest hcontra hnodup hLinv
    have hrpos : 0 < resting.remaining_quantity :=
      (hLinv.2 resting (by rw [hq]; exact List.mem_cons_self _ _)).1
    obtain ⟨s, hs⟩ := @matchStep_ok o bp resting qtail L ob hguard.1 hrpos
    rw [hs] at herr
    cases herr
  | case3 o bp L ob trades hguard resting qtail hq s hs ih =>
    intro rest hcontra hnodup hLinv
    have hstep := matchStep_inv hcontra hnodup hLinv hq hguard.1 hs
    obtain ⟨⟨-, hside, -, -, -, -⟩, -, -, ⟨hlev, -, hLinv'⟩,
      ⟨hcontra', -, -, -⟩, -⟩ := hstep
    rw [matchLevel_cons hguard.1 hq, hs]
    by_cases hdone : s.maker.remaining_quantity = 0 ∧ qtail = []
    · have hempty : s.level.orders = [] := by
        rw [hlev, if_pos hdone.1, hdone.2]
      exact ⟨_, matchLevel_stop (by simp [hempty])⟩
    · rw [hside] at ih
      refine @ih rest ?_ hnodup hLinv'
      rw [hcontra', if_neg hdone]
  | case4 o bp L ob trades hguard =>
    intro rest hcontra hnodup hLinv
    exact ⟨_, matchLevel_stop hguard⟩

theorem matchOrder_ok {o : Order} {ob : OrderBook} {trades : List Trade} :
    MapInv (contraSide o.side) (ob.contraMap o.side) →
    ((ob.contraMap o.side).map Prod.fst).Pairwise (contraKeyLt o.side) →
    ∃ r, matchOrder o ob trades = .ok r := by
  induction o, ob, trades using matchOrder.induct with
  | case1 o ob trades hrem hnil =>
    intro hMap hPair
    exact ⟨_, matchOrder_nil hrem hnil⟩
  | case2 o ob trades hrem bp L tail hb hbr =>
    intro hMap hPair
    exact ⟨_, matchOrder_break hrem hb hbr⟩
  | case3 o ob trades hrem bp L tail hb hbr e herr =>
    intro hMap hPair
    have hLinv : LevelInv bp (contraSide o.side) L :=
      hMap (bp, L) (by rw [hb]; exact List.mem_cons_self _ _)
    have hnodup : SideMap.containsKey tail bp = false := by
      rw [hb] at hPair
      exact pairwise_head_not_contains hPair
    obtain ⟨r, hr⟩ := @matchLevel_ok o bp L ob trades tail hb hnodup hLinv.1
    rw [hr] at herr
    cases herr
  | case4 o ob trades hrem bp L tail hb hbr o₁ L₁ ob₁ trades₁ hlev
      obE hcont =>
    rename_i ih
    have hobE₀ : obE = eraseEmptyLevel o.side bp L₁ ob₁ := rfl
    clear_value obE
    intro hMap hPair
    have hLinv : LevelInv bp (contraSide o.side) L :=
      hMap (bp, L) (by rw [hb]; exact List.mem_cons_self _ _)
    have hnodup : SideMap.containsKey tail bp = false := by
      rw [hb] at hPair
      exact pairwise_head_not_contains hPair
    have hspec := matchLevel_inv hb hnodup hLinv.1 hlev
    obtain ⟨⟨ha1, ha2, ha3, ha4, ha5, ha6⟩, -, hwork⟩ := hspec
    obtain ⟨⟨hj1, hj2, hj3⟩, ⟨hk1, hk2⟩, ⟨hl1, hl2, hl3, hl4⟩, -⟩ :=
      hwork ⟨hrem, hLinv.2⟩
    have hmin : min o.remaining_quantity L.total_quantity =
        L.total_quantity := by
      rcases le_total o.remaining_quantity L.total_quantity with h | h
      · exfalso
        rw [hj1, min_eq_left h] at hcont
        simp at hcont
      · exact min_eq_right h
    have hempty : L₁.orders = [] := by
      by_contra hne
      have hpos := hk1.total_pos hne
      rw [hk2, hmin] at hpos
      omega
    have hcontra₁ : ob₁.contraMap o.side = tail := by
      rw [hl1, if_pos hempty]
    have hnoop : eraseEmptyLevel o.side bp L₁ ob₁ = ob₁ := by
      apply eraseEmptyLevel_noop
      left
      rw [hcontra₁]
      exact hnodup
    have hobE : obE = ob₁ := hobE₀.trans hnoop
    rw [hobE] at ih
    have hMap₁ : MapInv (contraSide o₁.side) (ob₁.contraMap o₁.side) := by
      rw [ha2, hcontra₁]
      intro pair hmem
      exact hMap pair (by rw [hb]; exact List.mem_cons_of_mem _ hmem)
    have hPair₁ : ((ob₁.contraMap o₁.side).map Prod.fst).Pairwise
        (contraKeyLt o₁.side) := by
      rw [ha2, hcontra₁]
      rw [hb] at hPair
      simp only [List.map_cons, List.pairwise_cons] at hPair
      exact hPair.2
    obtain ⟨r, hr⟩ := ih hMap₁ hPair₁
    refine ⟨r, ?_⟩
    rw [matchOrder_level hrem hb (by simpa using hbr), hlev]
    show (if 0 < o₁.remaining_quantity then
        matchOrder o₁ (eraseEmptyLevel o.side bp L₁ ob₁) trades₁
      else .ok (o₁, eraseEmptyLevel o.side bp L₁ ob₁, trades₁)) = .ok r
    rw [if_pos hcont, hnoop]
    exact hr
  | case5 o ob trades hrem bp L tail hb hbr o₁ L₁ ob₁ trades₁ hlev hstop =>
    intro hMap hPair
    refine ⟨(o₁, eraseEmptyLevel o.side bp L₁ ob₁, trades₁), ?_⟩
    rw [matchOrder_level hrem hb (by simpa using hbr), hlev]
    show (if 0 < o₁.remaining_quantity then
        matchOrder o₁ (eraseEmptyLevel o.side bp L₁ ob₁) trades₁
      else .ok (o₁, eraseEmptyLevel o.side bp L₁ ob₁, trades₁)) =
        .ok (o₁, eraseEmptyLevel o.side bp L₁ ob₁, trades₁)
    rw [if_neg hstop]
  | case6 o ob trades hrem =>
    intro hMap hPair
    exact ⟨_, matchOrder_stop hrem⟩

/-! ## Book-level invariants -/

theorem contraSide_contraSide (s : OrderSide) : contraSide (contraSide s) = s := by
  cases s <;> rfl

/-- One side map in good shape: every level satisfies the level invariant
for the side it stores, and the keys follow the map's iteration order
(descending on bids = the contra order of a SELL aggressor, ascending on
asks = the contra order of a BUY aggressor). -/
def SideOk (sd : OrderSide) (m : SideMap) : Prop :=
  MapInv sd m ∧ (m.map Prod.fst).Pairwise (contraKeyLt (contraSide sd))

/-- No bid key at or above any ask key. -/
def Uncrossed (ob : OrderBook) : Prop :=
  ∀ pb ∈ ob.bids.map Prod.fst, ∀ pa ∈ ob.asks.map Prod.fst, pb < pa

/-- The order-book invariant carried through every engine operation. -/
def BookInv (ob : OrderBook) : Prop :=
  SideOk OrderSide.buy ob.bids ∧ SideOk OrderSide.sell ob.asks ∧ Uncrossed ob

theorem OrderBook.ownMap_buy (ob : OrderBook) :
    ob.ownMap OrderSide.buy = ob.bids := rfl

theorem OrderBook.ownMap_sell (ob : OrderBook) :
    ob.ownMap OrderSide.sell = ob.asks := rfl

theorem OrderBook.contraMap_buy (ob : OrderBook) :
    ob.contraMap OrderSide.buy = ob.asks := rfl

theorem OrderBook.contraMap_sell (ob : OrderBook) :
    ob.contraMap OrderSide.sell = ob.bids := rfl

/-- The contra map of an aggressor of side `s` is the side map storing
orders of side `contraSide s`, in the aggressor's scan order. -/
theorem BookInv.contra {ob : OrderBook} (h : BookInv ob) (s : OrderSide) :
    MapInv (contraSide s) (ob.contraMap s) ∧
    ((ob.contraMap s).map Prod.fst).Pairwise (contraKeyLt s) := by
  obtain ⟨⟨hb1, hb2⟩, ⟨ha1, ha2⟩, -⟩ := h
  cases s
  · exact ⟨ha1, ha2⟩
  · exact ⟨hb1, by simpa [contraSide] using hb2⟩

theorem BookInv.own {ob : OrderBook} (h : BookInv ob) (s : OrderSide) :
    SideOk s (ob.ownMap s) := by
  obtain ⟨hb, ha, -⟩ := h
  cases s
  · exact hb
  · exact ha

/-! ## `OrderBook.add_order` under the invariant -/

theorem PriceLevel.addOrder_keepsInv {p : Int} {sd : OrderSide} {L : PriceLevel}
    {o : Order} (h : LevelPartInv p sd L)
    (h1 : 0 < o.remaining_quantity) (h2 : o.price = some p)
    (h3 : o.side = sd)
    (h4 : o.status = OrderStatus.pending ∨ o.status = OrderStatus.partFilled) :
    LevelInv p sd (L.addOrder o) := by
  refine ⟨⟨?_, ?_⟩, by simp [PriceLevel.addOrder]⟩
  · simp only [PriceLevel.addOrder, List.map_append, List.sum_append,
      List.map_cons, List.map_nil, List.sum_cons, List.sum_nil, h.1]
    ring
  · intro x hx
    simp only [PriceLevel.addOrder, List.mem_append, List.mem_cons,
      List.not_mem_nil, or_false] at hx
    rcases hx with hx | hx
    · exact h.2 x hx
    · subst hx
      exact ⟨h1, h2, h3, h4⟩

theorem SideMap.keys_set (m : SideMap) (p : Int) (L : PriceLevel) :
    (m.set p L).map Prod.fst = m.map Prod.fst := by
  induction m with
  | nil => rfl
  | cons kv rest ih =>
    obtain ⟨k, L₀⟩ := kv
    simp only [SideMap.set]
    split <;> simp [ih]

theorem SideMap.mem_set {m : SideMap} {p : Int} {L : PriceLevel} {pair} :
    pair ∈ m.set p L → pair = (p, L) ∨ pair ∈ m := by
  induction m with
  | nil => intro h; cases h
  | cons kv rest ih =>
    obtain ⟨k, L₀⟩ := kv
    simp only [SideMap.set]
    split
    · rename_i hk
      subst hk
      intro h
      rcases List.mem_cons.mp h with h | h
      · exact Or.inl h
      · exact Or.inr (List.mem_cons_of_mem _ h)
    · intro h
      rcases List.mem_cons.mp h with h | h
      · exact Or.inr (by rw [h]; exact List.mem_cons_self _ _)
      · rcases ih h with h' | h'
        · exact Or.inl h'
        · exact Or.inr (List.mem_cons_of_mem _ h')

theorem SideMap.find_some_mem {m : SideMap} {p : Int} {L : PriceLevel}
    (h : m.find p = some L) : (p, L) ∈ m := by
  induction m with
  | nil => cases h
  | cons kv rest ih =>
    obtain ⟨k, L₀⟩ := kv
    simp only [SideMap.find] at h
    split at h
    · rename_i hk
      subst hk
      cases h
      exact List.mem_cons_self _ _
    · exact List.mem_cons_of_mem _ (ih h)

theorem SideMap.keys_insertAsc (m : SideMap) (p : Int) (L : PriceLevel) :
    ∀ q, q ∈ (m.insertAsc p L).map Prod.fst ↔
      q = p ∨ q ∈ m.map Prod.fst := by
  induction m with
  | nil => intro q; simp [SideMap.insertAsc]
  | cons kv rest ih =>
    obtain ⟨k, L₀⟩ := kv
    intro q
    simp only [SideMap.insertAsc]
    split
    · simp
    · simp only [List.map_cons, List.mem_cons, ih q]
      constructor
      · rintro (h | h | h)
        · exact Or.inr (Or.inl h)
        · exact Or.inl h
        · exact Or.inr (Or.inr h)
      · rintro (h | h | h)
        · exact Or.inr (Or.inl h)
        · exact Or.inl h
        · exact Or.inr (Or.inr h)

theorem SideMap.keys_insertDesc (m : SideMap) (p : Int) (L : PriceLevel) :
    ∀ q, q ∈ (m.insertDesc p L).map Prod.fst ↔
      q = p ∨ q ∈ m.map Prod.fst := by
  induction m with
  | nil => intro q; simp [SideMap.insertDesc]
  | cons kv rest ih =>
    obtain ⟨k, L₀⟩ := kv
    intro q
    simp only [SideMap.insertDesc]
    split
    · simp
    · simp only [List.map_cons, List.mem_cons, ih q]
      constructor
      · rintro (h | h | h)
        · exact Or.inr (Or.inl h)
        · exact Or.inl h
        · exact Or.inr (Or.inr h)
      · rintro (h | h | h)
        · exact Or.inr (Or.inl h)
        · exact Or.inl h
        · exact Or.inr (Or.inr h)

theorem SideMap.mem_insertAsc {m : SideMap} {p : Int} {L : PriceLevel} {pair} :
    pair ∈ m.insertAsc p L → pair = (p, L) ∨ pair ∈ m := by
  induction m with
  | nil =>
    intro h
    simp only [SideMap.insertAsc, List.mem_singleton] at h
    exact Or.inl h
  | cons kv rest ih =>
    obtain ⟨k, L₀⟩ := kv
    simp only [SideMap.insertAsc]
    split
    · intro h
      rcases List.mem_cons.mp h with h | h
      · exact Or.inl h
      · exact Or.inr h
    · intro h
      rcases List.mem_cons.mp h with h | h
      · exact Or.inr (by rw [h]; exact List.mem_cons_self _ _)
      · rcases ih h with h' | h'
        · exact Or.inl h'
        · exact Or.inr (List.mem_cons_of_mem _ h')

theorem SideMap.mem_insertDesc {m : SideMap} {p : Int} {L : PriceLevel} {pair} :
    pair ∈ m.insertDesc p L → pair = (p, L) ∨ pair ∈ m := by
  induction m with
  | nil =>
    intro h
    simp only [SideMap.insertDesc, List.mem_singleton] at h
    exact Or.inl h
  | cons kv rest ih =>
    obtain ⟨k, L₀⟩ := kv
    simp only [SideMap.insertDesc]
    split
    · intro h
      rcases List.mem_cons.mp h with h | h
      · exact Or.inl h
      · exact Or.inr h
    · intro h
      rcases List.mem_cons.mp h with h | h
      · exact Or.inr (by rw [h]; exact List.mem_cons_self _ _)
      · rcases ih h with h' | h'
        · exact Or.inl h'
        · exact Or.inr (List.mem_cons_of_mem _ h')

theorem SideMap.pairwise_insertAsc {m : SideMap} {p : Int} {L : PriceLevel}
    (h : (m.map Prod.fst).Pairwise (· < ·))
    (hp : m.containsKey p = false) :
    ((m.insertAsc p L).map Prod.fst).Pairwise (· < ·) := by
  induction m with
  | nil => simp [SideMap.insertAsc]
  | cons kv rest ih =>
    obtain ⟨k, L₀⟩ := kv
    simp only [List.map_cons, List.pairwise_cons] at h
    simp only [SideMap.containsKey, Bool.or_eq_false_iff,
      beq_eq_false_iff_ne, ne_eq] at hp
    simp only [SideMap.insertAsc]
    split
    · rename_i hlt
      simp only [List.map_cons, List.pairwise_cons]
      refine ⟨?_, h.1, h.2⟩
      intro q hq
      rcases List.mem_cons.mp hq with h' | h'
      · omega
      · have := h.1 q h'
        omega
    · rename_i hge
      simp only [List.map_cons, List.pairwise_cons]
      refine ⟨?_, ih h.2 hp.2⟩
      intro q hq
      rcases (SideMap.keys_insertAsc rest p L q).mp hq with h' | h'
      · subst h'
        omega
      · exact h.1 q h'

theorem SideMap.pairwise_insertDesc {m : SideMap} {p : Int} {L : PriceLevel}
    (h : (m.map Prod.fst).Pairwise (fun a b => b < a))
    (hp : m.containsKey p = false) :
    ((m.insertDesc p L).map Prod.fst).Pairwise (fun a b => b < a) := by
  induction m with
  | nil => simp [SideMap.insertDesc]
  | cons kv rest ih =>
    obtain ⟨k, L₀⟩ := kv
    simp only [List.map_cons, List.pairwise_cons] at h
    simp only [SideMap.containsKey, Bool.or_eq_false_iff,
      beq_eq_false_iff_ne, ne_eq] at hp
    simp only [SideMap.insertDesc]
    split
    · rename_i hlt
      simp only [List.map_cons, List.pairwise_cons]
      refine ⟨?_, h.1, h.2⟩
      intro q hq
      rcases List.mem_cons.mp hq with h' | h'
      · omega
      · have := h.1 q h'
        omega
    · rename_i hge
      simp only [List.map_cons, List.pairwise_cons]
      refine ⟨?_, ih h.2 hp.2⟩
      intro q hq
      rcases (SideMap.keys_insertDesc rest p L q).mp hq with h' | h'
      · subst h'
        omega
      · exact h.1 q h'

theorem SideMap.find_insertAsc_self {m : SideMap} {p : Int} {L : PriceLevel}
    (hp : m.containsKey p = false) : (m.insertAsc p L).find p = some L := by
  induction m with
  | nil => simp [SideMap.insertAsc, SideMap.find]
  | cons kv rest ih =>
    obtain ⟨k, L₀⟩ := kv
    simp only [SideMap.containsKey, Bool.or_eq_false_iff,
      beq_eq_false_iff_ne, ne_eq] at hp
    simp only [SideMap.insertAsc]
    split
    · simp [SideMap.find]
    · simp only [SideMap.find, if_neg hp.1]
      exact ih hp.2

theorem SideMap.find_insertDesc_self {m : SideMap} {p : Int} {L : PriceLevel}
    (hp : m.containsKey p = false) : (m.insertDesc p L).find p = some L := by
  induction m with
  | nil => simp [SideMap.insertDesc, SideMap.find]
  | cons kv rest ih =>
    obtain ⟨k, L₀⟩ := kv
    simp only [SideMap.containsKey, Bool.or_eq_false_iff,
      beq_eq_false_iff_ne, ne_eq] at hp
    simp only [SideMap.insertDesc]
    split
    · simp [SideMap.find]
    · simp only [SideMap.find, if_neg hp.1]
      exact ih hp.2

theorem SideMap.containsKey_find {m : SideMap} {p : Int}
    (h : m.containsKey p = true) : ∃ L, m.find p = some L := by
  induction m with
  | nil => cases h
  | cons kv rest ih =>
    obtain ⟨k, L₀⟩ := kv
    simp only [SideMap.containsKey, Bool.or_eq_true, beq_iff_eq] at h
    simp only [SideMap.find]
    by_cases hk : k = p
    · exact ⟨L₀, by rw [if_pos hk]⟩
    · rcases h with h | h
      · exact absurd h hk
      · obtain ⟨L, hL⟩ := ih h
        exact ⟨L, by rw [if_neg hk]; exact hL⟩

theorem SideMap.set_insertAsc_self {m : SideMap} {p : Int}
    {L L' : PriceLevel} (hp : m.containsKey p = false) :
    (m.insertAsc p L).set p L' = m.insertAsc p L' := by
  induction m with
  | nil => simp [SideMap.insertAsc, SideMap.set]
  | cons kv rest ih =>
    obtain ⟨k, L₀⟩ := kv
    simp only [SideMap.containsKey, Bool.or_eq_false_iff,
      beq_eq_false_iff_ne, ne_eq] at hp
    simp only [SideMap.insertAsc]
    split
    · simp [SideMap.set]
    · simp only [SideMap.set, if_neg hp.1]
      rw [ih hp.2]

theorem SideMap.set_insertDesc_self {m : SideMap} {p : Int}
    {L L' : PriceLevel} (hp : m.containsKey p = false) :
    (m.insertDesc p L).set p L' = m.insertDesc p L' := by
  induction m with
  | nil => simp [SideMap.insertDesc, SideMap.set]
  | cons kv rest ih =>
    obtain ⟨k, L₀⟩ := kv
    simp only [SideMap.containsKey, Bool.or_eq_false_iff,
      beq_eq_false_iff_ne, ne_eq] at hp
    simp only [SideMap.insertDesc]
    split
    · simp [SideMap.set]
    · simp only [SideMap.set, if_neg hp.1]
      rw [ih hp.2]

/-- `OrderBook.add_order` on a live priced order: succeeds, touches only
the order's own side map and the id index, and keeps the side in good
shape; any new key equals the order's price. -/
theorem OrderBook.addOrder_inv {b : OrderBook} {o : Order} {p : Int}
    (hp : o.price = some p) (hrem : 0 < o.remaining_quantity)
    (hst : o.status = OrderStatus.pending ∨ o.status = OrderStatus.partFilled)
    (hOk : SideOk o.side (b.ownMap o.side)) :
    ∃ b', b.addOrder o = .ok b' ∧
      b'.symbol = b.symbol ∧
      b'.contraMap o.side = b.contraMap o.side ∧
      b'.orders = b.orders.set o.order_id { side := o.side, price := p } ∧
      SideOk o.side (b'.ownMap o.side) ∧
      ∀ q ∈ (b'.ownMap o.side).map Prod.fst,
        q = p ∨ q ∈ (b.ownMap o.side).map Prod.fst := by
  cases hside : o.side with
  | buy =>
    rw [hside] at hOk
    by_cases hc : b.bids.containsKey p
    · obtain ⟨L, hL⟩ := SideMap.containsKey_find hc
      have hLinv : LevelInv p OrderSide.buy L :=
        hOk.1 (p, L) (SideMap.find_some_mem hL)
      refine ⟨{ b with
                  bids := b.bids.set p (L.addOrder o)
                  orders := b.orders.set o.order_id
                    (IndexEntry.mk OrderSide.buy p) }, ?_, rfl, rfl, rfl,
              ?_, ?_⟩
      · simp only [OrderBook.addOrder, hp, if_neg (not_le.mpr hrem), hside,
          if_pos hc, hL]
        rfl
      · show SideOk OrderSide.buy (b.bids.set p (L.addOrder o))
        constructor
        · intro pair hmem
          rcases SideMap.mem_set hmem with h | h
          · rw [h]
            exact PriceLevel.addOrder_keepsInv hLinv.1 hrem hp hside hst
          · exact hOk.1 pair h
        · rw [SideMap.keys_set]
          exact hOk.2
      · show ∀ q ∈ (b.bids.set p (L.addOrder o)).map Prod.fst,
          q = p ∨ q ∈ b.bids.map Prod.fst
        intro q hq
        rw [SideMap.keys_set] at hq
        exact Or.inr hq
    · have hcf : b.bids.containsKey p = false := by
        simpa using hc
      have hfresh : LevelPartInv p OrderSide.buy
          { price := p, orders := [], total_quantity := 0 } :=
        ⟨by simp, by simp⟩
      refine ⟨{ b with
                bids := b.bids.insertDesc p
                  (PriceLevel.addOrder
                    { price := p, orders := [], total_quantity := 0 } o),
                orders := b.orders.set o.order_id
                  (IndexEntry.mk OrderSide.buy p) }, ?_, rfl, rfl, rfl,
              ?_, ?_⟩
      · simp only [OrderBook.addOrder, hp, if_neg (not_le.mpr hrem), hside,
          if_neg hc, SideMap.find_insertDesc_self hcf,
          SideMap.set_insertDesc_self hcf]
        rfl
      · show SideOk OrderSide.buy (b.bids.insertDesc p
          (PriceLevel.addOrder (PriceLevel.mk p [] 0) o))
        constructor
        · intro pair hmem
          rcases SideMap.mem_insertDesc hmem with h | h
          · rw [h]
            exact PriceLevel.addOrder_keepsInv hfresh hrem hp hside hst
          · exact hOk.1 pair h
        · exact SideMap.pairwise_insertDesc hOk.2 hcf
      · show ∀ q ∈ ((b.bids.insertDesc p
            (PriceLevel.addOrder (PriceLevel.mk p [] 0) o)).map Prod.fst),
          q = p ∨ q ∈ b.bids.map Prod.fst
        intro q hq
        exact (SideMap.keys_insertDesc b.bids p _ q).mp hq
  | sell =>
    rw [hside] at hOk
    by_cases hc : b.asks.containsKey p
    · obtain ⟨L, hL⟩ := SideMap.containsKey_find hc
      have hLinv : LevelInv p OrderSide.sell L :=
        hOk.1 (p, L) (SideMap.find_some_mem hL)
      refine ⟨{ b with
                  asks := b.asks.set p (L.addOrder o)
                  orders := b.orders.set o.order_id
                    (IndexEntry.mk OrderSide.sell p) }, ?_, rfl, rfl, rfl,
              ?_, ?_⟩
      · simp only [OrderBook.addOrder, hp, if_neg (not_le.mpr hrem), hside,
          if_pos hc, hL]
        rfl
      · show SideOk OrderSide.sell (b.asks.set p (L.addOrder o))
        constructor
        · intro pair hmem
          rcases SideMap.mem_set hmem with h | h
          · rw [h]
            exact PriceLevel.addOrder_keepsInv hLinv.1 hrem hp hside hst
          · exact hOk.1 pair h
        · rw [SideMap.keys_set]
          exact hOk.2
      · show ∀ q ∈ (b.asks.set p (L.addOrder o)).map Prod.fst,
          q = p ∨ q ∈ b.asks.map Prod.fst
        intro q hq
        rw [SideMap.keys_set] at hq
        exact Or.inr hq
    · have hcf : b.asks.containsKey p = false := by
        simpa using hc
      have hfresh : LevelPartInv p OrderSide.sell
          { price := p, orders := [], total_quantity := 0 } :=
        ⟨by simp, by simp⟩
      refine ⟨{ b with
                asks := b.asks.insertAsc p
                  (PriceLevel.addOrder
                    { price := p, orders := [], total_quantity := 0 } o),
                orders := b.orders.set o.order_id
                  (IndexEntry.mk OrderSide.sell p) }, ?_, rfl, rfl, rfl,
              ?_, ?_⟩
      · simp only [OrderBook.addOrder, hp, if_neg (not_le.mpr hrem), hside,
          if_neg hc, SideMap.find_insertAsc_self hcf,
          SideMap.set_insertAsc_self hcf]
        rfl
      · show SideOk OrderSide.sell (b.asks.insertAsc p
          (PriceLevel.addOrder (PriceLevel.mk p [] 0) o))
        constructor
        · intro pair hmem
          rcases SideMap.mem_insertAsc hmem with h | h
          · rw [h]
            exact PriceLevel.addOrder_keepsInv hfresh hrem hp hside hst
          · exact hOk.1 pair h
        · exact SideMap.pairwise_insertAsc hOk.2 hcf
      · show ∀ q ∈ ((b.asks.insertAsc p
            (PriceLevel.addOrder (PriceLevel.mk p [] 0) o)).map Prod.fst),
          q = p ∨ q ∈ b.asks.map Prod.fst
        intro q hq
        exact (SideMap.keys_insertAsc b.asks p _ q).mp hq

/-! ## `OrderBook.remove_order` under the invariant -/

theorem OrderIndex.find_none_of_not_contains {m : OrderIndex} {oid : Nat}
    (h : m.containsKey oid = false) : m.find oid = none := by
  induction m with
  | nil => rfl
  | cons kv rest ih =>
    obtain ⟨k, e⟩ := kv
    simp only [OrderIndex.containsKey, Bool.or_eq_false_iff,
      beq_eq_false_iff_ne, ne_eq] at h
    simp only [OrderIndex.find, if_neg h.1]
    exact ih h.2

theorem extractFirst_spec {oid : Nat} {l : List Order} {r : Order}
    {rest : List Order} (h : extractFirst oid l = some (r, rest)) :
    r ∈ l ∧ (∀ x ∈ rest, x ∈ l) ∧
    (l.map Order.remaining_quantity).sum =
      r.remaining_quantity + (rest.map Order.remaining_quantity).sum := by
  induction l generalizing rest with
  | nil => cases h
  | cons a t ih =>
    simp only [extractFirst] at h
    split at h
    · simp only [Option.some.injEq, Prod.mk.injEq] at h
      obtain ⟨h1, h2⟩ := h
      subst h1; subst h2
      exact ⟨List.mem_cons_self _ _,
        fun x hx => List.mem_cons_of_mem _ hx, by simp⟩
    · rename_i hne
      cases hrec : extractFirst oid t with
      | none =>
        rw [hrec] at h
        cases h
      | some pr =>
        obtain ⟨r₀, rest₀⟩ := pr
        rw [hrec] at h
        simp only [Option.some.injEq, Prod.mk.injEq] at h
        obtain ⟨h1, h2⟩ := h
        subst h1; subst h2
        obtain ⟨g1, g2, g3⟩ := ih hrec
        refine ⟨List.mem_cons_of_mem _ g1, ?_, ?_⟩
        · intro x hx
          rcases List.mem_cons.mp hx with hx | hx
          · rw [hx]
            exact List.mem_cons_self _ _
          · exact List.mem_cons_of_mem _ (g2 x hx)
        · simp only [List.map_cons, List.sum_cons]
          omega

theorem SideMap.set_self {m : SideMap} {p : Int} {L : PriceLevel}
    (h : m.find p = some L) : m.set p L = m := by
  induction m with
  | nil => rfl
  | cons kv rest ih =>
    obtain ⟨k, L₀⟩ := kv
    simp only [SideMap.find] at h
    simp only [SideMap.set]
    split
    · rename_i hk
      rw [if_pos hk] at h
      cases h
      rfl
    · rename_i hk
      rw [if_neg hk] at h
      rw [ih h]

theorem SideMap.mem_erase {m : SideMap} {p : Int} {pair} :
    pair ∈ m.erase p → pair ∈ m := by
  induction m with
  | nil => intro h; cases h
  | cons kv rest ih =>
    obtain ⟨k, L₀⟩ := kv
    simp only [SideMap.erase]
    split
    · exact fun h => List.mem_cons_of_mem _ h
    · intro h
      rcases List.mem_cons.mp h with h | h
      · rw [h]
        exact List.mem_cons_self _ _
      · exact List.mem_cons_of_mem _ (ih h)

theorem SideMap.keys_erase_sublist (m : SideMap) (p : Int) :
    ((m.erase p).map Prod.fst).Sublist (m.map Prod.fst) := by
  induction m with
  | nil => simp [SideMap.erase]
  | cons kv rest ih =>
    obtain ⟨k, L₀⟩ := kv
    simp only [SideMap.erase]
    split
    · simp only [List.map_cons]
      exact List.sublist_cons_of_sublist _ (List.Sublist.refl _)
    · simp only [List.map_cons]
      exact List.Sublist.cons₂ _ ih

/-- `OrderBook.remove_order` keeps the book invariant, and under the
invariant a removal that finds nothing leaves the book untouched. -/
theorem OrderBook.removeOrder_inv {b : OrderBook} {oid : Nat}
    (hb : BookInv b) :
    BookInv (b.removeOrder oid).2 ∧
    ((b.removeOrder oid).1 = none → (b.removeOrder oid).2 = b) := by
  obtain ⟨⟨hbm, hbp⟩, ⟨ham, hap⟩, hun⟩ := hb
  unfold OrderBook.removeOrder
  cases hfi : b.orders.find oid with
  | none => exact ⟨⟨⟨hbm, hbp⟩, ⟨ham, hap⟩, hun⟩, fun _ => rfl⟩
  | some e =>
    simp only []
    by_cases hside : e.side = OrderSide.buy
    · rw [if_pos hside]
      cases hfL : b.bids.find e.price with
      | none => exact ⟨⟨⟨hbm, hbp⟩, ⟨ham, hap⟩, hun⟩, fun _ => rfl⟩
      | some L =>
        have hLinv : LevelInv e.price OrderSide.buy L :=
          hbm (e.price, L) (SideMap.find_some_mem hfL)
        cases hext : extractFirst oid L.orders with
        | none =>
          have hne : L.isEmpty = false := by
            have h2 := hLinv.1.total_pos hLinv.2
            simp only [PriceLevel.isEmpty, Bool.or_eq_false_iff]
            refine ⟨?_, ?_⟩
            · cases hq : L.orders with
              | nil => exact absurd hq hLinv.2
              | cons a t => rfl
            · rw [beq_eq_false_iff_ne]
              omega
          simp only [PriceLevel.removeOrder, hext, hne, Bool.false_eq_true,
            if_false, SideMap.set_self hfL]
          exact ⟨⟨⟨hbm, hbp⟩, ⟨ham, hap⟩, hun⟩, fun _ => trivial⟩
        | some pr =>
          obtain ⟨r, rest⟩ := pr
          obtain ⟨g1, g2, g3⟩ := extractFirst_spec hext
          simp only [PriceLevel.removeOrder, hext]
          by_cases hemp : (PriceLevel.mk L.price rest
              (L.total_quantity - r.remaining_quantity)).isEmpty = true
          · rw [if_pos hemp]
            refine ⟨⟨⟨?_, ?_⟩, ⟨ham, hap⟩, ?_⟩, fun h => by cases h⟩
            · intro pair hmem
              exact hbm pair (SideMap.mem_erase hmem)
            · exact hbp.sublist (SideMap.keys_erase_sublist b.bids e.price)
            · intro pb hpb pa hpa
              exact hun pb
                ((SideMap.keys_erase_sublist b.bids e.price).mem hpb) pa hpa
          · rw [if_neg hemp]
            have hrest : rest ≠ [] := by
              intro hcon
              apply hemp
              simp [PriceLevel.isEmpty, hcon]
            refine ⟨⟨⟨?_, ?_⟩, ⟨ham, hap⟩, ?_⟩, fun h => by cases h⟩
            · intro pair hmem
              rcases SideMap.mem_set hmem with h | h
              · rw [h]
                refine ⟨⟨?_, ?_⟩, hrest⟩
                · show L.total_quantity - r.remaining_quantity =
                    ((rest.map Order.remaining_quantity).sum)
                  rw [hLinv.1.1]
                  omega
                · intro x hx
                  exact hLinv.1.2 x (g2 x hx)
              · exact hbm pair h
            · rw [SideMap.keys_set]
              exact hbp
            · intro pb hpb pa hpa
              rw [SideMap.keys_set] at hpb
              exact hun pb hpb pa hpa
    · rw [if_neg hside]
      cases hfL : b.asks.find e.price with
      | none => exact ⟨⟨⟨hbm, hbp⟩, ⟨ham, hap⟩, hun⟩, fun _ => rfl⟩
      | some L =>
        have hLinv : LevelInv e.price OrderSide.sell L :=
          ham (e.price, L) (SideMap.find_some_mem hfL)
        cases hext : extractFirst oid L.orders with
        | none =>
          have hne : L.isEmpty = false := by
            have h2 := hLinv.1.total_pos hLinv.2
            simp only [PriceLevel.isEmpty, Bool.or_eq_false_iff]
            refine ⟨?_, ?_⟩
            · cases hq : L.orders with
              | nil => exact absurd hq hLinv.2
              | cons a t => rfl
            · rw [beq_eq_false_iff_ne]
              omega
          simp only [PriceLevel.removeOrder, hext, hne, Bool.false_eq_true,
            if_false, SideMap.set_self hfL]
          exact ⟨⟨⟨hbm, hbp⟩, ⟨ham, hap⟩, hun⟩, fun _ => trivial⟩
        | some pr =>
          obtain ⟨r, rest⟩ := pr
          obtain ⟨g1, g2, g3⟩ := extractFirst_spec hext
          simp only [PriceLevel.removeOrder, hext]
          by_cases hemp : (PriceLevel.mk L.price rest
              (L.total_quantity - r.remaining_quantity)).isEmpty = true
          · rw [if_pos hemp]
            refine ⟨⟨⟨hbm, hbp⟩, ⟨?_, ?_⟩, ?_⟩, fun h => by cases h⟩
            · intro pair hmem
              exact ham pair (SideMap.mem_erase hmem)
            · exact hap.sublist (SideMap.keys_erase_sublist b.asks e.price)
            · intro pb hpb pa hpa
              exact hun pb hpb pa
                ((SideMap.keys_erase_sublist b.asks e.price).mem hpa)
          · rw [if_neg hemp]
            have hrest : rest ≠ [] := by
              intro hcon
              apply hemp
              simp [PriceLevel.isEmpty, hcon]
            refine ⟨⟨⟨hbm, hbp⟩, ⟨?_, ?_⟩, ?_⟩, fun h => by cases h⟩
            · intro pair hmem
              rcases SideMap.mem_set hmem with h | h
              · rw [h]
                refine ⟨⟨?_, ?_⟩, hrest⟩
                · show L.total_quantity - r.remaining_quantity =
                    ((rest.map Order.remaining_quantity).sum)
                  rw [hLinv.1.1]
                  omega
                · intro x hx
                  exact hLinv.1.2 x (g2 x hx)
              · exact ham pair h
            · rw [SideMap.keys_set]
              exact hap
            · intro pb hpb pa hpa
              rw [SideMap.keys_set] at hpa
              exact hun pb hpb pa hpa

/-- A removal whose id is not in the index is a pure identity. -/
theorem OrderBook.removeOrder_not_indexed {b : OrderBook} {oid : Nat}
    (h : b.orders.containsKey oid = false) :
    b.removeOrder oid = (none, b) := by
  unfold OrderBook.removeOrder
  rw [OrderIndex.find_none_of_not_contains h]

/-! ## The invariant through one match run and one dispatch -/

theorem BookInv.after_match {s : OrderSide} {ob ob' : OrderBook}
    (hb : BookInv ob)
    (hown : ob'.ownMap s = ob.ownMap s)
    (hmap : MapInv (contraSide s) (ob'.contraMap s))
    (hpair : ((ob'.contraMap s).map Prod.fst).Pairwise (contraKeyLt s))
    (hsub : ∀ q ∈ (ob'.contraMap s).map Prod.fst,
      q ∈ (ob.contraMap s).map Prod.fst) :
    BookInv ob' := by
  obtain ⟨⟨hbm, hbp⟩, ⟨ham, hap⟩, hun⟩ := hb
  cases s
  · have hown' : ob'.bids = ob.bids := hown
    refine ⟨⟨?_, ?_⟩, ⟨hmap, hpair⟩, ?_⟩
    · rw [hown']
      exact hbm
    · rw [hown']
      exact hbp
    · intro pb hpb pa hpa
      rw [hown'] at hpb
      exact hun pb hpb pa (hsub pa hpa)
  · have hown' : ob'.asks = ob.asks := hown
    refine ⟨⟨hmap, hpair⟩, ⟨?_, ?_⟩, ?_⟩
    · rw [hown']
      exact ham
    · rw [hown']
      exact hap
    · intro pb hpb pa hpa
      rw [hown'] at hpa
      exact hun pb (hsub pb hpb) pa hpa

/-- If the best contra price already breaks the limit, every deeper
contra price (in scan order) does too. -/
theorem priceBreak_down {o : Order} {q₀ q : Int}
    (h0 : priceBreak o q₀ = true)
    (hlt : contraKeyLt o.side q₀ q) : priceBreak o q = true := by
  unfold priceBreak at h0 ⊢
  cases hp : o.price with
  | none => rw [hp] at h0; cases h0
  | some lim =>
    rw [hp] at h0
    simp only [decide_eq_true_eq] at h0 ⊢
    cases hs : o.side <;> rw [hs] at h0 <;>
      simp only [contraKeyLt, hs] at hlt ⊢
    · rcases h0 with ⟨-, h⟩ | ⟨h, -⟩
      · exact Or.inl ⟨trivial, by omega⟩
      · cases h
    · rcases h0 with ⟨h, -⟩ | ⟨-, h⟩
      · cases h
      · exact Or.inr ⟨trivial, by omega⟩

/-- One full `_match_order` run from a book satisfying the invariant:
never raises, satisfies the run specification, and hands back a book
still satisfying the invariant. -/
theorem matchOrder_run {o : Order} {ob : OrderBook} (hb : BookInv ob) :
    ∃ o' ob' trades, matchOrder o ob [] = .ok (o', ob', trades) ∧
      MatchOrderSpec o ob [] o' ob' trades ∧ BookInv ob' := by
  obtain ⟨hmap, hpair⟩ := hb.contra o.side
  obtain ⟨⟨o', ob', trades⟩, hrun⟩ := matchOrder_ok hmap hpair
  have hspec := matchOrder_inv hmap hpair hrun
  obtain ⟨-, -, ⟨hown, -, -⟩, ⟨n, hdrop⟩, hmap', hpair', -⟩ :=
    matchOrder_inv hmap hpair hrun
  refine ⟨o', ob', trades, hrun, hspec, ?_⟩
  refine BookInv.after_match hb hown hmap' hpair' ?_
  intro q hq
  rw [hdrop] at hq
  exact List.drop_subset n _ hq

/-- What `Order.__post_init__` guarantees about every freshly
constructed order — the only form in which orders reach
`submit_order`. -/
def ValidOrder (o : Order) : Prop :=
  0 < o.quantity ∧ o.remaining_quantity = o.quantity ∧
  o.filled_quantity = 0 ∧ o.status = OrderStatus.pending ∧
  (o.order_type = OrderType.market → o.price = none) ∧
  (o.order_type ≠ OrderType.market → ∃ p, o.price = some p ∧ 0 < p)

theorem OrderIndex.containsKey_set_imp {m : OrderIndex} {oid n : Nat}
    {e : IndexEntry} (h : (m.set oid e).containsKey n = true) :
    n = oid ∨ m.containsKey n = true := by
  induction m with
  | nil =>
    simp only [OrderIndex.set, OrderIndex.containsKey, Bool.or_eq_true,
      beq_iff_eq] at h
    rcases h with h | h
    · exact Or.inl h.symm
    · cases h
  | cons kv rest ih =>
    obtain ⟨k, e₀⟩ := kv
    simp only [OrderIndex.set] at h
    split at h
    · rename_i hk
      subst hk
      simp only [OrderIndex.containsKey, Bool.or_eq_true, beq_iff_eq] at h ⊢
      rcases h with h | h
      · exact Or.inl h.symm
      · exact Or.inr (Or.inr h)
    · simp only [OrderIndex.containsKey, Bool.or_eq_true, beq_iff_eq] at h ⊢
      rcases h with h | h
      · exact Or.inr (Or.inl h)
      · rcases ih h with h' | h'
        · exact Or.inl h'
        · exact Or.inr (Or.inr h')

/-- `_process_market_order` under the invariant: succeeds, its own side
and index never grow, and a residual is disposed of as CANCELLED. -/
theorem processMarketOrder_spec {o : Order} {ob : OrderBook}
    (hb : BookInv ob) :
    ∃ o' ob' trades, processMarketOrder o ob = .ok (o', ob', trades) ∧
      BookInv ob' ∧
      o'.order_id = o.order_id ∧ o'.side = o.side ∧
      ob'.ownMap o.side = ob.ownMap o.side ∧
      (∀ n, ob'.orders.containsKey n = true →
        ob.orders.containsKey n = true) ∧
      (0 < o'.remaining_quantity → o'.status = OrderStatus.cancelled) := by
  obtain ⟨o₁, ob₁, trades, hrun, hspec, hb₁⟩ := matchOrder_run (o := o) hb
  obtain ⟨⟨hid, hside, -, -, -, -⟩, -, ⟨hown, -, hidx⟩, -⟩ := hspec
  simp only [processMarketOrder, hrun]
  by_cases hres : 0 < o₁.remaining_quantity
  · rw [if_pos hres]
    exact ⟨_, _, _, rfl, hb₁, hid, hside, hown, hidx, fun _ => rfl⟩
  · rw [if_neg hres]
    exact ⟨_, _, _, rfl, hb₁, hid, hside, hown, hidx,
      fun h => absurd h hres⟩

/-- `_process_ioc_order` under the invariant (same shape as MARKET). -/
theorem processIocOrder_spec {o : Order} {ob : OrderBook}
    (hb : BookInv ob) :
    ∃ o' ob' trades, processIocOrder o ob = .ok (o', ob', trades) ∧
      BookInv ob' ∧
      o'.order_id = o.order_id ∧ o'.side = o.side ∧
      ob'.ownMap o.side = ob.ownMap o.side ∧
      (∀ n, ob'.orders.containsKey n = true →
        ob.orders.containsKey n = true) ∧
      (0 < o'.remaining_quantity → o'.status = OrderStatus.cancelled) := by
  obtain ⟨o₁, ob₁, trades, hrun, hspec, hb₁⟩ := matchOrder_run (o := o) hb
  obtain ⟨⟨hid, hside, -, -, -, -⟩, -, ⟨hown, -, hidx⟩, -⟩ := hspec
  simp only [processIocOrder, hrun]
  by_cases hres : 0 < o₁.remaining_quantity
  · rw [if_pos hres]
    exact ⟨_, _, _, rfl, hb₁, hid, hside, hown, hidx, fun _ => rfl⟩
  · rw [if_neg hres]
    exact ⟨_, _, _, rfl, hb₁, hid, hside, hown, hidx,
      fun h => absurd h hres⟩

/-- `_process_limit_order` under the invariant: succeeds, keeps the
invariant, a residual rests only with every remaining contra price
outside the limit, and the index can gain only this order's id (and only
when a non-terminal residual rests). -/
theorem processLimitOrder_spec {o : Order} {ob : OrderBook} {p : Int}
    (hp : o.price = some p) (hpend : o.status = OrderStatus.pending)
    (hb : BookInv ob) :
    ∃ o' ob'' trades, processLimitOrder o ob = .ok (o', ob'', trades) ∧
      BookInv ob'' ∧
      o'.order_id = o.order_id ∧ o'.side = o.side ∧
      (0 < o'.remaining_quantity →
        (∀ q ∈ (ob''.contraMap o.side).map Prod.fst,
          priceBreak o q = true) ∧
        (o'.status = OrderStatus.pending ∨
         o'.status = OrderStatus.partFilled)) ∧
      (∀ n, ob''.orders.containsKey n = true →
        n = o.order_id ∨ ob.orders.containsKey n = true) ∧
      (¬ 0 < o'.remaining_quantity →
        ∀ n, ob''.orders.containsKey n = true →
          ob.orders.containsKey n = true) := by
  obtain ⟨o₁, ob₁, trades, hrun, hspec, hb₁⟩ := matchOrder_run (o := o) hb
  obtain ⟨⟨hid, hside, hprice, -, -, -⟩, hist, ⟨hown, -, hidx⟩, -, hmap₁,
    hpair₁, hstopc, -, -⟩ := hspec
  simp only [processLimitOrder, hrun]
  by_cases hres : 0 < o₁.remaining_quantity
  · rw [if_pos hres]
    -- the residual's status is live
    have hst₁ : o₁.status = OrderStatus.pending ∨
        o₁.status = OrderStatus.partFilled := by
      rcases hist with hsame | hform
      · rw [hsame, hpend]
        exact Or.inl rfl
      · rw [hform, if_neg (by omega)]
        by_cases hf : 0 < o₁.filled_quantity
        · rw [if_pos hf]
          exact Or.inr rfl
        · rw [if_neg hf, hpend]
          exact Or.inl rfl
    -- every contra price left breaks the limit
    have hbreak : ∀ q ∈ (ob₁.contraMap o.side).map Prod.fst,
        priceBreak o q = true := by
      rcases hstopc hres with hnil | ⟨bq, Lq, restq, hq1, hq2⟩
      · rw [hnil]
        intro q hq
        cases hq
      · rw [hq1]
        intro q hq
        rcases List.mem_cons.mp hq with hq | hq
        · rw [hq]
          exact hq2
        · rw [hq1] at hpair₁
          simp only [List.map_cons, List.pairwise_cons] at hpair₁
          exact priceBreak_down hq2 (hpair₁.1 q hq)
    have hp₁ : o₁.price = some p := by rw [hprice, hp]
    obtain ⟨ob₂, hadd, hsym₂, hcontra₂, hord₂, hok₂, hkeys₂⟩ :=
      OrderBook.addOrder_inv hp₁ hres hst₁ (hb₁.own o₁.side)
    rw [hadd]
    refine ⟨o₁, ob₂, trades, rfl, ?_, hid, hside, ?_, ?_, ?_⟩
    · -- the invariant after resting the residual
      obtain ⟨⟨hbm₁, hbp₁⟩, ⟨ham₁, hap₁⟩, hun₁⟩ := hb₁
      rw [hside] at hcontra₂ hok₂ hkeys₂
      cases hside' : o.side
      · -- BUY residual: new bid at `p`, asks untouched
        have hasks : ob₂.asks = ob₁.asks := by
          have := hcontra₂
          rw [hside'] at this
          exact this
        refine ⟨?_, ?_, ?_⟩
        · have h := hok₂
          rw [hside'] at h
          exact h
        · rw [hasks]
          exact ⟨ham₁, hap₁⟩
        · intro pb hpb pa hpa
          rw [hasks] at hpa
          have hpb' := hkeys₂
          rw [hside'] at hpb'
          rcases hpb' pb hpb with hq | hq
          · -- the fresh bid price is below every surviving ask
            have hbr := hbreak pa (by rw [hside']; exact hpa)
            unfold priceBreak at hbr
            rw [hp] at hbr
            simp only [decide_eq_true_eq, hside'] at hbr
            rcases hbr with ⟨-, hlt⟩ | ⟨hcon, -⟩
            · omega
            · cases hcon
          · exact hun₁ pb hq pa hpa
      · -- SELL residual: new ask at `p`, bids untouched
        have hbids : ob₂.bids = ob₁.bids := by
          have := hcontra₂
          rw [hside'] at this
          exact this
        refine ⟨?_, ?_, ?_⟩
        · rw [hbids]
          exact ⟨hbm₁, hbp₁⟩
        · have h := hok₂
          rw [hside'] at h
          exact h
        · intro pb hpb pa hpa
          rw [hbids] at hpb
          have hpa' := hkeys₂
          rw [hside'] at hpa'
          rcases hpa' pa hpa with hq | hq
          · have hbr := hbreak pb (by rw [hside']; exact hpb)
            unfold priceBreak at hbr
            rw [hp] at hbr
            simp only [decide_eq_true_eq, hside'] at hbr
            rcases hbr with ⟨hcon, -⟩ | ⟨-, hlt⟩
            · cases hcon
            · omega
          · exact hun₁ pb hpb pa hq
    · -- residual facts
      intro _
      refine ⟨?_, hst₁⟩
      intro q hq
      rw [hside] at hcontra₂
      rw [hcontra₂] at hq
      exact hbreak q hq
    · -- index membership
      intro n hn
      rw [hord₂] at hn
      rcases OrderIndex.containsKey_set_imp hn with h | h
      · rw [hid] at h
        exact Or.inl h
      · exact Or.inr (hidx n h)
    · intro hcon
      exact absurd hres hcon
  · rw [if_neg hres]
    refine ⟨o₁, ob₁, trades, rfl, hb₁, hid, hside,
      fun h => absurd h hres, ?_, fun _ n hn => hidx n hn⟩
    intro n hn
    exact Or.inr (hidx n hn)

/-- `_process_fok_order` under the invariant: the all-or-nothing
dichotomy. -/
theorem processFokOrder_spec {o : Order} {ob : OrderBook}
    (hv : ValidOrder o) (hb : BookInv ob) :
    ∃ o' ob' rep log, processFokOrder o ob = .ok (o', ob', rep, log) ∧
      BookInv ob' ∧
      o'.order_id = o.order_id ∧
      (∀ n, ob'.orders.containsKey n = true →
        ob.orders.containsKey n = true) ∧
      ((canFillCompletely o ob = false ∧
        o' = { o with status := OrderStatus.cancelled } ∧ rep = [] ∧
        log = [] ∧ ob' = ob) ∨
       (canFillCompletely o ob = true ∧
        o'.status = OrderStatus.filled ∧ o'.remaining_quantity = 0 ∧
        (rep.map Trade.quantity).sum = o.quantity ∧ log = rep)) := by
  obtain ⟨hq, hrq, hfq, hst, hmp, hnp⟩ := hv
  by_cases hcf : canFillCompletely o ob = true
  · obtain ⟨o₁, ob₁, trades, hrun, hspec, hb₁⟩ := matchOrder_run (o := o) hb
    obtain ⟨⟨hid, -, -, -, -, -⟩, hist, ⟨-, -, hidx⟩, -, -, -, -, hcfi,
      ⟨ntr, htr, hsum, -⟩, -⟩ := hspec
    have h0 : 0 < o.remaining_quantity := by omega
    have hzero : o₁.remaining_quantity = 0 := by
      refine ((hcfi h0).2).mpr ?_
      unfold canFillCompletely at hcf
      rw [hrq]
      exact hcf
    have hfill : o₁.status = OrderStatus.filled := by
      rcases hist with hsame | hform
      · rw [hsame] at hzero
        omega
      · rw [hform, if_pos hzero]
    refine ⟨o₁, ob₁, trades, trades, ?_, hb₁, hid, hidx,
      Or.inr ⟨hcf, hfill, hzero, ?_, rfl⟩⟩
    · simp only [processFokOrder, hcf, not_true, if_false, hrun]
      rw [if_neg (by omega)]
    · rw [htr]
      simp only [List.nil_append]
      rw [hsum, hzero, hrq]
      omega
  · have hcff : canFillCompletely o ob = false := by
      simpa using hcf
    refine ⟨{ o with status := OrderStatus.cancelled }, ob, [], [], ?_,
      hb, rfl, fun n hn => hn, Or.inl ⟨hcff, rfl, rfl, rfl, rfl⟩⟩
    simp only [processFokOrder, hcff]
    rw [if_pos (by simp [hcff])]

/-- Full type dispatch under the invariant: succeeds, keeps the book
invariant, and when the order ends terminal the id index has not
grown. -/
theorem dispatchOrder_inv {o : Order} {ob : OrderBook}
    (hv : ValidOrder o) (hb : BookInv ob) :
    ∃ o' ob' rep log, dispatchOrder o ob = .ok (o', ob', rep, log) ∧
      BookInv ob' ∧
      ((o'.status = OrderStatus.filled ∨
        o'.status = OrderStatus.cancelled) →
       ∀ n, ob'.orders.containsKey n = true →
         ob.orders.containsKey n = true) := by
  cases hot : o.order_type with
  | market =>
    obtain ⟨o', ob', tr, hpr, hbi, -, -, -, hidx, -⟩ :=
      processMarketOrder_spec (o := o) hb
    refine ⟨o', ob', tr, tr, ?_, hbi, fun _ => hidx⟩
    simp only [dispatchOrder, hot, hpr]
  | limit =>
    obtain ⟨p, hp, -⟩ := hv.2.2.2.2.2 (by rw [hot]; simp)
    obtain ⟨o', ob', tr, hpr, hbi, -, -, hres, hidx, hnores⟩ :=
      processLimitOrder_spec hp hv.2.2.2.1 hb
    refine ⟨o', ob', tr, tr, ?_, hbi, ?_⟩
    · simp only [dispatchOrder, hot, hpr]
    · intro hterm n hn
      by_cases hr : 0 < o'.remaining_quantity
      · rcases (hres hr).2 with h | h <;> rcases hterm with h' | h' <;>
          rw [h] at h' <;> cases h'
      · exact hnores hr n hn
  | ioc =>
    obtain ⟨o', ob', tr, hpr, hbi, -, -, -, hidx, -⟩ :=
      processIocOrder_spec (o := o) hb
    refine ⟨o', ob', tr, tr, ?_, hbi, fun _ => hidx⟩
    simp only [dispatchOrder, hot, hpr]
  | fok =>
    obtain ⟨o', ob', rep, log, hpr, hbi, -, hidx, -⟩ :=
      processFokOrder_spec hv hb
    refine ⟨o', ob', rep, log, ?_, hbi, fun _ => hidx⟩
    simp only [dispatchOrder, hot, hpr]

/-! ## Reachable engine states -/

def EngineInv (e : Engine) : Prop :=
  ∀ pair ∈ e.order_books, BookInv pair.2

theorem Books.findMem {l : Books} {s : String} {b : OrderBook}
    (h : l.find s = some b) : (s, b) ∈ l := by
  induction l with
  | nil => cases h
  | cons kv rest ih =>
    obtain ⟨k, b₀⟩ := kv
    simp only [Books.find] at h
    split at h
    · rename_i hk
      subst hk
      cases h
      exact List.mem_cons_self _ _
    · exact List.mem_cons_of_mem _ (ih h)

theorem Books.memOfSet {l : Books} {s : String} {b : OrderBook} {pair} :
    pair ∈ l.set s b → pair.2 = b ∨ pair ∈ l := by
  induction l with
  | nil =>
    intro h
    rcases List.mem_singleton.mp h with h
    rw [h]
    exact Or.inl rfl
  | cons kv rest ih =>
    obtain ⟨k, b₀⟩ := kv
    simp only [Books.set]
    split
    · intro h
      rcases List.mem_cons.mp h with h | h
      · rw [h]
        exact Or.inl rfl
      · exact Or.inr (List.mem_cons_of_mem _ h)
    · intro h
      rcases List.mem_cons.mp h with h | h
      · exact Or.inr (by rw [h]; exact List.mem_cons_self _ _)
      · rcases ih h with h' | h'
        · exact Or.inl h'
        · exact Or.inr (List.mem_cons_of_mem _ h')

theorem BookInv_empty (s : String) : BookInv (OrderBook.empty s) := by
  refine ⟨⟨?_, ?_⟩, ⟨?_, ?_⟩, ?_⟩
  · intro pair h
    cases h
  · simp [OrderBook.empty]
  · intro pair h
    cases h
  · simp [OrderBook.empty]
  · intro pb hpb pa hpa
    cases hpb

theorem Engine.submitOrder_inv {e : Engine} {o : Order}
    (hv : ValidOrder o) (he : EngineInv e) :
    EngineInv (e.submitOrder o).2 := by
  unfold Engine.submitOrder Engine.getOrCreateOrderBook
  cases hf : e.order_books.find o.symbol with
  | some b =>
    have hbB : BookInv b := he (o.symbol, b) (Books.findMem hf)
    obtain ⟨o', ob', rep, log, hd, hbi, -⟩ := dispatchOrder_inv hv hbB
    simp only [hd]
    intro pair hmem
    rcases Books.memOfSet hmem with h | h
    · rw [h]
      exact hbi
    · exact he pair h
  | none =>
    have hbB : BookInv (OrderBook.empty o.symbol) := BookInv_empty _
    obtain ⟨o', ob', rep, log, hd, hbi, -⟩ := dispatchOrder_inv hv hbB
    simp only [hd]
    intro pair hmem
    rcases Books.memOfSet hmem with h | h
    · rw [h]
      exact hbi
    · rcases Books.memOfSet h with h' | h'
      · rw [h']
        exact BookInv_empty _
      · exact he pair h'

theorem Engine.cancelOrder_inv {e : Engine} {sym : String} {oid : Nat}
    (he : EngineInv e) : EngineInv (e.cancelOrder sym oid).2 := by
  unfold Engine.cancelOrder
  cases hf : e.order_books.find sym with
  | none => exact he
  | some ob =>
    have hbB : BookInv ob := he (sym, ob) (Books.findMem hf)
    obtain ⟨hbi, -⟩ := @OrderBook.removeOrder_inv ob oid hbB
    cases hrem : (ob.removeOrder oid).1 with
    | some r =>
      simp only [hrem]
      intro pair hmem
      rcases Books.memOfSet hmem with h | h
      · rw [h]
        exact hbi
      · exact he pair h
    | none =>
      simp only [hrem]
      intro pair hmem
      rcases Books.memOfSet hmem with h | h
      · rw [h]
        exact hbi
      · exact he pair h

/-- The engine states reachable through the public API: a fresh engine,
submissions of validated orders, and cancellations. -/
inductive Reachable : Engine → Prop where
  | init : Reachable Engine.empty
  | submit {e : Engine} {o : Order} : Reachable e → ValidOrder o →
      Reachable (e.submitOrder o).2
  | cancel {e : Engine} {sym : String} {oid : Nat} : Reachable e →
      Reachable (e.cancelOrder sym oid).2

theorem Reachable.engineInv {e : Engine} (h : Reachable e) : EngineInv e := by
  induction h with
  | init => intro pair h; cases h
  | submit hr hv ih => exact Engine.submitOrder_inv hv ih
  | cancel hr ih => exact Engine.cancelOrder_inv ih

theorem Engine.getOrCreate_inv {e : Engine} {sym : String}
    (he : EngineInv e) : BookInv (e.getOrCreateOrderBook sym).1 := by
  unfold Engine.getOrCreateOrderBook
  cases hf : e.order_books.find sym with
  | some b => exact he (sym, b) (Books.findMem hf)
  | none => exact BookInv_empty _

theorem Engine.getOrCreate_books_inv {e : Engine} {sym : String}
    (he : EngineInv e) :
    ∀ pair ∈ (e.getOrCreateOrderBook sym).2, BookInv pair.2 := by
  unfold Engine.getOrCreateOrderBook
  cases hf : e.order_books.find sym with
  | some b => exact he
  | none =>
    intro pair hmem
    rcases Books.memOfSet hmem with h | h
    · rw [h]
      exact BookInv_empty _
    · exact he pair h

theorem Books.setFound {l : Books} {s : String} {b : OrderBook}
    (h : l.find s = some b) : l.set s b = l := by
  induction l with
  | nil => cases h
  | cons kv rest ih =>
    obtain ⟨k, b₀⟩ := kv
    simp only [Books.find] at h
    simp only [Books.set]
    split
    · rename_i hk
      rw [if_pos hk] at h
      cases h
      rfl
    · rename_i hk
      rw [if_neg hk] at h
      rw [ih h]

theorem SideMap.firstKey_mem {m : SideMap} {k : Int}
    (h : m.firstKey = some k) : k ∈ m.map Prod.fst := by
  cases m with
  | nil => cases h
  | cons kv rest =>
    obtain ⟨k₀, L₀⟩ := kv
    simp only [SideMap.firstKey, Option.some.injEq] at h
    rw [← h]
    simp

/-! ## Concrete states used by the claim witnesses -/

def wOrder1 : Order :=
  { order_id := 1, symbol := "S", order_type := OrderType.limit,
    side := OrderSide.buy, quantity := 5, price := some 100,
    status := OrderStatus.pending, filled_quantity := 0,
    remaining_quantity := 5 }

theorem wValid1 : ValidOrder wOrder1 :=
  ⟨by decide, by decide, by decide, by decide, by decide,
   fun _ => ⟨100, rfl, by decide⟩⟩

def wBook1 : OrderBook :=
  { symbol := "S",
    bids := [(100, { price := 100, orders := [wOrder1],
                     total_quantity := 5 })],
    asks := [], orders := [(1, ⟨OrderSide.buy, 100⟩)] }

def wEngine1 : Engine := (Engine.empty.submitOrder wOrder1).2

theorem wEngine1_eval :
    wEngine1 = { order_books := [("S", wBook1)], trades := [] } := by
  simp [wEngine1, wOrder1, wBook1, Engine.submitOrder,
    Engine.getOrCreateOrderBook, dispatchOrder, processLimitOrder,
    matchOrder.eq_def, OrderBook.empty, OrderBook.contraMap, Books.find,
    Books.set, OrderBook.addOrder, SideMap.containsKey, SideMap.insertDesc,
    SideMap.insertAsc, SideMap.find, SideMap.set, OrderIndex.set,
    PriceLevel.addOrder, Engine.empty]

theorem wReach1 : Reachable wEngine1 :=
  Reachable.submit Reachable.init wValid1

def wOrder2 : Order :=
  { order_id := 2, symbol := "S", order_type := OrderType.limit,
    side := OrderSide.sell, quantity := 3, price := some 200,
    status := OrderStatus.pending, filled_quantity := 0,
    remaining_quantity := 3 }

theorem wValid2 : ValidOrder wOrder2 :=
  ⟨by decide, by decide, by decide, by decide, by decide,
   fun _ => ⟨200, rfl, by decide⟩⟩

def wBook2 : OrderBook :=
  { symbol := "S",
    bids := [(100, { price := 100, orders := [wOrder1],
                     total_quantity := 5 })],
    asks := [(200, { price := 200, orders := [wOrder2],
                     total_quantity := 3 })],
    orders := [(1, ⟨OrderSide.buy, 100⟩), (2, ⟨OrderSide.sell, 200⟩)] }

def wEngine2 : Engine := (wEngine1.submitOrder wOrder2).2

theorem wEngine2_eval :
    wEngine2 = { order_books := [("S", wBook2)], trades := [] } := by
  rw [wEngine2, wEngine1_eval]
  simp [wOrder1, wOrder2, wBook1, wBook2, Engine.submitOrder,
    Engine.getOrCreateOrderBook, dispatchOrder, processLimitOrder,
    matchOrder.eq_def, priceBreak, OrderBook.contraMap, Books.find,
    Books.set, OrderBook.addOrder, SideMap.containsKey, SideMap.insertDesc,
    SideMap.insertAsc, SideMap.find, SideMap.set, OrderIndex.set,
    PriceLevel.addOrder]

theorem wReach2 : Reachable wEngine2 :=
  Reachable.submit wReach1 wValid2

/-! ## Claim C5 — level aggregate consistency in reachable states -/

/-- C5: in every reachable engine state (any sequence of submissions and
cancellations), every price level present in any book keeps
`total_quantity` equal to the sum of its queue's remaining quantities,
and no level with an empty queue or zero aggregate quantity remains in
either side map. -/
theorem claim_C5 {e : Engine} (hr : Reachable e) :
    ∀ pair ∈ e.order_books, ∀ lv : Int × PriceLevel,
      lv ∈ pair.2.bids ∨ lv ∈ pair.2.asks →
      lv.2.total_quantity =
        (lv.2.orders.map Order.remaining_quantity).sum ∧
      lv.2.orders ≠ [] ∧ lv.2.total_quantity ≠ 0 := by
  intro pair hmem lv hlv
  have hbi := hr.engineInv pair hmem
  rcases hlv with h | h
  · have hL := hbi.1.1 lv h
    have := hL.1.total_pos hL.2
    exact ⟨hL.1.1, hL.2, by omega⟩
  · have hL := hbi.2.1.1 lv h
    have := hL.1.total_pos hL.2
    exact ⟨hL.1.1, hL.2, by omega⟩

theorem claim_C5_witness :
    (100, PriceLevel.mk 100 [wOrder1] 5).2.total_quantity =
      ((100, PriceLevel.mk 100 [wOrder1] 5).2.orders.map
        Order.remaining_quantity).sum ∧
    (100, PriceLevel.mk 100 [wOrder1] 5).2.orders ≠ [] ∧
    (100, PriceLevel.mk 100 [wOrder1] 5).2.total_quantity ≠ 0 :=
  claim_C5 wReach1 ("S", wBook1) (by simp [wEngine1_eval])
    (100, PriceLevel.mk 100 [wOrder1] 5) (Or.inl (by simp [wBook1]))

/-! ## Claim C4 — the book is never observably crossed -/

/-- C4: after any `submit_order` on a reachable state, every book with
both a best bid and a best ask has `best_bid < best_ask`; and a LIMIT
residual rests only once every remaining contra price fails the limit
test (`priceBreak`), i.e. only after matching exhausted every contra
level priced at or inside its limit. -/
theorem claim_C4 {e : Engine} {o : Order} (hr : Reachable e)
    (hv : ValidOrder o) :
    (∀ pair ∈ (e.submitOrder o).2.order_books,
      ∀ pb pa, pair.2.getBestBid = some pb →
        pair.2.getBestAsk = some pa → pb < pa) ∧
    (∀ ob o' ob'' trades p, o.price = some p →
      o.status = OrderStatus.pending → BookInv ob →
      processLimitOrder o ob = .ok (o', ob'', trades) →
      0 < o'.remaining_quantity →
      ∀ q ∈ (ob''.contraMap o.side).map Prod.fst,
        priceBreak o q = true) := by
  constructor
  · intro pair hmem pb pa hpb hpa
    have hbi := (Reachable.submit hr hv).engineInv pair hmem
    exact hbi.2.2 pb (SideMap.firstKey_mem hpb) pa (SideMap.firstKey_mem hpa)
  · intro ob o' ob'' trades p hp hpend hb hrun hres
    obtain ⟨o₂, ob₂, tr₂, hrun₂, -, -, -, hres₂, -, -⟩ :=
      processLimitOrder_spec hp hpend hb
    rw [hrun₂] at hrun
    simp only [Except.ok.injEq, Prod.mk.injEq] at hrun
    obtain ⟨h1, h2, h3⟩ := hrun
    subst h1; subst h2; subst h3
    exact (hres₂ hres).1

theorem claim_C4_witness :
    wBook2.getBestBid = some 100 ∧ wBook2.getBestAsk = some 200 ∧
    (100 : Int) < 200 :=
  ⟨rfl, rfl,
   (claim_C4 wReach1 wValid2).1 ("S", wBook2)
     (by show ("S", wBook2) ∈ wEngine2.order_books
         simp [wEngine2_eval])
     100 200 rfl rfl⟩

/-! ## Claim C2 — FOK is all-or-nothing -/

/-- C2: a FOK submission either passes the liquidity precheck and
returns a FILLED report whose trades total exactly the order quantity,
or fails it and returns a CANCELLED report with zero trades, the
symbol's book unchanged, and the trade log unchanged. -/
theorem claim_C2 {e : Engine} {o : Order} (hr : Reachable e)
    (hv : ValidOrder o) (hfok : o.order_type = OrderType.fok) :
    (canFillCompletely o (e.getOrCreateOrderBook o.symbol).1 = true ∧
     ∃ fq trades e', e.submitOrder o =
       (SubmitResult.report o.order_id OrderStatus.filled fq 0 trades,
        e') ∧
       (trades.map Trade.quantity).sum = o.quantity) ∨
    (canFillCompletely o (e.getOrCreateOrderBook o.symbol).1 = false ∧
     ∃ e', e.submitOrder o =
       (SubmitResult.report o.order_id OrderStatus.cancelled 0 o.quantity
          [], e') ∧
       e'.order_books.find o.symbol =
         some (e.getOrCreateOrderBook o.symbol).1 ∧
       e'.trades = e.trades) := by
  have hb : BookInv (e.getOrCreateOrderBook o.symbol).1 :=
    Engine.getOrCreate_inv hr.engineInv
  obtain ⟨o', ob', rep, log, hd, -, -, hidx, hdich⟩ :=
    processFokOrder_spec hv hb
  have hdisp : dispatchOrder o (e.getOrCreateOrderBook o.symbol).1 =
      .ok (o', ob', rep, log) := by
    simp only [dispatchOrder, hfok]
    exact hd
  have hsub : e.submitOrder o =
      (SubmitResult.report o.order_id o'.status o'.filled_quantity
         o'.remaining_quantity rep,
       { order_books :=
           (e.getOrCreateOrderBook o.symbol).2.set o.symbol ob',
         trades := e.trades ++ log }) := by
    rw [Engine.submitOrder_def, hdisp]
  rcases hdich with ⟨hcf, hoeq, hrep, hlog, hob⟩ |
    ⟨hcf, hst, hz, hsum, hlog⟩
  · right
    have hst' : o'.status = OrderStatus.cancelled := by rw [hoeq]
    have hfq : o'.filled_quantity = 0 := by
      rw [hoeq]
      exact hv.2.2.1
    have hrq : o'.remaining_quantity = o.quantity := by
      rw [hoeq]
      exact hv.2.1
    rw [hst', hfq, hrq, hrep, hlog] at hsub
    refine ⟨hcf, _, hsub, ?_, ?_⟩
    · rw [hob, Books.find_set, if_pos rfl]
    · simp
  · left
    rw [hst, hz] at hsub
    exact ⟨hcf, o'.filled_quantity, rep, _, hsub, hsum⟩

def wFok : Order :=
  { order_id := 3, symbol := "S", order_type := OrderType.fok,
    side := OrderSide.buy, quantity := 2, price := some 250,
    status := OrderStatus.pending, filled_quantity := 0,
    remaining_quantity := 2 }

theorem wFokValid : ValidOrder wFok :=
  ⟨by decide, by decide, by decide, by decide, by decide,
   fun _ => ⟨250, rfl, by decide⟩⟩

theorem claim_C2_witness :
    (canFillCompletely wFok (wEngine2.getOrCreateOrderBook wFok.symbol).1
        = true ∧
     ∃ fq trades e', wEngine2.submitOrder wFok =
       (SubmitResult.report wFok.order_id OrderStatus.filled fq 0 trades,
        e') ∧
       (trades.map Trade.quantity).sum = wFok.quantity) ∨
    (canFillCompletely wFok (wEngine2.getOrCreateOrderBook wFok.symbol).1
        = false ∧
     ∃ e', wEngine2.submitOrder wFok =
       (SubmitResult.report wFok.order_id OrderStatus.cancelled 0
          wFok.quantity [], e') ∧
       e'.order_books.find wFok.symbol =
         some (wEngine2.getOrCreateOrderBook wFok.symbol).1 ∧
       e'.trades = wEngine2.trades) :=
  claim_C2 wReach2 wFokValid rfl

/-! ## Claim C6 — IOC and MARKET orders never rest -/

/-- C6: processing an IOC or MARKET order never touches the order's own
side map, never adds any id to the orders index (a fresh id stays
absent), and any unfilled remainder is disposed of by setting the status
to CANCELLED inside the same call. -/
theorem claim_C6 {o : Order} {ob : OrderBook} (hb : BookInv ob)
    (ht : o.order_type = OrderType.market ∨
      o.order_type = OrderType.ioc) :
    ∃ o' ob' trades,
      (if o.order_type = OrderType.market then processMarketOrder o ob
       else processIocOrder o ob) = .ok (o', ob', trades) ∧
      o'.order_id = o.order_id ∧
      ob'.ownMap o.side = ob.ownMap o.side ∧
      (∀ n, ob'.orders.containsKey n = true →
        ob.orders.containsKey n = true) ∧
      (ob.orders.containsKey o.order_id = false →
        ob'.orders.containsKey o.order_id = false) ∧
      (0 < o'.remaining_quantity →
        o'.status = OrderStatus.cancelled) := by
  rcases ht with ht | ht
  · obtain ⟨o', ob', tr, hpr, -, hid, -, hown, hidx, hcanc⟩ :=
      processMarketOrder_spec (o := o) hb
    rw [if_pos ht]
    refine ⟨o', ob', tr, hpr, hid, hown, hidx, ?_, hcanc⟩
    intro hfresh
    rcases Bool.eq_false_or_eq_true (ob'.orders.containsKey o.order_id)
      with h | h
    · rw [hidx o.order_id h] at hfresh
      cases hfresh
    · exact h
  · obtain ⟨o', ob', tr, hpr, -, hid, -, hown, hidx, hcanc⟩ :=
      processIocOrder_spec (o := o) hb
    rw [if_neg (by rw [ht]; intro h; cases h)]
    refine ⟨o', ob', tr, hpr, hid, hown, hidx, ?_, hcanc⟩
    intro hfresh
    rcases Bool.eq_false_or_eq_true (ob'.orders.containsKey o.order_id)
      with h | h
    · rw [hidx o.order_id h] at hfresh
      cases hfresh
    · exact h

instance instDecContraKeyLt (s : OrderSide) (a b : Int) :
    Decidable (contraKeyLt s a b) :=
  match s with
  | OrderSide.buy => inferInstanceAs (Decidable (a < b))
  | OrderSide.sell => inferInstanceAs (Decidable (b < a))

def wMkt : Order :=
  { order_id := 4, symbol := "S", order_type := OrderType.market,
    side := OrderSide.sell, quantity := 1, price := none,
    status := OrderStatus.pending, filled_quantity := 0,
    remaining_quantity := 1 }

theorem claim_C6_witness :
    ∃ o' ob' trades,
      (if wMkt.order_type = OrderType.market then
         processMarketOrder wMkt wBook2
       else processIocOrder wMkt wBook2) = .ok (o', ob', trades) ∧
      o'.order_id = wMkt.order_id ∧
      ob'.ownMap wMkt.side = wBook2.ownMap wMkt.side ∧
      (∀ n, ob'.orders.containsKey n = true →
        wBook2.orders.containsKey n = true) ∧
      (wBook2.orders.containsKey wMkt.order_id = false →
        ob'.orders.containsKey wMkt.order_id = false) ∧
      (0 < o'.remaining_quantity →
        o'.status = OrderStatus.cancelled) :=
  claim_C6 (by unfold BookInv SideOk Uncrossed MapInv LevelInv
                 LevelPartInv
               decide) (Or.inl rfl)

/-! ## Claim C9 — cancel never faults on a miss -/

/-- C9: a cancel for an unknown symbol or unknown id returns a
structured error and leaves the engine exactly as it was; and when a
submission ends in a terminal status (FILLED or CANCELLED), the order's
id is not resting, so a subsequent cancel is a not-found no-op. -/
theorem claim_C9 {e : Engine} {sym : String} {oid : Nat} {o : Order}
    (hr : Reachable e) :
    (e.order_books.find sym = none →
      e.cancelOrder sym oid =
        (CancelResult.error oid ("No order book for " ++ sym), e)) ∧
    (∀ b, e.order_books.find sym = some b →
      b.orders.containsKey oid = false →
      e.cancelOrder sym oid =
        (CancelResult.error oid "Order not found", e)) ∧
    (ValidOrder o →
      (e.getOrCreateOrderBook o.symbol).1.orders.containsKey o.order_id
        = false →
      ∀ st fq rq tr,
        (e.submitOrder o).1 =
          SubmitResult.report o.order_id st fq rq tr →
        st = OrderStatus.filled ∨ st = OrderStatus.cancelled →
        (e.submitOrder o).2.cancelOrder o.symbol o.order_id =
          (CancelResult.error o.order_id "Order not found",
           (e.submitOrder o).2)) := by
  refine ⟨?_, ?_, ?_⟩
  · intro h
    simp only [Engine.cancelOrder, h]
  · intro b hfb hnc
    have hro := OrderBook.removeOrder_not_indexed hnc
    simp only [Engine.cancelOrder, hfb, hro]
    rw [Books.setFound hfb]
  · intro hv hfresh st fq rq tr hrep hterm
    have hb : BookInv (e.getOrCreateOrderBook o.symbol).1 :=
      Engine.getOrCreate_inv hr.engineInv
    obtain ⟨o', ob', rep, log, hd, hbi, hshrink⟩ := dispatchOrder_inv hv hb
    have hsub : e.submitOrder o =
        (SubmitResult.report o.order_id o'.status o'.filled_quantity
           o'.remaining_quantity rep,
         { order_books :=
             (e.getOrCreateOrderBook o.symbol).2.set o.symbol ob',
           trades := e.trades ++ log }) := by
      rw [Engine.submitOrder_def, hd]
    simp only [hsub, SubmitResult.report.injEq] at hrep
    obtain ⟨-, hst, -⟩ := hrep
    have hterm' : o'.status = OrderStatus.filled ∨
        o'.status = OrderStatus.cancelled := by
      rw [hst]
      exact hterm
    have hnc : ob'.orders.containsKey o.order_id = false := by
      rcases Bool.eq_false_or_eq_true (ob'.orders.containsKey o.order_id)
        with h | h
      · rw [hshrink hterm' o.order_id h] at hfresh
        cases hfresh
      · exact h
    have hfind : ((e.getOrCreateOrderBook o.symbol).2.set o.symbol
        ob').find o.symbol = some ob' := by
      rw [Books.find_set, if_pos rfl]
    have hro := OrderBook.removeOrder_not_indexed hnc
    rw [hsub]
    simp only [Engine.cancelOrder, hfind, hro]
    rw [Books.setFound hfind]

theorem claim_C9_witness :
    wEngine1.cancelOrder "X" 9 =
      (CancelResult.error 9 ("No order book for " ++ "X"), wEngine1) :=
  (@claim_C9 wEngine1 "X" 9 wOrder1 wReach1).1
    (by rw [wEngine1_eval]; decide)

/-! ## Claim C3 — price-time priority within a level -/

/-- C3: a price level's queue gains new orders at the tail, and the
inner matching loop consumes the queue head-first: the makers of the
generated trades are exactly the first `k` resting orders in queue
order, and every one of them except possibly the last is consumed for
its entire remaining quantity (strict FIFO). -/
theorem claim_C3 {L : PriceLevel} {x : Order} {o : Order} {bp : Int}
    {ob : OrderBook} {trades : List Trade} {rest : SideMap}
    {o' : Order} {L' : PriceLevel} {ob' : OrderBook}
    {trades' : List Trade} :
    ((L.addOrder x).orders = L.orders ++ [x]) ∧
    (ob.contraMap o.side = (bp, L) :: rest →
     rest.containsKey bp = false →
     LevelPartInv bp (contraSide o.side) L →
     matchLevel o bp L ob trades = .ok (o', L', ob', trades') →
     0 < o.remaining_quantity → L.orders ≠ [] →
     ∃ ntr, trades' = trades ++ ntr ∧ ntr ≠ [] ∧
       ntr.map Trade.maker_order_id =
         (L.orders.take ntr.length).map Order.order_id ∧
       List.Forall₂ (fun t ro => t.quantity = ro.remaining_quantity)
         ntr.dropLast (L.orders.take (ntr.length - 1))) := by
  constructor
  · rfl
  · intro hcontra hnodup hLinv hrun h0 hne
    obtain ⟨-, -, hwork⟩ := matchLevel_inv hcontra hnodup hLinv hrun
    obtain ⟨-, -, -, ⟨ntr, hm1, hm2, -, -, -, hm6, hm7⟩⟩ :=
      hwork ⟨h0, hne⟩
    exact ⟨ntr, hm1, hm2, hm6, hm7⟩

def wC3r1 : Order :=
  { order_id := 10, symbol := "S", order_type := OrderType.limit,
    side := OrderSide.sell, quantity := 2, price := some 100,
    status := OrderStatus.pending, filled_quantity := 0,
    remaining_quantity := 2 }

def wC3r2 : Order :=
  { order_id := 11, symbol := "S", order_type := OrderType.limit,
    side := OrderSide.sell, quantity := 3, price := some 100,
    status := OrderStatus.pending, filled_quantity := 0,
    remaining_quantity := 3 }

def wC3L : PriceLevel := { price := 100, orders := [wC3r1, wC3r2],
                           total_quantity := 5 }

def wC3agg : Order :=
  { order_id := 12, symbol := "S", order_type := OrderType.limit,
    side := OrderSide.buy, quantity := 4, price := some 100,
    status := OrderStatus.pending, filled_quantity := 0,
    remaining_quantity := 4 }

def wC3Book : OrderBook :=
  { symbol := "S", bids := [], asks := [(100, wC3L)],
    orders := [(10, ⟨OrderSide.sell, 100⟩), (11, ⟨OrderSide.sell, 100⟩)] }

def wC3t1 : Trade :=
  { symbol := "S", price := 100, quantity := 2,
    aggressor_side := OrderSide.buy, maker_order_id := 10,
    taker_order_id := 12 }

def wC3t2 : Trade :=
  { symbol := "S", price := 100, quantity := 2,
    aggressor_side := OrderSide.buy, maker_order_id := 11,
    taker_order_id := 12 }

def wC3r2f : Order :=
  Order.mk 11 "S" OrderType.limit OrderSide.sell 3 (some 100)
    OrderStatus.partFilled 2 1

def wC3aggf : Order :=
  Order.mk 12 "S" OrderType.limit OrderSide.buy 4 (some 100)
    OrderStatus.filled 4 0

theorem wC3run : matchLevel wC3agg 100 wC3L wC3Book [] =
    .ok (wC3aggf, PriceLevel.mk 100 [wC3r2f] 1,
         OrderBook.mk "S" [] [(100, PriceLevel.mk 100 [wC3r2f] 1)]
           [(11, ⟨OrderSide.sell, 100⟩)],
         [wC3t1, wC3t2]) := by
  simp [matchLevel.eq_def, matchStep, Order.fill, wC3agg, wC3r1, wC3r2,
    wC3L, wC3Book, wC3t1, wC3t2, wC3r2f, wC3aggf, OrderBook.contraMap,
    OrderBook.setContraMap, OrderBook.ownMap, OrderBook.setOwnMap,
    SideMap.set, SideMap.containsKey, SideMap.erase, SideMap.find,
    OrderIndex.erase, PriceLevel.updateQuantity, PriceLevel.isEmpty,
    min_def]

theorem claim_C3_witness :
    ∃ ntr, [wC3t1, wC3t2] = ([] : List Trade) ++ ntr ∧ ntr ≠ [] ∧
      ntr.map Trade.maker_order_id =
        (wC3L.orders.take ntr.length).map Order.order_id ∧
      List.Forall₂ (fun t ro => t.quantity = ro.remaining_quantity)
        ntr.dropLast (wC3L.orders.take (ntr.length - 1)) :=
  (@claim_C3 wC3L wC3agg wC3agg 100 wC3Book [] []
    wC3aggf (PriceLevel.mk 100 [wC3r2f] 1)
    (OrderBook.mk "S" [] [(100, PriceLevel.mk 100 [wC3r2f] 1)]
      [(11, ⟨OrderSide.sell, 100⟩)])
    [wC3t1, wC3t2]).2 rfl rfl
    (by unfold LevelPartInv; decide) wC3run (by decide) (by decide)

/-! ## Claim C1 — no trade-through -/

/-- Decomposition of one `_match_order` run into per-level segments in
book scan order: the trade list extends by consecutive non-empty
groups, group `i` executing entirely at the `i`-th contra price with
positive quantities, the prices consumed are exactly a prefix of the
contra keys in scan order, and every group except the last consumes
its level's entire aggregate quantity before the next level trades. -/
theorem matchOrder_segments {o : Order} {ob : OrderBook}
    {trades : List Trade} :
    ∀ {o' : Order} {ob' : OrderBook} {trades' : List Trade},
    MapInv (contraSide o.side) (ob.contraMap o.side) →
    ((ob.contraMap o.side).map Prod.fst).Pairwise (contraKeyLt o.side) →
    matchOrder o ob trades = .ok (o', ob', trades') →
    ∃ segs : List (Int × List Trade),
      trades' = trades ++ (segs.map Prod.snd).join ∧
      segs.map Prod.fst =
        ((ob.contraMap o.side).map Prod.fst).take segs.length ∧
      (∀ pt ∈ segs, pt.2 ≠ [] ∧
        ∀ t ∈ pt.2, t.price = pt.1 ∧ 0 < t.quantity) ∧
      List.Forall₂ (fun pt lv => (pt.2.map Trade.quantity).sum =
          lv.2.total_quantity)
        segs.dropLast
        ((ob.contraMap o.side).take (segs.length - 1)) := by
  induction o, ob, trades using matchOrder.induct with
  | case1 o ob trades hrem hnil =>
    intro o' ob' trades' hMap hPair hrun
    rw [matchOrder_nil hrem hnil] at hrun
    simp only [Except.ok.injEq, Prod.mk.injEq] at hrun
    obtain ⟨h1, h2, h3⟩ := hrun
    subst h3
    exact ⟨[], by simp, by simp, by simp, by simp⟩
  | case2 o ob trades hrem bp L tail hb hbr =>
    intro o' ob' trades' hMap hPair hrun
    rw [matchOrder_break hrem hb hbr] at hrun
    simp only [Except.ok.injEq, Prod.mk.injEq] at hrun
    obtain ⟨h1, h2, h3⟩ := hrun
    subst h3
    exact ⟨[], by simp, by simp, by simp, by simp⟩
  | case3 o ob trades hrem bp L tail hb hbr e herr =>
    intro o' ob' trades' hMap hPair hrun
    rw [matchOrder_level hrem hb (by simpa using hbr), herr] at hrun
    exact absurd hrun (by simp)
  | case6 o ob trades hrem =>
    intro o' ob' trades' hMap hPair hrun
    rw [matchOrder_stop hrem] at hrun
    simp only [Except.ok.injEq, Prod.mk.injEq] at hrun
    obtain ⟨h1, h2, h3⟩ := hrun
    subst h3
    exact ⟨[], by simp, by simp, by simp, by simp⟩
  | case5 o ob trades hrem bp L tail hb hbr o₁ L₁ ob₁ trades₁ hlev
      hstop =>
    intro o' ob' trades' hMap hPair hrun
    rw [matchOrder_level hrem hb (by simpa using hbr), hlev] at hrun
    have hrun' : (if 0 < o₁.remaining_quantity then
        matchOrder o₁ (eraseEmptyLevel o.side bp L₁ ob₁) trades₁
      else .ok (o₁, eraseEmptyLevel o.side bp L₁ ob₁, trades₁)) =
        .ok (o', ob', trades') := hrun
    rw [if_neg hstop] at hrun'
    simp only [Except.ok.injEq, Prod.mk.injEq] at hrun'
    obtain ⟨h1, h2, h3⟩ := hrun'
    subst h3
    have hLinv : LevelInv bp (contraSide o.side) L :=
      hMap (bp, L) (by rw [hb]; exact List.mem_cons_self _ _)
    have hnodup : SideMap.containsKey tail bp = false := by
      rw [hb] at hPair
      exact pairwise_head_not_contains hPair
    obtain ⟨-, -, hwork⟩ := matchLevel_inv hb hnodup hLinv.1 hlev
    obtain ⟨-, -, -, ⟨ntr, hm1, hm2, hm3, -⟩⟩ := hwork ⟨hrem, hLinv.2⟩
    refine ⟨[(bp, ntr)], ?_, ?_, ?_, ?_⟩
    · rw [hm1]
      simp
    · rw [hb]
      simp
    · intro pt hpt
      have h := List.mem_singleton.mp hpt
      rw [h]
      refine ⟨hm2, ?_⟩
      intro t ht
      exact ⟨(hm3 t ht).2.1, (hm3 t ht).2.2.2.2⟩
    · simp
  | case4 o ob trades hrem bp L tail hb hbr o₁ L₁ ob₁ trades₁ hlev
      obE hcont =>
    rename_i ih
    have hobE₀ : obE = eraseEmptyLevel o.side bp L₁ ob₁ := rfl
    clear_value obE
    intro o' ob' trades' hMap hPair hrun
    rw [matchOrder_level hrem hb (by simpa using hbr), hlev] at hrun
    have hrun₂ : (if 0 < o₁.remaining_quantity then
        matchOrder o₁ (eraseEmptyLevel o.side bp L₁ ob₁) trades₁
      else .ok (o₁, eraseEmptyLevel o.side bp L₁ ob₁, trades₁)) =
        .ok (o', ob', trades') := hrun
    rw [if_pos hcont] at hrun₂
    have hLinv : LevelInv bp (contraSide o.side) L :=
      hMap (bp, L) (by rw [hb]; exact List.mem_cons_self _ _)
    have hnodup : SideMap.containsKey tail bp = false := by
      rw [hb] at hPair
      exact pairwise_head_not_contains hPair
    have hspec := matchLevel_inv hb hnodup hLinv.1 hlev
    obtain ⟨⟨ha1, ha2, ha3, ha4, ha5, ha6⟩, -, hwork⟩ := hspec
    obtain ⟨⟨hj1, hj2, hj3⟩, ⟨hk1, hk2⟩, ⟨hl1, hl2, hl3, hl4⟩,
      ⟨ntr, hm1, hm2, hm3, hm4, -⟩⟩ := hwork ⟨hrem, hLinv.2⟩
    have hmin : min o.remaining_quantity L.total_quantity =
        L.total_quantity := by
      rcases le_total o.remaining_quantity L.total_quantity with h | h
      · exfalso
        rw [hj1, min_eq_left h] at hcont
        simp at hcont
      · exact min_eq_right h
    have hempty : L₁.orders = [] := by
      by_contra hne
      have hpos := hk1.total_pos hne
      rw [hk2, hmin] at hpos
      omega
    have hcontra₁ : ob₁.contraMap o.side = tail := by
      rw [hl1, if_pos hempty]
    have hnoop : eraseEmptyLevel o.side bp L₁ ob₁ = ob₁ := by
      apply eraseEmptyLevel_noop
      left
      rw [hcontra₁]
      exact hnodup
    rw [hnoop] at hrun₂
    have hobE : obE = ob₁ := hobE₀.trans hnoop
    rw [hobE] at ih
    have hMap₁ : MapInv (contraSide o₁.side) (ob₁.contraMap o₁.side) := by
      rw [ha2, hcontra₁]
      intro pair hmem
      exact hMap pair (by rw [hb]; exact List.mem_cons_of_mem _ hmem)
    have hPair₁ : ((ob₁.contraMap o₁.side).map Prod.fst).Pairwise
        (contraKeyLt o₁.side) := by
      rw [ha2, hcontra₁]
      rw [hb] at hPair
      simp only [List.map_cons, List.pairwise_cons] at hPair
      exact hPair.2
    obtain ⟨segs, hs1, hs2, hs3, hs4⟩ := ih hMap₁ hPair₁ hrun₂
    rw [ha2, hcontra₁] at hs2 hs4
    have hsum : (ntr.map Trade.quantity).sum = L.total_quantity := by
      rw [hm4, hmin]
    refine ⟨(bp, ntr) :: segs, ?_, ?_, ?_, ?_⟩
    · rw [hs1, hm1]
      simp
    · simp only [List.map_cons, List.length_cons]
      rw [hb, hs2]
      simp [List.take_cons]
    · intro pt hpt
      rcases List.mem_cons.mp hpt with h | h
      · rw [h]
        refine ⟨hm2, ?_⟩
        intro t ht
        exact ⟨(hm3 t ht).2.1, (hm3 t ht).2.2.2.2⟩
      · exact hs3 pt h
    · rw [hb]
      cases segs with
      | nil => simp
      | cons s₁ srest =>
        exact List.Forall₂.cons hsum hs4

/-- C1: no trade-through.  Every `_match_order` run splits its trades
into consecutive non-empty per-level segments: segment `i` trades —
with positive quantities — entirely at the `i`-th best contra price;
every segment except the last consumes its level's entire aggregate
quantity, so at the instant any trade of segment `i` executes every
better-priced level holds zero quantity and the remaining contra keys
are exactly `keys.drop i`; the traded price heads that list and beats
every other remaining price in the aggressor's scan order — the loop
never skips a better level, and never consumes a worse-priced level
while a better one still holds quantity. -/
theorem claim_C1 {o : Order} {ob : OrderBook} {o' : Order}
    {ob' : OrderBook} {trades' : List Trade}
    (hMap : MapInv (contraSide o.side) (ob.contraMap o.side))
    (hPair : ((ob.contraMap o.side).map Prod.fst).Pairwise
      (contraKeyLt o.side))
    (hrun : matchOrder o ob [] = .ok (o', ob', trades')) :
    ∃ segs : List (Int × List Trade),
      trades' = (segs.map Prod.snd).join ∧
      segs.map Prod.fst =
        ((ob.contraMap o.side).map Prod.fst).take segs.length ∧
      (∀ pt ∈ segs, pt.2 ≠ [] ∧
        ∀ t ∈ pt.2, t.price = pt.1 ∧ 0 < t.quantity) ∧
      List.Forall₂ (fun pt lv => (pt.2.map Trade.quantity).sum =
          lv.2.total_quantity)
        segs.dropLast
        ((ob.contraMap o.side).take (segs.length - 1)) ∧
      ∀ i (hi : i < segs.length),
        (((ob.contraMap o.side).map Prod.fst).drop i).head? =
          some (segs.get ⟨i, hi⟩).1 ∧
        ∀ q ∈ ((ob.contraMap o.side).map Prod.fst).drop (i + 1),
          contraKeyLt o.side (segs.get ⟨i, hi⟩).1 q := by
  obtain ⟨segs, h1, h2, h3, h4⟩ := matchOrder_segments hMap hPair hrun
  have hlen : segs.length ≤
      ((ob.contraMap o.side).map Prod.fst).length := by
    have hl := congrArg List.length h2
    simp only [List.length_map, List.length_take] at hl
    simp only [List.length_map]
    omega
  refine ⟨segs, by simpa using h1, h2, h3, h4, ?_⟩
  intro i hi
  have hik : i < ((ob.contraMap o.side).map Prod.fst).length :=
    lt_of_lt_of_le hi hlen
  have hget : (segs.get ⟨i, hi⟩).1 =
      ((ob.contraMap o.side).map Prod.fst).get ⟨i, hik⟩ := by
    have hx : (segs.get ⟨i, hi⟩).1 =
        (segs.map Prod.fst).get ⟨i, by simpa using hi⟩ := by
      simp [List.get_eq_getElem]
    rw [hx]
    have hy := List.get_of_eq h2 ⟨i, by simpa using hi⟩
    rw [hy]
    simp [List.get_eq_getElem]
  constructor
  · rw [List.drop_eq_getElem_cons hik, hget]
    simp [List.get_eq_getElem]
  · have hpd := hPair.sublist
      (List.drop_sublist i ((ob.contraMap o.side).map Prod.fst))
    rw [List.drop_eq_getElem_cons hik] at hpd
    simp only [List.pairwise_cons] at hpd
    intro q hq
    rw [hget]
    have := hpd.1 q hq
    simpa [List.get_eq_getElem] using this

def wC1r1 : Order :=
  Order.mk 21 "S" OrderType.limit OrderSide.sell 2 (some 10)
    OrderStatus.pending 0 2

def wC1r2 : Order :=
  Order.mk 22 "S" OrderType.limit OrderSide.sell 3 (some 20)
    OrderStatus.pending 0 3

def wC1book : OrderBook :=
  OrderBook.mk "S" []
    [(10, PriceLevel.mk 10 [wC1r1] 2), (20, PriceLevel.mk 20 [wC1r2] 3)]
    [(21, ⟨OrderSide.sell, 10⟩), (22, ⟨OrderSide.sell, 20⟩)]

def wC1agg : Order :=
  Order.mk 23 "S" OrderType.market OrderSide.buy 4 none
    OrderStatus.pending 0 4

def wC1t1 : Trade :=
  Trade.mk "S" 10 2 OrderSide.buy 21 23

def wC1t2 : Trade :=
  Trade.mk "S" 20 2 OrderSide.buy 22 23

def wC1aggf : Order :=
  Order.mk 23 "S" OrderType.market OrderSide.buy 4 none
    OrderStatus.filled 4 0

def wC1r2f : Order :=
  Order.mk 22 "S" OrderType.limit OrderSide.sell 3 (some 20)
    OrderStatus.partFilled 2 1

def wC1bookf : OrderBook :=
  OrderBook.mk "S" [] [(20, PriceLevel.mk 20 [wC1r2f] 1)]
    [(22, ⟨OrderSide.sell, 20⟩)]

def wC1agg₂ : Order :=
  Order.mk 23 "S" OrderType.market OrderSide.buy 4 none
    OrderStatus.partFilled 2 2

def wC1book₂ : OrderBook :=
  OrderBook.mk "S" [] [(20, PriceLevel.mk 20 [wC1r2] 3)]
    [(22, ⟨OrderSide.sell, 20⟩)]

theorem wC1lev1 : matchLevel wC1agg 10 (PriceLevel.mk 10 [wC1r1] 2)
    wC1book [] = .ok (wC1agg₂, PriceLevel.mk 10 [] 0, wC1book₂,
      [wC1t1]) := by
  simp [matchLevel.eq_def, matchStep, Order.fill, wC1agg, wC1r1, wC1r2,
    wC1book, wC1t1, wC1agg₂, wC1book₂, OrderBook.contraMap,
    OrderBook.setContraMap, OrderBook.ownMap, OrderBook.setOwnMap,
    SideMap.set, SideMap.containsKey, SideMap.erase, SideMap.find,
    OrderIndex.erase, PriceLevel.updateQuantity, PriceLevel.isEmpty,
    min_def]

theorem wC1lev2 : matchLevel wC1agg₂ 20 (PriceLevel.mk 20 [wC1r2] 3)
    wC1book₂ [wC1t1] = .ok (wC1aggf, PriceLevel.mk 20 [wC1r2f] 1,
      wC1bookf, [wC1t1, wC1t2]) := by
  simp [matchLevel.eq_def, matchStep, Order.fill, wC1agg₂, wC1r2,
    wC1book₂, wC1t1, wC1t2, wC1aggf, wC1r2f, wC1bookf,
    OrderBook.contraMap, OrderBook.setContraMap, OrderBook.ownMap,
    OrderBook.setOwnMap, SideMap.set, SideMap.containsKey, SideMap.erase,
    SideMap.find, OrderIndex.erase, PriceLevel.updateQuantity,
    PriceLevel.isEmpty, min_def]

theorem wC1run : matchOrder wC1agg wC1book [] =
    .ok (wC1aggf, wC1bookf, [wC1t1, wC1t2]) := by
  rw [@matchOrder_level wC1agg wC1book [] 10 (PriceLevel.mk 10 [wC1r1] 2)
    [(20, PriceLevel.mk 20 [wC1r2] 3)] (by decide) rfl rfl, wC1lev1]
  show (if 0 < wC1agg₂.remaining_quantity then
      matchOrder wC1agg₂ (eraseEmptyLevel wC1agg.side 10
        (PriceLevel.mk 10 [] 0) wC1book₂) [wC1t1]
    else .ok (wC1agg₂, eraseEmptyLevel wC1agg.side 10
      (PriceLevel.mk 10 [] 0) wC1book₂, [wC1t1])) =
    .ok (wC1aggf, wC1bookf, [wC1t1, wC1t2])
  rw [if_pos (by decide)]
  have hnoop : eraseEmptyLevel wC1agg.side 10 (PriceLevel.mk 10 [] 0)
      wC1book₂ = wC1book₂ := by
    simp [eraseEmptyLevel, OrderBook.contraMap, wC1agg, wC1book₂,
      SideMap.containsKey]
  rw [hnoop]
  rw [@matchOrder_level wC1agg₂ wC1book₂ [wC1t1] 20
    (PriceLevel.mk 20 [wC1r2] 3) [] (by decide) rfl rfl, wC1lev2]
  show (if 0 < wC1aggf.remaining_quantity then
      matchOrder wC1aggf (eraseEmptyLevel wC1agg₂.side 20
        (PriceLevel.mk 20 [wC1r2f] 1) wC1bookf) [wC1t1, wC1t2]
    else .ok (wC1aggf, eraseEmptyLevel wC1agg₂.side 20
      (PriceLevel.mk 20 [wC1r2f] 1) wC1bookf, [wC1t1, wC1t2])) =
    .ok (wC1aggf, wC1bookf, [wC1t1, wC1t2])
  rw [if_neg (by decide)]
  have hnoop₂ : eraseEmptyLevel wC1agg₂.side 20
      (PriceLevel.mk 20 [wC1r2f] 1) wC1bookf = wC1bookf := by
    simp [eraseEmptyLevel, PriceLevel.isEmpty, wC1r2f]
  rw [hnoop₂]

theorem claim_C1_witness :
    ∃ segs : List (Int × List Trade),
      [wC1t1, wC1t2] = (segs.map Prod.snd).join ∧
      segs.map Prod.fst =
        ((wC1book.contraMap wC1agg.side).map Prod.fst).take
          segs.length ∧
      (∀ pt ∈ segs, pt.2 ≠ [] ∧
        ∀ t ∈ pt.2, t.price = pt.1 ∧ 0 < t.quantity) ∧
      List.Forall₂ (fun pt lv => (pt.2.map Trade.quantity).sum =
          lv.2.total_quantity)
        segs.dropLast
        ((wC1book.contraMap wC1agg.side).take (segs.length - 1)) ∧
      ∀ i (hi : i < segs.length),
        (((wC1book.contraMap wC1agg.side).map Prod.fst).drop i).head? =
          some (segs.get ⟨i, hi⟩).1 ∧
        ∀ q ∈ ((wC1book.contraMap wC1agg.side).map Prod.fst).drop
            (i + 1),
          contraKeyLt wC1agg.side (segs.get ⟨i, hi⟩).1 q :=
  claim_C1
    (by unfold MapInv LevelInv LevelPartInv
        decide)
    (by decide) wC1run
